import Mathlib

/-! # The object cache of the proxy (`cache.c`): a shallow embedding

The cache is a doubly linked list of `cache_node`s in recency order (head = most
recently used), a byte budget `free_bytes`, and a bag `cache_hits` of pointers to
nodes that were read since the last `cache_in`.

Memory is embedded explicitly: a pointer is an address (a natural number, `NULL`
is `0`), the heap maps an address to the node stored there, `malloc` yields a
fresh address and `free` unmaps one.  Dereferencing `NULL` or an unmapped address,
reaching past the end of an allocated block and indexing outside an array are
undefined behaviour in C; the embedding reports them as `Fault.ub`.  Loops take a
fuel argument and report `Fault.fuel` when it runs out.

The source writes `cache->head`, `cache->free_bytes`, `node.pre`, `node.succ`
and `cache_node->buf` where the declarations (`cache_list cache;`,
`cache_node *node`, the local `cached_node`) call for `cache.head`,
`cache.free_bytes`, `node->pre`, `node->succ` and `cached_node->buf`; the
embedding reads them that way.

`cache_in` allocates its node with `malloc(sizeof(cache_node *))`, the size of a
pointer, and never allocates the block `new_node->buf` is to point to.  The
embedding keeps both: `State.malloc` takes the requested size and the block it
returns holds a node only if the size is that of a node, and `memcpy` copies into
the block its destination points to.  A state whose list holds entries is
therefore never the outcome of `cache_in`; such states are given as heaps and
described by the predicate `Inv`.

The `int` variables are embedded as integers.  Between two calls `free_bytes` and
every `content_length` lie in `0 .. MAX_CACHE_SIZE` (see `Inv`) and `bag_index`
lies below `bag_size`, so the sums and differences of `cache.c` stay inside
`int`; the one product, `2*bag_size` in `resize_cache_hits`, leaves `int` at
`bag_size = 2^30` and is reported as `Fault.ub` there.

`cache.h` is not among the sources: the fields of `cache_node`, `cache_list` and
`cache_bag` are taken from their uses in `cache.c`, and the two size constants
from `proxy.c`.  `malloc` and `realloc` are taken to succeed.

The semaphores `w`, `u`, `read_mutex` matter for interleavings only.  The
functions above are embedded as sequential code, in which every `P` is matched by
its `V`; the protocol itself is embedded separately, as a transition system over
the semaphore operations and the updates of `read_cnt` (`conc_step`).
-/

namespace ProxyCache

/-! # The embedding of `cache.c`

## Constants (`proxy.c` lines 5-6, `cache.c` line 52) -/

def MAX_CACHE_SIZE : Int := 1049000

def MAX_OBJECT_SIZE : Int := 102400

def CACHE_HITS : Int := 32

/-- The largest value of an `int`. -/
def INT_MAX : Int := 2147483647

/-- The value of `sizeof(cache_node *)`: one pointer. -/
def SIZEOF_NODE_PTR : Nat := 8

/-- The least value `sizeof(cache_node)` can have: the node holds the pointers
`buf`, `pre` and `succ`, the `int content_length` and the string `url`. Whatever
`cache.h` declares, a node is larger than one pointer. -/
def SIZEOF_NODE : Nat := 3 * SIZEOF_NODE_PTR + 4 + 1

/-! ## Data model -/

abbrev Ptr := Nat

def NULL : Ptr := 0

/-- The two ways a run of the embedded code can fail to return. -/
inductive Fault where
  | ub
  | fuel
  deriving DecidableEq, Repr

/-- The `cache_node` of the header comment of `cache.c`: url, buf,
content_length, pre, succ. `buf` is the block of bytes the member points to; a
member that was never set points to no bytes. -/
structure cache_node where
  url : String
  buf : List Nat
  content_length : Int
  pre : Ptr
  succ : Ptr
  deriving DecidableEq, Repr

/-- The global `cache`: free_bytes, head, tail. -/
structure cache_list where
  free_bytes : Int
  head : Ptr
  tail : Ptr
  deriving DecidableEq, Repr

/-- The global `cache_hits`: the array `bag` (its length is the number of
allocated slots) and the two `int`s `bag_index` and `bag_size`. An `int` is
embedded as an integer, and a value computed past `INT_MAX` is reported as
undefined where the code can compute one (`2*bag_size` in `resize_cache_hits`). -/
structure cache_bag where
  bag : List Ptr
  bag_index : Int
  bag_size : Int
  deriving DecidableEq, Repr

/-- The heap of cache nodes together with the globals of `cache.c`. Address `p`
is mapped when `mem[p] = some (some n)`. -/
structure State where
  mem : List (Option cache_node)
  cache : cache_list
  cache_hits : cache_bag
  read_cnt : Int
  deriving DecidableEq, Repr

/-! ## Memory primitives -/

/-- Read the node at `p` (`*p`). -/
def State.load (s : State) (p : Ptr) : Except Fault cache_node :=
  if p = NULL then .error .ub
  else match s.mem[p]? with
    | some (some n) => .ok n
    | _ => .error .ub

/-- Replace what is stored at address `p`. -/
def State.write (s : State) (p : Ptr) (v : Option cache_node) : State :=
  { s with mem := s.mem.set p v }

/-- Overwrite the node at a mapped address. -/
def State.store (s : State) (p : Ptr) (n : cache_node) : Except Fault State :=
  match s.load p with
  | .ok _ => .ok (s.write p (some n))
  | .error e => .error e

/-- The call `free(p)` on a node (its `buf` goes with it). -/
def State.free (s : State) (p : Ptr) : Except Fault State :=
  match s.load p with
  | .ok _ => .ok (s.write p none)
  | .error e => .error e

/-- The call `malloc(size)` for a node: a fresh address, never handed out before.
A block of at least `SIZEOF_NODE` bytes holds a node, its members unset (`buf`
points to no bytes). A smaller block holds no node: the members of a
`cache_node` do not all fit in it, and the code that fills a node touches every
one of them; the embedding reports the access to a node through such a pointer
as out of bounds. -/
def State.malloc (s : State) (size : Nat) : Ptr × State :=
  (s.mem.length,
    { s with mem := s.mem ++ [if SIZEOF_NODE ≤ size then some ⟨"", [], 0, NULL, NULL⟩ else none] })

/-! ## The hit bag (`cache.c` lines 68-116) -/

def init_cache_hits (s : State) : State :=
  { s with cache_hits := ⟨List.replicate CACHE_HITS.toNat NULL, 0, CACHE_HITS⟩ }

def is_cache_hits_empty (s : State) : Bool :=
  s.cache_hits.bag_index == 0

/-- The function `resize_cache_hits`. The product `2*cache_hits.bag_size` is
computed in `int`; past `INT_MAX` it is a signed overflow, which is undefined.
`realloc` to the doubled number of slots keeps the old contents. -/
def resize_cache_hits (s : State) : Except Fault State :=
  if INT_MAX < 2 * s.cache_hits.bag_size then .error .ub
  else
    let n := (2 * s.cache_hits.bag_size).toNat
    .ok { s with cache_hits :=
      { s.cache_hits with
        bag := (s.cache_hits.bag ++ List.replicate (n - s.cache_hits.bag.length) NULL).take n
        bag_size := 2 * s.cache_hits.bag_size } }

/-- The function `cache_hits_put`. The write `bag[bag_index] = n` is undefined
outside the allocated slots. The increment that follows cannot leave `int`: the
write was inside the array, and the number of its slots is an `int`. -/
def cache_hits_put (n : Ptr) (s : State) : Except Fault State :=
  let i := s.cache_hits.bag_index
  if i < 0 ∨ (s.cache_hits.bag.length : Int) ≤ i then .error .ub
  else
    let s := { s with cache_hits :=
      { s.cache_hits with bag := s.cache_hits.bag.set i.toNat n, bag_index := i + 1 } }
    if s.cache_hits.bag_index ≥ s.cache_hits.bag_size then resize_cache_hits s
    else .ok s

/-- The function `cache_hits_get`: nil on the empty bag, else the slot at the
decremented `bag_index`. -/
def cache_hits_get (s : State) : Except Fault (Ptr × State) :=
  if ¬ is_cache_hits_empty s then
    let i := s.cache_hits.bag_index - 1
    let s := { s with cache_hits := { s.cache_hits with bag_index := i } }
    if i < 0 then .error .ub
    else match s.cache_hits.bag[i.toNat]? with
      | some p => .ok (p, s)
      | none => .error .ub
  else .ok (NULL, s)

/-! ## The recency list (`cache.c` lines 121-199) -/

def init_cache_list (s : State) : State :=
  { s with cache := ⟨MAX_CACHE_SIZE, NULL, NULL⟩ }

/-- The state after `init_cache`: nothing mapped (address 0 is `NULL`). -/
def init_cache : State :=
  let s : State := ⟨[none], ⟨0, NULL, NULL⟩, ⟨[], 0, 0⟩, 0⟩
  let s := init_cache_list s
  let s := init_cache_hits s
  { s with read_cnt := 0 }

def delete_node (node : Ptr) (s : State) : Except Fault State := do
  let n ← s.load node
  let s ← if n.pre ≠ NULL then do
      let p ← s.load n.pre
      s.store n.pre { p with succ := n.succ }
    else pure s
  let n ← s.load node
  let s ← if n.succ ≠ NULL then do
      let q ← s.load n.succ
      s.store n.succ { q with pre := n.pre }
    else pure s
  if node = s.cache.tail then do
    let n ← s.load node
    pure { s with cache := { s.cache with tail := n.pre } }
  else pure s

def insert_node (node : Ptr) (s : State) : Except Fault State := do
  if s.cache.head ≠ NULL then
    let n ← s.load node
    let s ← s.store node { n with pre := NULL, succ := s.cache.head }
    let h ← s.load s.cache.head
    let s ← s.store s.cache.head { h with pre := node }
    pure { s with cache := { s.cache with head := node } }
  else
    let n ← s.load node
    let s ← s.store node { n with pre := NULL, succ := NULL }
    pure { s with cache := { s.cache with head := node, tail := node } }

/-- The body of the `while` loop of `evict_cache` (lines 193-197). -/
def evict_body (lru_node : Ptr) (s : State) : Except Fault State := do
  let s ← delete_node lru_node s
  let n ← s.load lru_node
  let s := { s with cache := { s.cache with free_bytes := s.cache.free_bytes + n.content_length } }
  let n ← s.load lru_node
  let s := { s with cache := { s.cache with tail := n.pre } }
  s.free lru_node

/-- The `while` loop of `evict_cache`; `lru_node` is assigned once, before the
loop, and the body does not change it. -/
def evict_loop (bytes : Int) (lru_node : Ptr) : Nat → State → Except Fault State
  | 0, _ => .error .fuel
  | fuel + 1, s =>
    if s.cache.free_bytes < bytes then do
      let s ← evict_body lru_node s
      evict_loop bytes lru_node fuel s
    else pure s

def evict_cache (fuel : Nat) (bytes : Int) (s : State) : Except Fault State :=
  evict_loop bytes s.cache.tail fuel s

/-! ## `cache_in` (`cache.c` lines 206-233) -/

/-- The body of the `while((curr_n = cache_hits_get()))` loop of `cache_in`
(lines 213-216). -/
def drain_step (curr_n : Ptr) (s : State) : Except Fault State :=
  if curr_n ≠ s.cache.head then do
    let s ← delete_node curr_n s
    insert_node curr_n s
  else pure s

/-- The `while((curr_n = cache_hits_get()))` loop of `cache_in`. -/
def drain_hits : Nat → State → Except Fault State
  | 0, _ => .error .fuel
  | fuel + 1, s => do
    let (curr_n, s) ← cache_hits_get s
    if curr_n ≠ NULL then
      let s ← drain_step curr_n s
      drain_hits fuel s
    else pure s

/-- The libc call `memcpy(dest, src, n)`. `dest` is the block of bytes the
destination pointer points to and `src` the block behind the source pointer; the
outcome is what `dest` holds afterwards. The call is undefined when the
destination points to no block, when the count is negative (it becomes a huge
`size_t`), and when it reaches past the end of either block. -/
def memcpy (dest src : List Nat) (n : Int) : Except Fault (List Nat) :=
  if dest = [] ∨ n < 0 ∨ (src.length : Int) < n ∨ (dest.length : Int) < n then .error .ub
  else .ok (src.take n.toNat ++ dest.drop n.toNat)

/-- Lines 223-230 of `cache_in`: `malloc(sizeof(cache_node *))`, then
`strcpy(new_node->url, url)`, `memcpy(new_node->buf, buf, bytes)`,
`new_node->content_length = bytes`, `insert_node(new_node)` and
`cache->free_bytes -= bytes`. No statement sets `new_node->buf`. -/
def cache_in_store (url : String) (buf : List Nat) (bytes : Int) (s : State) :
    Except Fault State := do
  let (new_node, s) := s.malloc SIZEOF_NODE_PTR
  let n ← s.load new_node
  let s ← s.store new_node { n with url := url }
  let n ← s.load new_node
  let b ← memcpy n.buf buf bytes
  let s ← s.store new_node { n with buf := b }
  let n ← s.load new_node
  let s ← s.store new_node { n with content_length := bytes }
  let s ← insert_node new_node s
  pure { s with cache := { s.cache with free_bytes := s.cache.free_bytes - bytes } }

/-- The function `cache_in`: drain the hit bag, evict, store the new node. -/
def cache_in (fuel : Nat) (url : String) (buf : List Nat) (bytes : Int) (s : State) :
    Except Fault State := do
  let s ← drain_hits fuel s
  let s ← evict_cache fuel bytes s
  cache_in_store url buf bytes s

/-! ## `cache_out` (`cache.c` lines 239-282) -/

/-- The `for` loop of `find_cached`. -/
def find_cached_loop (url : String) : Nat → Ptr → State → Except Fault Ptr
  | 0, _, _ => .error .fuel
  | fuel + 1, curr_node, s =>
    if curr_node ≠ NULL then do
      let n ← s.load curr_node
      if url = n.url then pure curr_node
      else find_cached_loop url fuel n.succ s
    else pure NULL

def find_cached (fuel : Nat) (url : String) (s : State) : Except Fault Ptr :=
  find_cached_loop url fuel s.cache.head s

/-- What `cache_out` hands back: its return value, the `rio_writen` calls it
made (descriptor and bytes), and the state it leaves. -/
structure cache_out_result where
  cached : Int
  written : List (Int × List Nat)
  state : State
  deriving DecidableEq, Repr

/-- The csapp call `rio_writen(fd, usrbuf, n)`: sends the first `n` bytes of
`usrbuf` to `fd`; a negative count or one past the end of `usrbuf` is undefined. -/
def rio_writen (fd : Int) (usrbuf : List Nat) (n : Int) : Except Fault (List (Int × List Nat)) :=
  if n < 0 ∨ (usrbuf.length : Int) < n then .error .ub
  else .ok [(fd, usrbuf.take n.toNat)]

/-- The function `cache_out`. -/
def cache_out (fuel : Nat) (url : String) (client_fd : Int) (s : State) :
    Except Fault cache_out_result := do
  let s := { s with read_cnt := s.read_cnt + 1 }
  let cached_node ← find_cached fuel url s
  if cached_node ≠ NULL then do
    let n ← s.load cached_node
    let out ← rio_writen client_fd n.buf n.content_length
    let s ← cache_hits_put cached_node s
    pure ⟨1, out, { s with read_cnt := s.read_cnt - 1 }⟩
  else
    pure ⟨0, [], { s with read_cnt := s.read_cnt - 1 }⟩

/-! ## The semaphores of `cache_in` and `cache_out` (`cache.c` lines 209-232, 259-279)

Any number of threads run `cache_out` and `cache_in` at once. All of them run the
same code, and what a thread does next depends on where it stands, on `read_cnt`
and on whether its lookup found a node; so a state of the protocol records the
three semaphores, `read_cnt`, and how many threads stand at each point of the
code. A step is one semaphore operation or one update of `read_cnt`; the test of
`read_cnt` that follows an update runs with the semaphore operation it selects,
and the statements that touch the list or the hit bag run with the semaphore
operation that ends them. `P` on a semaphore that is 0 blocks: that step is not
enabled. -/

/-- The semaphores, `read_cnt` and the number of threads at each point:
`idle` outside any call; in `cache_out` `at_gate` after `P(&read_mutex)` of line
259, `counted` after `read_cnt++` of line 260, `first_in` after `P(&w)` of line
262, `reading` after `V(&read_mutex)` of line 263 (this thread scans the list),
`in_bag` after `P(&u)`, `read_done` after `V(&u)`, `at_exit` after
`P(&read_mutex)` of line 275, `uncounted` after `read_cnt--` of line 276,
`last_out` after `V(&w)` of line 278; in `cache_in` `writing` after `P(&w)` of
line 209. -/
structure Conc where
  w : Nat
  u : Nat
  read_mutex : Nat
  read_cnt : Int
  idle : Nat
  at_gate : Nat
  counted : Nat
  first_in : Nat
  reading : Nat
  in_bag : Nat
  read_done : Nat
  at_exit : Nat
  uncounted : Nat
  last_out : Nat
  writing : Nat
  deriving DecidableEq, Repr

/-- The steps of `cache_out` and `cache_in`: the semaphore operations and the two
updates of `read_cnt`. -/
inductive ConcOp where
  | out_P_read_mutex
  | out_incr
  | out_first_P_w
  | out_next_V_read_mutex
  | out_V_read_mutex
  | out_hit_P_u
  | out_V_u
  | out_miss_P_read_mutex
  | out_hit_P_read_mutex
  | out_decr
  | out_last_V_w
  | out_more_V_read_mutex
  | out_exit_V_read_mutex
  | in_P_w
  | in_V_w
  deriving DecidableEq, Repr

/-- Modelled from the spec: the initial value of the three semaphores. The
source calls `Sem_init(&w)`, `Sem_init(&u)` and `Sem_init(&read_mutex)` without a
value; the spec describes each as a lock, which is free at first, that is 1.
`threads` threads are about to call `cache_out` or `cache_in`. -/
def conc_init (threads : Nat) : Conc :=
  ⟨1, 1, 1, 0, threads, 0, 0, 0, 0, 0, 0, 0, 0, 0, 0⟩

/-- One thread performs one step; `none` when no thread stands before that step
or the step blocks. -/
def conc_step (op : ConcOp) (s : Conc) : Option Conc :=
  match op with
  | .out_P_read_mutex =>
    -- line 259: P(&read_mutex)
    if 0 < s.idle ∧ 0 < s.read_mutex then
      some { s with idle := s.idle - 1, read_mutex := s.read_mutex - 1, at_gate := s.at_gate + 1 }
    else none
  | .out_incr =>
    -- line 260: read_cnt++
    if 0 < s.at_gate then
      some { s with at_gate := s.at_gate - 1, read_cnt := s.read_cnt + 1,
                    counted := s.counted + 1 }
    else none
  | .out_first_P_w =>
    -- lines 261-262: read_cnt == 1; P(&w)
    if 0 < s.counted ∧ s.read_cnt = 1 ∧ 0 < s.w then
      some { s with counted := s.counted - 1, w := s.w - 1, first_in := s.first_in + 1 }
    else none
  | .out_next_V_read_mutex =>
    -- lines 261, 263: read_cnt != 1; V(&read_mutex)
    if 0 < s.counted ∧ s.read_cnt ≠ 1 then
      some { s with counted := s.counted - 1, read_mutex := s.read_mutex + 1,
                    reading := s.reading + 1 }
    else none
  | .out_V_read_mutex =>
    -- line 263: V(&read_mutex)
    if 0 < s.first_in then
      some { s with first_in := s.first_in - 1, read_mutex := s.read_mutex + 1,
                    reading := s.reading + 1 }
    else none
  | .out_hit_P_u =>
    -- lines 266-268: find_cached found a node; P(&u)
    if 0 < s.reading ∧ 0 < s.u then
      some { s with reading := s.reading - 1, u := s.u - 1, in_bag := s.in_bag + 1 }
    else none
  | .out_V_u =>
    -- lines 269-272: rio_writen; cache_hits_put; V(&u)
    if 0 < s.in_bag then
      some { s with in_bag := s.in_bag - 1, u := s.u + 1, read_done := s.read_done + 1 }
    else none
  | .out_miss_P_read_mutex =>
    -- lines 266-267, 275: find_cached found nothing; P(&read_mutex)
    if 0 < s.reading ∧ 0 < s.read_mutex then
      some { s with reading := s.reading - 1, read_mutex := s.read_mutex - 1,
                    at_exit := s.at_exit + 1 }
    else none
  | .out_hit_P_read_mutex =>
    -- line 275: P(&read_mutex)
    if 0 < s.read_done ∧ 0 < s.read_mutex then
      some { s with read_done := s.read_done - 1, read_mutex := s.read_mutex - 1,
                    at_exit := s.at_exit + 1 }
    else none
  | .out_decr =>
    -- line 276: read_cnt--
    if 0 < s.at_exit then
      some { s with at_exit := s.at_exit - 1, read_cnt := s.read_cnt - 1,
                    uncounted := s.uncounted + 1 }
    else none
  | .out_last_V_w =>
    -- lines 277-278: read_cnt == 0; V(&w)
    if 0 < s.uncounted ∧ s.read_cnt = 0 then
      some { s with uncounted := s.uncounted - 1, w := s.w + 1, last_out := s.last_out + 1 }
    else none
  | .out_more_V_read_mutex =>
    -- lines 277, 279: read_cnt != 0; V(&read_mutex)
    if 0 < s.uncounted ∧ s.read_cnt ≠ 0 then
      some { s with uncounted := s.uncounted - 1, read_mutex := s.read_mutex + 1,
                    idle := s.idle + 1 }
    else none
  | .out_exit_V_read_mutex =>
    -- line 279: V(&read_mutex)
    if 0 < s.last_out then
      some { s with last_out := s.last_out - 1, read_mutex := s.read_mutex + 1,
                    idle := s.idle + 1 }
    else none
  | .in_P_w =>
    -- line 209: P(&w)
    if 0 < s.idle ∧ 0 < s.w then
      some { s with idle := s.idle - 1, w := s.w - 1, writing := s.writing + 1 }
    else none
  | .in_V_w =>
    -- lines 212-232: drain, evict, insert; V(&w)
    if 0 < s.writing then
      some { s with writing := s.writing - 1, w := s.w + 1, idle := s.idle + 1 }
    else none

/-- A run of steps, in order. -/
def conc_run : List ConcOp → Conc → Option Conc
  | [], s => some s
  | op :: rest, s => (conc_step op s).bind (conc_run rest)

/-- The states of the protocol: `conc_init` followed by any number of steps,
taken by any threads in any order. -/
inductive ConcReachable : Conc → Prop
  | init (threads : Nat) : ConcReachable (conc_init threads)
  | step (op : ConcOp) {s s' : Conc} : ConcReachable s → conc_step op s = some s' →
      ConcReachable s'

/-- The number of `cache_out` threads between the `P(&w)` or `V(&read_mutex)` that
lets them in and the `V(&w)` or `V(&read_mutex)` that lets them out; those in
`reading` scan the list, those in `in_bag` read the node they found. -/
def Conc.readers (s : Conc) : Nat :=
  s.first_in + s.reading + s.in_bag + s.read_done + s.at_exit + s.uncounted

/-- The semaphore `w` is held on behalf of the readers: it is taken, and not by
a `cache_in`. -/
def Conc.w_held_by_readers (s : Conc) : Prop := s.w = 0 ∧ s.writing = 0

/-- The first reader has counted itself (`read_cnt` is 1) and has not yet passed
`P(&w)` of line 262. -/
def Conc.entering (s : Conc) : Prop := s.counted = 1 ∧ s.read_cnt = 1

/-- The last reader has uncounted itself (`read_cnt` is 0) and has not yet
performed `V(&w)` of line 278. -/
def Conc.leaving (s : Conc) : Prop := s.uncounted = 1 ∧ s.read_cnt = 0

/-- The equations that hold in every state of the protocol: each semaphore is 1
less the number of threads holding it, and `read_cnt` counts the threads between
`read_cnt++` and `read_cnt--`. -/
structure ConcInv (s : Conc) : Prop where
  read_mutex : s.read_mutex + s.at_gate + s.counted + s.first_in + s.at_exit + s.uncounted
    + s.last_out = 1
  u : s.u + s.in_bag = 1
  w : s.w + s.writing + (if 0 < s.readers then 1 else 0) = 1
  read_cnt : s.read_cnt
    = ((s.counted + s.first_in + s.reading + s.in_bag + s.read_done + s.at_exit : Nat) : Int)

/-! # The vocabulary of the theorems

## The recency list as a sequence of addresses -/

/-- The payload fields of the node at `p`: url, buf, content_length. -/
def State.data (s : State) (p : Ptr) : Option (String × List Nat × Int) :=
  match s.load p with
  | .ok n => some (n.url, n.buf, n.content_length)
  | .error _ => none

/-- The nodes of `l` are mapped and linked in this order: the first one's `pre`
is `prev`, each one's `succ` is the next one, the last one's `succ` is `nxt`. -/
def Seg (s : State) : Ptr → List Ptr → Ptr → Prop
  | _, [], _ => True
  | prev, p :: rest, nxt =>
      ∃ n, s.load p = .ok n ∧ n.pre = prev ∧ n.succ = rest.headD nxt ∧ Seg s p rest nxt

/-- The state holds the recency list `l` (head first): the nodes are distinct,
linked both ways, `cache.head` is the first and `cache.tail` the last. -/
structure ListAt (s : State) (l : List Ptr) : Prop where
  nodup : l.Nodup
  seg : Seg s NULL l NULL
  head : s.cache.head = l.headD NULL
  tail : s.cache.tail = l.getLastD NULL

/-- Everything but the links and the boundary pointers agrees in two states. -/
structure SameData (s s' : State) : Prop where
  free_bytes : s'.cache.free_bytes = s.cache.free_bytes
  cache_hits : s'.cache_hits = s.cache_hits
  read_cnt : s'.read_cnt = s.read_cnt
  mem_length : s'.mem.length = s.mem.length
  data : ∀ p, s'.data p = s.data p

/-- What the drain loop does to the list for one popped reference. -/
def moveToHead (x : Ptr) (l : List Ptr) : List Ptr :=
  if l.headD NULL = x then l else x :: l.erase x

/-! ## The hit bag as a sequence -/

/-- The references waiting in `cache_hits`, oldest first. -/
def pending (s : State) : List Ptr :=
  s.cache_hits.bag.take s.cache_hits.bag_index.toNat

/-- The bounds of the hit bag: `0 <= bag_index < bag_size` and `bag` has
`bag_size` slots. -/
structure BagOK (s : State) : Prop where
  index_nonneg : 0 ≤ s.cache_hits.bag_index
  index_lt : s.cache_hits.bag_index < s.cache_hits.bag_size
  length : (s.cache_hits.bag.length : Int) = s.cache_hits.bag_size

/-- The next `cache_hits_put` stays inside `int`: it finds room in the array, or
doubling `bag_size` does not overflow. -/
def BagRoom (s : State) : Prop :=
  s.cache_hits.bag_index + 1 < s.cache_hits.bag_size ∨ 2 * s.cache_hits.bag_size ≤ INT_MAX

/-- The payloads, the byte budget and the reader count agree in two states. -/
structure SameStore (s s' : State) : Prop where
  free_bytes : s'.cache.free_bytes = s.cache.free_bytes
  read_cnt : s'.read_cnt = s.read_cnt
  mem_length : s'.mem.length = s.mem.length
  data : ∀ p, s'.data p = s.data p

/-! ## Sizes, the walk from `head`, and the invariant -/

/-- The `content_length` of the node at `p` (0 when nothing is mapped there). -/
def State.size (s : State) (p : Ptr) : Int :=
  match s.data p with
  | some d => d.2.2
  | none => 0

/-- The sum of `content_length` over the nodes of `l`. -/
def used (s : State) (l : List Ptr) : Int := (l.map s.size).sum

/-- Follow `succ` from `p` for at most `fuel` nodes. -/
def walk (s : State) : Nat → Ptr → List Ptr
  | 0, _ => []
  | fuel + 1, p =>
    match s.load p with
    | .ok n => p :: walk s fuel n.succ
    | .error _ => []

/-- The recency list read off the heap: the nodes met from `cache.head` along
`succ`. No list of distinct mapped nodes is longer than the heap. -/
def entries (s : State) : List Ptr := walk s s.mem.length s.cache.head

/-- The bytes held by the recency list: the sum of `content_length` over it. -/
def usedBytes (s : State) : Int := used s (entries s)

/-- The invariant of the cache between two calls, for the recency list `l`. -/
structure Inv (s : State) (l : List Ptr) : Prop where
  list : ListAt s l
  bag : BagOK s
  hits : ∀ p ∈ pending s, p ∈ l
  mem : s.mem ≠ []
  sizes : ∀ p ∈ l, ∀ d, s.data p = some d → (d.2.1.length : Int) = d.2.2
  account : s.cache.free_bytes + used s l = MAX_CACHE_SIZE
  free_nonneg : 0 ≤ s.cache.free_bytes

/-! ## The walk from `tail` and the shape of the list -/

/-- The list after the drain loop: every pending reference moved to the head,
the last one pushed first. -/
def drained (s : State) (l : List Ptr) : List Ptr := (pending s).foldr moveToHead l

/-- The two stages of `cache_in` that precede the allocation of the new node:
the drain loop, then `evict_cache`. -/
def drain_then_evict (fuel : Nat) (bytes : Int) (s : State) : Except Fault State :=
  drain_hits fuel s >>= evict_cache fuel bytes

/-- The state `s2` is `s1` with its last node `x` evicted: unlinked, unmapped and
its size credited. `cache.head` is left as it was. -/
structure Evicted (s1 : State) (d1 : List Ptr) (x : Ptr) (s2 : State) : Prop where
  seg : Seg s2 NULL d1 NULL
  tail : s2.cache.tail = d1.getLastD NULL
  head : s2.cache.head = s1.cache.head
  free_bytes : s2.cache.free_bytes = s1.cache.free_bytes + s1.size x
  gone : s2.load x = .error .ub
  data : ∀ p, p ≠ x → s2.data p = s1.data p
  cache_hits : s2.cache_hits = s1.cache_hits
  read_cnt : s2.read_cnt = s1.read_cnt
  mem_length : s2.mem.length = s1.mem.length

/-! ## `cache_out` -/

/-- Does the node at `p` carry this url (`!strcmp(url, curr_node->url)`)? -/
def has_url (s : State) (url : String) (p : Ptr) : Bool :=
  match s.load p with
  | .ok n => decide (url = n.url)
  | .error _ => false

/-- The first node of `l`, head first, that carries this url. -/
def first_match (s : State) (url : String) (l : List Ptr) : Option Ptr :=
  l.find? (has_url s url)

/-! ## Reachable states -/

/-- The states of the hit bag: `init_cache_hits` followed by any number of
completed `cache_hits_put` and `cache_hits_get` calls. -/
inductive BagReachable : State → Prop
  | init (s0 : State) : BagReachable (init_cache_hits s0)
  | put (n : Ptr) {s s' : State} : BagReachable s → cache_hits_put n s = .ok s' → BagReachable s'
  | get {s s' : State} {p : Ptr} :
      BagReachable s → cache_hits_get s = .ok (p, s') → BagReachable s'

/-- The size of the bag is `CACHE_HITS` times a power of two, and at most `2^30`. -/
def SizeOK (s : State) : Prop :=
  ∃ k : Nat, k ≤ 25 ∧ s.cache_hits.bag_size = CACHE_HITS * 2 ^ k

/-- A run of `k` calls `cache_hits_put(n)`. -/
def cache_hits_puts (n : Ptr) : Nat → State → Except Fault State
  | 0, s => .ok s
  | k + 1, s => cache_hits_puts n k s >>= cache_hits_put n

/-! ## Runs of calls -/

/-- The call `cache_in(url, buf, bytes)` immediately followed by
`cache_out(url, fd)`. -/
def round_trip (fuel : Nat) (url : String) (buf : List Nat) (bytes : Int) (fd : Int)
    (s : State) : Except Fault cache_out_result :=
  cache_in fuel url buf bytes s >>= cache_out fuel url fd

/-- A payload of `n` zero bytes. -/
def payload (n : Nat) : List Nat := List.replicate n 0

/-! ## Concrete states used to instantiate the theorems

The heaps below hold well-formed recency lists, the lists `cache.c` is written to
maintain (no run of `cache_in` yields them: its store stage does not complete).
Node `i` is the `i`-th oldest object, its `succ` the next older one and its `pre`
the next newer one. -/

/-- A mapped node holding `n` zero bytes under `url`. -/
def obj (url : String) (n : Nat) (pre succ : Ptr) : Option cache_node :=
  some ⟨url, payload n, n, pre, succ⟩

/-- A cache holding the object "a" of three bytes. -/
def cache_one : State :=
  ⟨[none, some ⟨"a", [1, 2, 3], 3, 0, 0⟩], ⟨1048997, 1, 1⟩, ⟨List.replicate 32 0, 0, 32⟩, 0⟩

/-- The result of `cache_out("a", 7)` on `cache_one`. -/
def cache_one_hit : cache_out_result :=
  ⟨1, [(7, [1, 2, 3])],
    { cache_one with cache_hits := ⟨(List.replicate 32 0).set 0 1, 1, 32⟩ }⟩

/-- A cache holding the list C, B, A of one byte each (A is the oldest, at the
tail). -/
def cache_abc : State :=
  ⟨[none, some ⟨"A", [0], 1, 2, 0⟩, some ⟨"B", [0], 1, 3, 1⟩, some ⟨"C", [0], 1, 0, 2⟩],
   ⟨1048997, 3, 1⟩, ⟨List.replicate 32 0, 0, 32⟩, 0⟩

/-- The result of `cache_out("A", 7)` on `cache_abc`. -/
def cache_abc_hit : cache_out_result :=
  ⟨1, [(7, [0])], { cache_abc with cache_hits := ⟨(List.replicate 32 0).set 0 1, 1, 32⟩ }⟩

/-- The result of `cache_out("B", 7)` after `cache_out("A", 7)` on `cache_abc`. -/
def cache_abc_hit_AB : cache_out_result :=
  ⟨1, [(7, [0])],
    { cache_abc with cache_hits := ⟨((List.replicate 32 0).set 0 1).set 1 2, 2, 32⟩ }⟩

/-- The result of `cache_out("C", 7)` after `cache_out("A", 7)` and
`cache_out("B", 7)` on `cache_abc`. -/
def cache_abc_hit_ABC : cache_out_result :=
  ⟨1, [(7, [0])],
    { cache_abc with
      cache_hits := ⟨(((List.replicate 32 0).set 0 1).set 1 2).set 2 3, 3, 32⟩ }⟩

/-- The result of a second `cache_out("A", 7)` after the first one on `cache_abc`. -/
def cache_abc_hit_AA : cache_out_result :=
  ⟨1, [(7, [0])],
    { cache_abc with cache_hits := ⟨((List.replicate 32 0).set 0 1).set 1 1, 2, 32⟩ }⟩

/-- A cache holding two objects under "u". -/
def key_two : State :=
  ⟨[none, some ⟨"u", [1], 1, 2, 0⟩, some ⟨"u", [2], 1, 0, 1⟩], ⟨1048998, 2, 1⟩,
   ⟨List.replicate 32 0, 0, 32⟩, 0⟩

/-- A cache holding the list C, B, A of 10 KiB each (A is the oldest, at the
tail). -/
def lru_abc : State :=
  ⟨[none, obj "A" 10240 2 0, obj "B" 10240 3 1, obj "C" 10240 0 2],
   ⟨1018280, 3, 1⟩, ⟨List.replicate 32 0, 0, 32⟩, 0⟩

/-- A cache holding, from the tail, "a" and "b" of one byte and then "u0" .. "u9"
of `MAX_OBJECT_SIZE` bytes each: 1024002 bytes used, 24998 free. -/
def full_cache : State :=
  ⟨[none, obj "a" 1 2 0, obj "b" 1 3 1, obj "u0" 102400 4 2, obj "u1" 102400 5 3,
    obj "u2" 102400 6 4, obj "u3" 102400 7 5, obj "u4" 102400 8 6, obj "u5" 102400 9 7,
    obj "u6" 102400 10 8, obj "u7" 102400 11 9, obj "u8" 102400 12 10, obj "u9" 102400 0 11],
   ⟨24998, 12, 1⟩, ⟨List.replicate 32 0, 0, 32⟩, 0⟩

/-- A cache holding, from the tail, "e" of zero bytes and then "u0" .. "u9" of
`MAX_OBJECT_SIZE` bytes each: 1024000 bytes used, 25000 free. -/
def zero_tail : State :=
  ⟨[none, obj "e" 0 2 0, obj "u0" 102400 3 1, obj "u1" 102400 4 2, obj "u2" 102400 5 3,
    obj "u3" 102400 6 4, obj "u4" 102400 7 5, obj "u5" 102400 8 6, obj "u6" 102400 9 7,
    obj "u7" 102400 10 8, obj "u8" 102400 11 9, obj "u9" 102400 0 10],
   ⟨25000, 11, 1⟩, ⟨List.replicate 32 0, 0, 32⟩, 0⟩

/-! ## States of the semaphore protocol -/

/-- The state of the protocol in which `k` threads scan the list at once and `n`
more threads stand outside any call. -/
def scan_state (k n : Nat) : Conc :=
  ⟨if k = 0 then 1 else 0, 1, 1, (k : Int), n, 0, 0, 0, k, 0, 0, 0, 0, 0, 0⟩

/-- A `cache_in` is in its critical section and a `cache_out` has passed
`read_cnt++`: it stands before `P(&w)` of line 262. -/
def reader_waiting : Conc :=
  { w := 0, u := 1, read_mutex := 0, read_cnt := 1, idle := 0, at_gate := 0, counted := 1,
    first_in := 0, reading := 0, in_bag := 0, read_done := 0, at_exit := 0, uncounted := 0,
    last_out := 0, writing := 1 }

/-- The only `cache_out` has passed `read_cnt--`: it stands before `V(&w)` of
line 278. -/
def reader_leaving : Conc :=
  { w := 0, u := 1, read_mutex := 0, read_cnt := 0, idle := 0, at_gate := 0, counted := 0,
    first_in := 0, reading := 0, in_bag := 0, read_done := 0, at_exit := 0, uncounted := 1,
    last_out := 0, writing := 0 }

/-! ## `proxy.c`: `is_valid` and `parse_uri` (lines 129-172)

A C string is embedded as the list of its characters up to the terminating NUL,
a pointer into it as an offset. `strchr`, `strstr` and `strcpy` are libc; a call
that gets a nil pointer, or a write through one, is `Fault.ub`, and so is a
`strcpy` between two ranges of one buffer that overlap. The buffers `hostname`
and `port` are as large as the one holding `uri`, so the copies into them fit. -/

/-- The terminating character of a C string. -/
def NUL : Char := Char.ofNat 0

/-- The character `*p` at the start of what is left of a C string (NUL at its end). -/
def deref (s : List Char) : Char := s.headD NUL

/-- The libc call `strchr(s, c)` for a character other than NUL: the offset of the
first `c` in `s`, `none` for a nil result. -/
def strchr : List Char → Char → Option Nat
  | [], _ => none
  | x :: rest, c => if x = c then some 0 else (strchr rest c).map (· + 1)

/-- The libc call `strstr(s, needle)`: the offset of the first place where
`needle` starts in `s`, `none` for a nil result. -/
def strstr : List Char → List Char → Option Nat
  | [], needle => if needle = [] then some 0 else none
  | x :: rest, needle =>
    if needle.isPrefixOf (x :: rest) then some 0 else (strstr rest needle).map (· + 1)

/-- The function `is_valid` of `proxy.c`. -/
def is_valid (buf : List Char) : Int :=
  if deref buf ≠ ' ' then
    match strchr buf ' ' with
    | some cp =>
      if deref (buf.drop (cp + 1)) ≠ ' ' ∧ (strchr (buf.drop (cp + 1)) ' ').isSome then 1
      else 0
    | none => 0
  else 0

/-- What `parse_uri` leaves in its three buffers. -/
structure parse_uri_result where
  uri : List Char
  hostname : List Char
  port : List Char
  deriving DecidableEq, Repr

/-- The function `parse_uri` of `proxy.c`. `cp_hd` and `cp_ft` are offsets into
`uri`; writing NUL at `cp_ft` and copying from `cp_hd` yields the characters from
`cp_hd` up to `cp_ft`. The final `strcpy(uri+1, cp_ft+1)` copies the `len`
characters after `cp_ft` and their NUL to offset 1 of the same buffer; the two
ranges `1 .. 1+len` and `cp_ft+1 .. cp_ft+1+len` overlap when `cp_ft <= len`, and
the call is undefined then. -/
def parse_uri (uri : List Char) : Except Fault parse_uri_result :=
  match strstr uri ['/', '/'] with
  | none => .error .ub
  | some i =>
    let cp_hd := i + 2
    match strchr (uri.drop cp_hd) ':' with
    | some j =>
      let hostname := (uri.drop cp_hd).take j
      let cp_hd := cp_hd + j + 1
      match strchr (uri.drop cp_hd) '/' with
      | none => .error .ub
      | some k =>
        let port := (uri.drop cp_hd).take k
        let cp_ft := cp_hd + k
        if cp_ft ≤ (uri.drop (cp_ft + 1)).length then .error .ub
        else .ok ⟨'/' :: uri.drop (cp_ft + 1), hostname, port⟩
    | none =>
      let port := ['8', '0']
      match strchr (uri.drop cp_hd) '/' with
      | none => .error .ub
      | some k =>
        let hostname := (uri.drop cp_hd).take k
        let cp_ft := cp_hd + k
        if cp_ft ≤ (uri.drop (cp_ft + 1)).length then .error .ub
        else .ok ⟨'/' :: uri.drop (cp_ft + 1), hostname, port⟩

/-- The pieces of a line between its spaces: every space ends one piece and
starts the next. -/
def tokens : List Char → List (List Char)
  | [] => [[]]
  | c :: rest =>
    if c = ' ' then [] :: tokens rest
    else match tokens rest with
      | t :: ts => (c :: t) :: ts
      | [] => [[c]]

/-- The form `<method> <uri> <version>` in the words of the claim: three
non-empty tokens separated by single spaces. -/
def is_three_tokens (buf : List Char) : Bool :=
  match tokens buf with
  | [m, u, v] => !m.isEmpty && !u.isEmpty && !v.isEmpty
  | _ => false

/-- The line end that `Rio_readlineb` leaves at the end of a request line. -/
def CRLF : List Char := [Char.ofNat 13, Char.ofNat 10]

/-! # Theorems -/

/-! ## Memory lemmas -/

@[simp] theorem bind_ok_eq {ε α β : Type} (a : α) (f : α → Except ε β) :
    (Except.ok a >>= f) = f a := rfl

@[simp] theorem bind_error_eq {ε α β : Type} (e : ε) (f : α → Except ε β) :
    ((Except.error e : Except ε α) >>= f) = Except.error e := rfl

@[simp] theorem pure_eq_ok {ε α : Type} (a : α) : (pure a : Except ε α) = Except.ok a := rfl

@[simp] theorem throw_eq_error {ε α : Type} (e : ε) :
    (throw e : Except ε α) = Except.error e := rfl

theorem load_ok_iff {s : State} {p : Ptr} {n : cache_node} :
    s.load p = .ok n ↔ p ≠ NULL ∧ s.mem[p]? = some (some n) := by
  unfold State.load
  by_cases hp : p = NULL
  · simp [hp]
  · simp only [hp, if_false, ne_eq, not_false_eq_true, true_and]
    split
    · next m hm => simp [hm]
    · next hm =>
      constructor
      · intro h; cases h
      · intro h; exact absurd h (hm n)

theorem load_ne_null {s : State} {p : Ptr} {n : cache_node} (h : s.load p = .ok n) :
    p ≠ NULL := (load_ok_iff.1 h).1

theorem load_lt {s : State} {p : Ptr} {n : cache_node} (h : s.load p = .ok n) :
    p < s.mem.length := by
  have h2 := (load_ok_iff.1 h).2
  by_contra hc
  rw [List.getElem?_eq_none (Nat.le_of_not_lt hc)] at h2
  cases h2

theorem load_error {s : State} {p : Ptr} {e : Fault} (h : s.load p = .error e) : e = .ub := by
  unfold State.load at h
  split at h
  · cases h; rfl
  · split at h
    · cases h
    · cases h; rfl

@[simp] theorem write_cache (s : State) (p : Ptr) (v : Option cache_node) :
    (s.write p v).cache = s.cache := rfl

@[simp] theorem write_cache_hits (s : State) (p : Ptr) (v : Option cache_node) :
    (s.write p v).cache_hits = s.cache_hits := rfl

@[simp] theorem write_read_cnt (s : State) (p : Ptr) (v : Option cache_node) :
    (s.write p v).read_cnt = s.read_cnt := rfl

@[simp] theorem write_mem_length (s : State) (p : Ptr) (v : Option cache_node) :
    (s.write p v).mem.length = s.mem.length := by
  simp [State.write]

theorem load_write_ne {s : State} {p q : Ptr} (v : Option cache_node) (h : q ≠ p) :
    (s.write p v).load q = s.load q := by
  unfold State.load State.write
  simp only [List.getElem?_set_ne (Ne.symm h)]

theorem load_write_same {s : State} {p : Ptr} {n0 : cache_node} (n : cache_node)
    (h : s.load p = .ok n0) : (s.write p (some n)).load p = .ok n := by
  have hlt := load_lt h
  have hne := load_ne_null h
  unfold State.load State.write
  simp [hne, List.getElem?_set_self, hlt]

theorem load_write_none (s : State) (p : Ptr) : (s.write p none).load p = .error .ub := by
  unfold State.load State.write
  by_cases hp : p = NULL
  · simp [hp]
  · simp only [hp, if_false]
    by_cases hlt : p < s.mem.length
    · simp [List.getElem?_set_self, hlt]
    · rw [List.getElem?_eq_none (by simpa using hlt)]

theorem store_eq {s : State} {p : Ptr} {n0 : cache_node} (n : cache_node)
    (h : s.load p = .ok n0) : s.store p n = .ok (s.write p (some n)) := by
  unfold State.store; rw [h]

theorem free_eq {s : State} {p : Ptr} {n0 : cache_node}
    (h : s.load p = .ok n0) : s.free p = .ok (s.write p none) := by
  unfold State.free; rw [h]

theorem store_error {s : State} {p : Ptr} {e : Fault} (n : cache_node)
    (h : s.load p = .error e) : s.store p n = .error .ub := by
  unfold State.store; rw [h, load_error h]

theorem free_error {s : State} {p : Ptr} {e : Fault}
    (h : s.load p = .error e) : s.free p = .error .ub := by
  unfold State.free; rw [h, load_error h]

theorem load_ge_error {s : State} {q : Ptr} (h : s.mem.length ≤ q) :
    s.load q = .error .ub := by
  unfold State.load
  split
  · rfl
  · rw [List.getElem?_eq_none h]

/-- The block `cache_in` gets from `malloc(sizeof(cache_node *))` holds no node. -/
theorem malloc_ptr_no_node (s : State) :
    (s.malloc SIZEOF_NODE_PTR).2.load (s.malloc SIZEOF_NODE_PTR).1 = .error .ub := by
  unfold State.load State.malloc
  by_cases h : s.mem.length = NULL
  · rw [if_pos h]
  · rw [if_neg h]
    have hs : ¬ SIZEOF_NODE ≤ SIZEOF_NODE_PTR := by decide
    simp only [hs, if_false, List.getElem?_append_right (Nat.le_refl _), Nat.sub_self,
      List.getElem?_cons_zero]

/-- The store stage of `cache_in` never returns: it fills the members of a node
through a pointer to a block that holds none. -/
theorem cache_in_store_faults (url : String) (buf : List Nat) (bytes : Int) (s : State) :
    cache_in_store url buf bytes s = .error .ub := by
  unfold cache_in_store
  simp only [malloc_ptr_no_node, bind_error_eq]


/-! ## The recency list as a sequence of addresses -/

theorem seg_cons {s : State} {prev p : Ptr} {rest : List Ptr} {nxt : Ptr} :
    Seg s prev (p :: rest) nxt ↔
      ∃ n, s.load p = .ok n ∧ n.pre = prev ∧ n.succ = rest.headD nxt ∧ Seg s p rest nxt :=
  Iff.rfl

theorem Seg.frame {s s' : State} {prev : Ptr} {l : List Ptr} {nxt : Ptr}
    (h : ∀ p ∈ l, s'.load p = s.load p) (hs : Seg s prev l nxt) : Seg s' prev l nxt := by
  induction l generalizing prev with
  | nil => trivial
  | cons p rest ih =>
    obtain ⟨n, h1, h2, h3, h4⟩ := hs
    refine ⟨n, ?_, h2, h3, ih (fun q hq => h q (List.mem_cons_of_mem _ hq)) h4⟩
    rw [h p (List.mem_cons_self _ _)]; exact h1

theorem getLastD_cons_eq (p : Ptr) (r : List Ptr) (d : Ptr) :
    (p :: r).getLastD d = r.getLastD p := by
  cases r <;> simp [List.getLastD]

theorem headD_append_eq (l1 l2 : List Ptr) (d : Ptr) :
    (l1 ++ l2).headD d = l1.headD (l2.headD d) := by
  cases l1 <;> simp

theorem getLastD_append_eq (l1 l2 : List Ptr) (d : Ptr) :
    (l1 ++ l2).getLastD d = l2.getLastD (l1.getLastD d) := by
  induction l1 generalizing d with
  | nil => simp
  | cons p r ih => rw [List.cons_append, getLastD_cons_eq, getLastD_cons_eq, ih]

theorem getLastD_mem (l : List Ptr) (d : Ptr) (h : l ≠ []) : l.getLastD d ∈ l := by
  induction l generalizing d with
  | nil => exact absurd rfl h
  | cons p r ih =>
    rw [getLastD_cons_eq]
    cases r with
    | nil => simp
    | cons q r2 => exact List.mem_cons_of_mem _ (ih p (by simp))

theorem seg_append {s : State} {prev : Ptr} {l1 l2 : List Ptr} {nxt : Ptr} :
    Seg s prev (l1 ++ l2) nxt ↔
      Seg s prev l1 (l2.headD nxt) ∧ Seg s (l1.getLastD prev) l2 nxt := by
  induction l1 generalizing prev with
  | nil => simp [Seg]
  | cons p r ih =>
    rw [List.cons_append, seg_cons, seg_cons, getLastD_cons_eq, headD_append_eq]
    simp only [ih]
    constructor
    · rintro ⟨n, h1, h2, h3, h4, h5⟩; exact ⟨⟨n, h1, h2, h3, h4⟩, h5⟩
    · rintro ⟨⟨n, h1, h2, h3, h4⟩, h5⟩; exact ⟨n, h1, h2, h3, h4, h5⟩

theorem Seg.nodes_mapped {s : State} {prev : Ptr} {l : List Ptr} {nxt : Ptr}
    (hs : Seg s prev l nxt) {p : Ptr} (hp : p ∈ l) : ∃ n, s.load p = .ok n := by
  induction l generalizing prev with
  | nil => cases hp
  | cons q rest ih =>
    obtain ⟨n, h1, _, _, h4⟩ := hs
    rcases List.mem_cons.1 hp with rfl | hm
    · exact ⟨n, h1⟩
    · exact ih h4 hm

theorem SameData.same (s : State) : SameData s s := ⟨rfl, rfl, rfl, rfl, fun _ => rfl⟩

theorem SameData.andThen {s1 s2 s3 : State} (h12 : SameData s1 s2) (h23 : SameData s2 s3) :
    SameData s1 s3 :=
  ⟨h23.free_bytes.trans h12.free_bytes, h23.cache_hits.trans h12.cache_hits,
   h23.read_cnt.trans h12.read_cnt, h23.mem_length.trans h12.mem_length,
   fun p => (h23.data p).trans (h12.data p)⟩

theorem data_write_links {s : State} {a : Ptr} {na : cache_node} (h : s.load a = .ok na)
    (n : cache_node) (hu : n.url = na.url) (hb : n.buf = na.buf) (hc : n.content_length = na.content_length)
    (p : Ptr) : (s.write a (some n)).data p = s.data p := by
  unfold State.data
  by_cases hp : p = a
  · subst hp; rw [load_write_same n h, h]; simp [hu, hb, hc]
  · rw [load_write_ne _ hp]

theorem sameData_write_links {s : State} {a : Ptr} {na : cache_node} (h : s.load a = .ok na)
    (n : cache_node) (hu : n.url = na.url) (hb : n.buf = na.buf) (hc : n.content_length = na.content_length) :
    SameData s (s.write a (some n)) :=
  ⟨rfl, rfl, rfl, by simp, data_write_links h n hu hb hc⟩

theorem eq_nil_or_snoc (l : List Ptr) : l = [] ∨ ∃ L b, l = L ++ [b] := by
  rcases List.eq_nil_or_concat l with h | ⟨L, b, h⟩
  · exact Or.inl h
  · exact Or.inr ⟨L, b, by simpa using h⟩

theorem delete_node_spec {s : State} {l1 l2 : List Ptr} {x : Ptr}
    (hnd : (l1 ++ x :: l2).Nodup) (hseg : Seg s NULL (l1 ++ x :: l2) NULL)
    (htail : s.cache.tail = (l1 ++ x :: l2).getLastD NULL) :
    ∃ s', delete_node x s = .ok s' ∧ Seg s' NULL (l1 ++ l2) NULL ∧
      s'.cache.tail = (l1 ++ l2).getLastD NULL ∧ s'.cache.head = s.cache.head ∧
      s'.load x = s.load x ∧ SameData s s' := by
  obtain ⟨hA, hB⟩ := seg_append.1 hseg
  obtain ⟨n, hx, hpre, hsucc, hC⟩ := hB
  rcases eq_nil_or_snoc l1 with rfl | ⟨l1', a, rfl⟩
  · cases l2 with
    | nil =>
      simp at hpre hsucc htail
      refine ⟨{ s with cache := { s.cache with tail := NULL } }, ?_, trivial, rfl, rfl, rfl,
        ⟨rfl, rfl, rfl, rfl, fun _ => rfl⟩⟩
      unfold delete_node
      simp [hx, hpre, hsucc, htail]
    | cons b l2' =>
      obtain ⟨nb, hb, hbpre, hbsucc, hD⟩ := hC
      simp only [List.nil_append, List.nodup_cons, List.mem_cons, not_or] at hnd
      obtain ⟨⟨hxb, hxl⟩, hbl, hnd2⟩ := hnd
      simp only [List.getLastD_nil, List.headD_cons] at hpre hsucc
      have hbn : b ≠ NULL := load_ne_null hb
      have hxt : x ≠ s.cache.tail := by
        rw [htail, List.nil_append, getLastD_cons_eq]
        intro h
        have := getLastD_mem (b :: l2') x (by simp)
        rw [← h] at this
        rcases List.mem_cons.1 this with h1 | h1
        · exact hxb h1
        · exact hxl h1
      refine ⟨s.write b (some { nb with pre := NULL }), ?_, ?_, ?_, rfl, ?_, ?_⟩
      · unfold delete_node
        simp [hx, hpre, hsucc, hbn, hb, store_eq _ hb, hxt]
      · rw [List.nil_append, seg_cons]
        refine ⟨_, load_write_same _ hb, rfl, hbsucc, ?_⟩
        exact hD.frame (fun p hp => load_write_ne _ (fun h => hbl (by subst h; exact hp)))
      · rw [write_cache, htail, List.nil_append, List.nil_append, getLastD_cons_eq,
          getLastD_cons_eq, getLastD_cons_eq]
      · exact load_write_ne _ hxb
      · exact sameData_write_links hb _ rfl rfl rfl
  · obtain ⟨hA1, hA2⟩ := seg_append.1 hA
    obtain ⟨na, ha, hapre, hasucc, -⟩ := hA2
    have han : a ≠ NULL := load_ne_null ha
    rw [getLastD_append_eq] at hpre
    simp only [List.getLastD_cons, List.getLastD_nil] at hpre
    rw [List.append_assoc] at hnd
    have hnd1 := (List.nodup_append.1 hnd).1
    have hnd23 := (List.nodup_append.1 hnd).2.1
    have hdis := (List.nodup_append.1 hnd).2.2
    have hal1 : ∀ p ∈ l1', p ≠ a := fun p hp h => hdis hp (by subst h; simp)
    have hxa : x ≠ a := by
      intro h
      have := (List.nodup_cons.1 hnd23).1
      exact this (h ▸ (by simp))
    have hxl2 : x ∉ l2 := by
      have := (List.nodup_cons.1 (List.nodup_cons.1 hnd23).2).1
      exact this
    have hal2 : a ∉ l2 := by
      intro h
      exact (List.nodup_cons.1 hnd23).1 (List.mem_cons_of_mem _ (by simpa using h))
    cases l2 with
    | nil =>
      simp only [List.headD_nil] at hsucc
      have htx : s.cache.tail = x := by
        rw [htail, getLastD_append_eq]; simp
      refine ⟨{ (s.write a (some { na with succ := NULL })) with
          cache := { s.cache with tail := a } }, ?_, ?_, ?_, rfl, ?_, ?_⟩
      · unfold delete_node
        simp [hx, hpre, hsucc, han, ha, store_eq _ ha, load_write_ne _ hxa, htx]
      · rw [List.append_nil]
        refine seg_append.2 ⟨?_, ?_⟩
        · exact Seg.frame (fun p hp => load_write_ne _ (hal1 p hp)) hA1
        · exact ⟨_, load_write_same _ ha, hapre, rfl, trivial⟩
      · rw [List.append_nil, getLastD_append_eq]; simp
      · exact load_write_ne _ hxa
      · exact ⟨rfl, rfl, rfl, by simp [State.write], data_write_links ha _ rfl rfl rfl⟩
    | cons b l2' =>
      obtain ⟨nb, hb, hbpre, hbsucc, hD⟩ := hC
      simp only [List.headD_cons] at hsucc
      have hbn : b ≠ NULL := load_ne_null hb
      have hba : b ≠ a := fun h => hal2 (h ▸ List.mem_cons_self _ _)
      have hxb : x ≠ b := fun h => hxl2 (h ▸ List.mem_cons_self _ _)
      have hbl : b ∉ l2' := by
        have := (List.nodup_cons.1 (List.nodup_cons.1 (List.nodup_cons.1 hnd23).2).2).1
        exact this
      have hb1 : (s.write a (some { na with succ := b })).load b = .ok nb := by
        rw [load_write_ne _ hba]; exact hb
      have hxt : x ≠ s.cache.tail := by
        rw [htail, getLastD_append_eq, getLastD_cons_eq]
        intro h
        have := getLastD_mem (b :: l2') x (by simp)
        rw [← h] at this
        exact hxl2 this
      refine ⟨(s.write a (some { na with succ := b })).write b (some { nb with pre := a }),
        ?_, ?_, ?_, rfl, ?_, ?_⟩
      · unfold delete_node
        simp [hx, hpre, hsucc, han, ha, store_eq _ ha, load_write_ne _ hxa, hbn, hb1,
          store_eq _ hb1, hxt]
      · refine seg_append.2 ⟨seg_append.2 ⟨?_, ?_⟩, ?_⟩
        · refine Seg.frame (fun p hp => ?_) hA1
          rw [load_write_ne _ (fun h => hdis hp (by subst h; simp)), load_write_ne _ (hal1 p hp)]
        · refine ⟨{ na with succ := b }, ?_, hapre, rfl, trivial⟩
          rw [load_write_ne _ (Ne.symm hba)]; exact load_write_same _ ha
        · rw [getLastD_append_eq]
          refine ⟨_, load_write_same _ hb1, by simp, hbsucc, ?_⟩
          refine Seg.frame (fun p hp => ?_) hD
          rw [load_write_ne _ (fun h => hbl (by subst h; exact hp)),
            load_write_ne _ (fun h => hal2 (by subst h; exact List.mem_cons_of_mem _ hp))]
      · simp only [write_cache, htail, getLastD_append_eq, getLastD_cons_eq]
      · rw [load_write_ne _ hxb, load_write_ne _ hxa]
      · exact (sameData_write_links ha { na with succ := b } rfl rfl rfl).andThen
          (sameData_write_links hb1 { nb with pre := a } rfl rfl rfl)

theorem insert_node_spec {s : State} {l : List Ptr} {x : Ptr} {n : cache_node}
    (hl : ListAt s l) (hx : s.load x = .ok n) (hxl : x ∉ l) :
    ∃ s', insert_node x s = .ok s' ∧ ListAt s' (x :: l) ∧ SameData s s' := by
  obtain ⟨hnd, hseg, hhead, htail⟩ := hl
  cases l with
  | nil =>
    simp only [List.headD_nil] at hhead
    refine ⟨{ (s.write x (some { n with pre := NULL, succ := NULL })) with
        cache := { s.cache with head := x, tail := x } }, ?_, ⟨?_, ?_, rfl, rfl⟩, ?_⟩
    · unfold insert_node
      simp [hhead, hx, store_eq _ hx]
    · simp
    · exact ⟨_, load_write_same _ hx, rfl, rfl, trivial⟩
    · exact ⟨rfl, rfl, rfl, by simp [State.write], data_write_links hx _ rfl rfl rfl⟩
  | cons h t =>
    simp only [List.headD_cons] at hhead
    obtain ⟨nh, hh, hhpre, hhsucc, hT⟩ := hseg
    have hhn : h ≠ NULL := load_ne_null hh
    have hhx : h ≠ x := fun e => hxl (by subst e; simp)
    have hht : h ∉ t := (List.nodup_cons.1 hnd).1
    have hxt : x ∉ t := fun e => hxl (List.mem_cons_of_mem _ e)
    have hh1 : (s.write x (some { n with pre := NULL, succ := h })).load h = .ok nh := by
      rw [load_write_ne _ hhx]; exact hh
    refine ⟨{ ((s.write x (some { n with pre := NULL, succ := h })).write h
        (some { nh with pre := x })) with cache := { s.cache with head := x } },
        ?_, ⟨?_, ?_, rfl, ?_⟩, ?_⟩
    · unfold insert_node
      simp [hhead, hhn, hx, store_eq _ hx, hh1, store_eq _ hh1]
    · exact List.nodup_cons.2 ⟨hxl, hnd⟩
    · refine ⟨{ n with pre := NULL, succ := h }, ?_, rfl, rfl, { nh with pre := x }, ?_, rfl,
        hhsucc, ?_⟩
      · show ((s.write x _).write h _).load x = _
        rw [load_write_ne _ (Ne.symm hhx)]; exact load_write_same _ hx
      · exact load_write_same _ hh1
      · refine Seg.frame (fun p hp => ?_) hT
        show ((s.write x _).write h _).load p = _
        rw [load_write_ne _ (fun e => hht (by subst e; exact hp)),
          load_write_ne _ (fun e => hxt (by subst e; exact hp))]
    · show s.cache.tail = _
      rw [htail, getLastD_cons_eq, getLastD_cons_eq, getLastD_cons_eq]
    · have h1 := (sameData_write_links hx { n with pre := NULL, succ := h } rfl rfl rfl).andThen
        (sameData_write_links hh1 { nh with pre := x } rfl rfl rfl)
      exact ⟨h1.free_bytes, h1.cache_hits, h1.read_cnt, h1.mem_length, h1.data⟩

theorem ListAt.mapped {s : State} {l : List Ptr} (hl : ListAt s l) {p : Ptr} (hp : p ∈ l) :
    ∃ n, s.load p = .ok n := hl.seg.nodes_mapped hp

theorem move_spec {s : State} {l : List Ptr} {x : Ptr}
    (hl : ListAt s l) (hx : x ∈ l) (hne : x ≠ s.cache.head) :
    ∃ s', (delete_node x s >>= insert_node x) = .ok s' ∧ ListAt s' (x :: l.erase x) ∧
      SameData s s' := by
  obtain ⟨l1, l2, rfl⟩ := List.append_of_mem hx
  have hnd := hl.nodup
  have hx1 : x ∉ l1 := fun h =>
    (List.nodup_append.1 hnd).2.2 h (List.mem_cons_self _ _)
  have hx2 : x ∉ l2 := (List.nodup_cons.1 (List.nodup_append.1 hnd).2.1).1
  have he : (l1 ++ x :: l2).erase x = l1 ++ l2 := by
    rw [List.erase_append_right _ hx1, List.erase_cons_head]
  obtain ⟨n, hn⟩ := hl.mapped hx
  obtain ⟨s1, h1, hseg1, htail1, hhead1, hload1, hsd1⟩ := delete_node_spec hnd hl.seg hl.tail
  have hl1 : ListAt s1 (l1 ++ l2) := by
    refine ⟨?_, hseg1, ?_, htail1⟩
    · exact List.Nodup.sublist (List.Sublist.append_left (List.sublist_cons_self x l2) l1) hnd
    · rw [hhead1, hl.head]
      cases l1 with
      | nil => exact absurd (by rw [hl.head]; rfl) hne
      | cons a l1' => rfl
  have hxn : x ∉ l1 ++ l2 := by
    simp [hx1, hx2]
  obtain ⟨s2, h2, hl2, hsd2⟩ := insert_node_spec hl1 (hload1.trans hn) hxn
  refine ⟨s2, ?_, ?_, hsd1.andThen hsd2⟩
  · rw [h1]; exact h2
  · rw [he]; exact hl2

/-! ## The hit bag as a sequence -/

theorem pending_length {s : State} (hb : BagOK s) :
    ((pending s).length : Int) = s.cache_hits.bag_index := by
  have h1 := hb.index_nonneg
  have h2 := hb.index_lt
  have h3 := hb.length
  unfold pending
  rw [List.length_take]
  omega

/-- Every outcome of `cache_hits_put` on a bag inside its bounds: the write is
inside the array; the call faults exactly when the incremented `bag_index`
reaches a `bag_size` whose double leaves `int`. -/
theorem cache_hits_put_cases {s : State} (hb : BagOK s) (n : Ptr) :
    (INT_MAX < 2 * s.cache_hits.bag_size ∧ s.cache_hits.bag_index + 1 = s.cache_hits.bag_size ∧
      cache_hits_put n s = .error .ub) ∨
    (BagRoom s ∧ ∃ s', cache_hits_put n s = .ok s' ∧ BagOK s' ∧ pending s' = pending s ++ [n] ∧
      s'.mem = s.mem ∧ s'.cache = s.cache ∧ s'.read_cnt = s.read_cnt ∧
      s'.cache_hits.bag_index = s.cache_hits.bag_index + 1 ∧
      (s.cache_hits.bag_index + 1 = s.cache_hits.bag_size →
        s'.cache_hits.bag_size = 2 * s.cache_hits.bag_size) ∧
      (s.cache_hits.bag_index + 1 ≠ s.cache_hits.bag_size →
        s'.cache_hits.bag_size = s.cache_hits.bag_size)) := by
  obtain ⟨h1, h2, h3⟩ := hb
  obtain ⟨k, hk⟩ := Int.eq_ofNat_of_zero_le h1
  have hklt : k < s.cache_hits.bag.length := by omega
  have hpend : List.take (k + 1) (s.cache_hits.bag.set k n) = List.take k s.cache_hits.bag ++ [n] := by
    have e0 : List.take k (s.cache_hits.bag.set k n) = List.take k s.cache_hits.bag := by
      rw [List.set_take]; exact List.set_eq_of_length_le (by simp)
    rw [List.take_succ, e0]
    simp [hklt]
  have hng : ¬ (s.cache_hits.bag_index < 0 ∨ (s.cache_hits.bag.length : Int) ≤ s.cache_hits.bag_index) := by
    omega
  by_cases hr : s.cache_hits.bag_index + 1 ≥ s.cache_hits.bag_size
  · have heq : s.cache_hits.bag_index + 1 = s.cache_hits.bag_size := by omega
    by_cases hov : INT_MAX < 2 * s.cache_hits.bag_size
    · refine Or.inl ⟨hov, heq, ?_⟩
      unfold cache_hits_put
      simp only [hng, if_false, hr, if_true, resize_cache_hits, hov]
    · refine Or.inr ⟨Or.inr (not_lt.1 hov), ?_⟩
      unfold cache_hits_put
      simp only [hng, if_false, hr, if_true, resize_cache_hits, hov]
      refine ⟨_, rfl, ⟨?_, ?_, ?_⟩, ?_, rfl, rfl, rfl, rfl, fun _ => rfl,
        fun hne => absurd heq hne⟩
      · show 0 ≤ s.cache_hits.bag_index + 1; omega
      · show s.cache_hits.bag_index + 1 < 2 * s.cache_hits.bag_size; omega
      · simp only [List.length_take, List.length_append, List.length_set,
          List.length_replicate]
        omega
      · simp only [pending, hk]
        have e1 : (↑k + 1 : Int).toNat = k + 1 := by omega
        have e2 : (↑k : Int).toNat = k := by omega
        rw [e1, e2, List.take_take]
        have e3 : min (k + 1) (2 * s.cache_hits.bag_size).toNat = k + 1 := by omega
        rw [e3, List.take_append_of_le_length (by simp; omega), hpend]
  · refine Or.inr ⟨Or.inl (by omega), ?_⟩
    unfold cache_hits_put
    simp only [hng, if_false, hr, if_false]
    refine ⟨_, rfl, ⟨?_, ?_, ?_⟩, ?_, rfl, rfl, rfl, rfl, fun he => absurd (by omega) hr,
      fun _ => rfl⟩
    · show 0 ≤ s.cache_hits.bag_index + 1; omega
    · show s.cache_hits.bag_index + 1 < s.cache_hits.bag_size; omega
    · show ((s.cache_hits.bag.set _ n).length : Int) = s.cache_hits.bag_size
      rw [List.length_set]; exact h3
    · simp only [pending, hk]
      have e1 : (↑k + 1 : Int).toNat = k + 1 := by omega
      have e2 : (↑k : Int).toNat = k := by omega
      rw [e1, e2, hpend]

theorem cache_hits_put_spec {s : State} (hb : BagOK s) (hroom : BagRoom s) (n : Ptr) :
    ∃ s', cache_hits_put n s = .ok s' ∧ BagOK s' ∧ pending s' = pending s ++ [n] ∧
      s'.mem = s.mem ∧ s'.cache = s.cache ∧ s'.read_cnt = s.read_cnt := by
  rcases cache_hits_put_cases hb n with ⟨hov, heq, _⟩ | ⟨_, s', h1, h2, h3, h4, h5, h6, _⟩
  · rcases hroom with h | h
    · omega
    · omega
  · exact ⟨s', h1, h2, h3, h4, h5, h6⟩

theorem cache_hits_put_of_ok {s s' : State} (hb : BagOK s) {n : Ptr}
    (h : cache_hits_put n s = .ok s') :
    BagOK s' ∧ pending s' = pending s ++ [n] ∧
      s'.mem = s.mem ∧ s'.cache = s.cache ∧ s'.read_cnt = s.read_cnt := by
  rcases cache_hits_put_cases hb n with ⟨_, _, he⟩ | ⟨_, s2, h1, h2, h3, h4, h5, h6, _⟩
  · rw [he] at h; cases h
  · rw [h1] at h; cases h
    exact ⟨h2, h3, h4, h5, h6⟩

theorem cache_hits_get_nil {s : State} (hb : BagOK s) (h : pending s = []) :
    cache_hits_get s = .ok (NULL, s) := by
  have hl := pending_length hb
  rw [h] at hl
  unfold cache_hits_get is_cache_hits_empty
  simp [← hl]

theorem cache_hits_get_snoc {s : State} (hb : BagOK s) {hs : List Ptr} {x : Ptr}
    (h : pending s = hs ++ [x]) :
    ∃ s', cache_hits_get s = .ok (x, s') ∧ BagOK s' ∧ pending s' = hs ∧
      s'.mem = s.mem ∧ s'.cache = s.cache ∧ s'.read_cnt = s.read_cnt := by
  have hl := pending_length hb
  obtain ⟨h1, h2, h3⟩ := hb
  rw [h] at hl
  simp only [List.length_append, List.length_singleton] at hl
  have hidx : s.cache_hits.bag_index - 1 = (hs.length : Int) := by omega
  have hlt : hs.length < s.cache_hits.bag.length := by omega
  have htake : List.take (hs.length + 1) s.cache_hits.bag = hs ++ [x] := by
    rw [← h]; unfold pending; congr 1; omega
  have hget : s.cache_hits.bag[hs.length]? = some x := by
    have := congrArg (fun l => l[hs.length]?) htake
    simp only [List.getElem?_take] at this
    simpa using this
  have hpre : List.take hs.length s.cache_hits.bag = hs := by
    have := congrArg (List.take hs.length) htake
    simpa [List.take_take] using this
  refine ⟨{ s with cache_hits := { s.cache_hits with bag_index := s.cache_hits.bag_index - 1 } },
    ?_, ⟨?_, ?_, h3⟩, ?_, rfl, rfl, rfl⟩
  · unfold cache_hits_get is_cache_hits_empty
    have hne : ¬ s.cache_hits.bag_index = 0 := by omega
    have hnn : ¬ s.cache_hits.bag_index - 1 < 0 := by omega
    simp only [beq_iff_eq, hne, not_false_eq_true, if_true, hnn, if_false]
    rw [hidx]
    simp [hget]
  · show 0 ≤ s.cache_hits.bag_index - 1; omega
  · show s.cache_hits.bag_index - 1 < s.cache_hits.bag_size; omega
  · show List.take (s.cache_hits.bag_index - 1).toNat s.cache_hits.bag = hs
    rw [hidx]; exact hpre

theorem SameData.store {s s' : State} (h : SameData s s') : SameStore s s' :=
  ⟨h.free_bytes, h.read_cnt, h.mem_length, h.data⟩

theorem SameStore.unchanged (s : State) : SameStore s s := ⟨rfl, rfl, rfl, fun _ => rfl⟩

theorem SameStore.chain {s1 s2 s3 : State} (h12 : SameStore s1 s2) (h23 : SameStore s2 s3) :
    SameStore s1 s3 :=
  ⟨h23.free_bytes.trans h12.free_bytes, h23.read_cnt.trans h12.read_cnt,
   h23.mem_length.trans h12.mem_length, fun p => (h23.data p).trans (h12.data p)⟩

theorem sameStore_of_eq {s s' : State} (hm : s'.mem = s.mem) (hc : s'.cache = s.cache)
    (hr : s'.read_cnt = s.read_cnt) : SameStore s s' := by
  refine ⟨by rw [hc], hr, by rw [hm], fun p => ?_⟩
  unfold State.data State.load
  rw [hm]

theorem load_congr {s s' : State} (hm : s'.mem = s.mem) (p : Ptr) : s'.load p = s.load p := by
  unfold State.load; rw [hm]

theorem ListAt.of_same {s s' : State} {l : List Ptr} (hm : s'.mem = s.mem)
    (hc : s'.cache = s.cache) (hl : ListAt s l) : ListAt s' l :=
  ⟨hl.nodup, hl.seg.frame (fun p _ => load_congr hm p), by rw [hc]; exact hl.head,
   by rw [hc]; exact hl.tail⟩

theorem BagOK.of_same_hits {s s' : State} (h : s'.cache_hits = s.cache_hits) (hb : BagOK s) :
    BagOK s' := by
  obtain ⟨h1, h2, h3⟩ := hb
  exact ⟨by rw [h]; exact h1, by rw [h]; exact h2, by rw [h]; exact h3⟩

theorem pending_congr {s s' : State} (h : s'.cache_hits = s.cache_hits) :
    pending s' = pending s := by
  unfold pending; rw [h]

theorem mem_moveToHead {x : Ptr} {l : List Ptr} (hx : x ∈ l) (p : Ptr) :
    p ∈ moveToHead x l ↔ p ∈ l := by
  unfold moveToHead
  split
  · rfl
  · by_cases hp : p = x
    · subst hp; simp [hx]
    · simp [List.mem_erase_of_ne hp, hp]

theorem ListAt.head_ne_null {s : State} {l : List Ptr} (hl : ListAt s l) {p : Ptr}
    (hp : p ∈ l) : p ≠ NULL := by
  obtain ⟨n, hn⟩ := hl.mapped hp
  exact load_ne_null hn

theorem bind_eq_ok {ε α β : Type} {x : Except ε α} {f : α → Except ε β} {b : β}
    (h : (x >>= f) = .ok b) : ∃ a, x = .ok a ∧ f a = .ok b := by
  cases x with
  | error e => cases h
  | ok a => exact ⟨a, rfl, h⟩

theorem drain_hits_spec (fuel : Nat) : ∀ (s : State) (l hs : List Ptr), ListAt s l → BagOK s →
    pending s = hs → (∀ p ∈ hs, p ∈ l) → hs.length < fuel →
    ∃ s', drain_hits fuel s = .ok s' ∧ ListAt s' (hs.foldr moveToHead l) ∧ BagOK s' ∧
      pending s' = [] ∧ SameStore s s' := by
  induction fuel with
  | zero => intro s l hs _ _ _ _ hf; omega
  | succ fuel ih =>
    intro s l hs hl hb hp hm hf
    rcases eq_nil_or_snoc hs with rfl | ⟨hs', x, rfl⟩
    · refine ⟨s, ?_, hl, hb, hp, SameStore.unchanged s⟩
      unfold drain_hits
      simp [cache_hits_get_nil hb hp, NULL]
    · obtain ⟨s1, hg, hb1, hp1, hm1, hc1, hr1⟩ := cache_hits_get_snoc hb hp
      have hl1 : ListAt s1 l := hl.of_same hm1 hc1
      have hxl : x ∈ l := hm x (by simp)
      have hxn : x ≠ NULL := hl.head_ne_null hxl
      have hlen : hs'.length < fuel := by
        simp only [List.length_append, List.length_singleton] at hf; omega
      rw [List.foldr_append]
      simp only [List.foldr_cons, List.foldr_nil]
      have hm' : ∀ p ∈ hs', p ∈ moveToHead x l := fun p hp =>
        (mem_moveToHead hxl p).2 (hm p (List.mem_append_left _ hp))
      by_cases hxh : x = s1.cache.head
      · have hmv : moveToHead x l = l := by
          unfold moveToHead; rw [← hl1.head, ← hxh]; simp
        have hl2 : ListAt s1 (moveToHead x l) := by rw [hmv]; exact hl1
        obtain ⟨s', hd, hl', hb', hp', hs'⟩ := ih s1 (moveToHead x l) hs' hl2 hb1 hp1 hm' hlen
        refine ⟨s', ?_, hl', hb', hp', (sameStore_of_eq hm1 hc1 hr1).chain hs'⟩
        unfold drain_hits
        simp only [hg, bind_ok_eq]
        rw [if_pos hxn]
        unfold drain_step
        rw [if_neg (not_not.2 hxh)]
        exact hd
      · have hmv : moveToHead x l = x :: l.erase x := by
          unfold moveToHead; rw [← hl1.head]; simp [Ne.symm hxh]
        obtain ⟨s2, h2, hl2, hsd2⟩ := move_spec hl1 hxl hxh
        rw [← hmv] at hl2
        have hb2 : BagOK s2 := hb1.of_same_hits hsd2.cache_hits
        have hp2 : pending s2 = hs' := (pending_congr hsd2.cache_hits).trans hp1
        obtain ⟨s', hd, hl', hb', hp', hs'⟩ := ih s2 (moveToHead x l) hs' hl2 hb2 hp2 hm' hlen
        refine ⟨s', ?_, hl', hb', hp', ((sameStore_of_eq hm1 hc1 hr1).chain hsd2.store).chain hs'⟩
        obtain ⟨s1', hdel, hins⟩ := bind_eq_ok h2
        unfold drain_hits
        simp only [hg, bind_ok_eq]
        rw [if_pos hxn]
        unfold drain_step
        rw [if_pos hxh, hdel]
        simp only [bind_ok_eq, hins]
        exact hd

/-! ## Eviction -/

theorem delete_node_unmapped {s : State} {x : Ptr} {e : Fault} (h : s.load x = .error e) :
    delete_node x s = .error .ub := by
  unfold delete_node
  rw [h, load_error h]; rfl

theorem evict_loop_enough (bytes : Int) (lru : Ptr) (fuel : Nat) (s : State)
    (h : bytes ≤ s.cache.free_bytes) : evict_loop bytes lru (fuel + 1) s = .ok s := by
  unfold evict_loop
  simp [not_lt.2 h]

theorem evict_loop_unmapped (bytes : Int) (lru : Ptr) (fuel : Nat) (s : State) {e : Fault}
    (h : s.cache.free_bytes < bytes) (hx : s.load lru = .error e) :
    evict_loop bytes lru (fuel + 1) s = .error .ub := by
  unfold evict_loop evict_body
  simp [h, delete_node_unmapped hx]

/-- One turn of the eviction loop on a list whose last node is `x`. -/
theorem evict_step {s : State} {l1 : List Ptr} {x : Ptr} {n : cache_node} (bytes : Int)
    (fuel : Nat) (hl : ListAt s (l1 ++ [x])) (hn : s.load x = .ok n)
    (hlt : s.cache.free_bytes < bytes) :
    ∃ s2, evict_body x s = .ok s2 ∧
      evict_loop bytes x (fuel + 1) s = evict_loop bytes x fuel s2 ∧
      Seg s2 NULL l1 NULL ∧ s2.cache.tail = l1.getLastD NULL ∧
      s2.cache.head = s.cache.head ∧
      s2.cache.free_bytes = s.cache.free_bytes + n.content_length ∧
      s2.load x = .error .ub ∧ (∀ p, p ≠ x → s2.data p = s.data p) ∧
      s2.cache_hits = s.cache_hits ∧ s2.read_cnt = s.read_cnt ∧
      s2.mem.length = s.mem.length := by
  obtain ⟨s1, h1, hseg1, htail1, hhead1, hload1, hsd1⟩ :=
    delete_node_spec hl.nodup hl.seg hl.tail
  rw [List.append_nil] at hseg1 htail1
  have hx1 : s1.load x = .ok n := hload1.trans hn
  have hxl1 : x ∉ l1 := fun h =>
    (List.nodup_append.1 hl.nodup).2.2 h (List.mem_singleton_self x)
  have hpre : n.pre = l1.getLastD NULL := by
    obtain ⟨_, hB⟩ := seg_append.1 hl.seg
    obtain ⟨n', hn', hp', _, _⟩ := hB
    rw [hn] at hn'; cases hn'; exact hp'
  refine ⟨({ s1 with cache := { s1.cache with
      free_bytes := s1.cache.free_bytes + n.content_length, tail := n.pre } } : State).write x none,
    ?_, ?_, ?_, ?_, ?_, ?_, ?_, ?_, ?_, ?_, ?_⟩
  · have hx2 : ∀ c : cache_list, ({ s1 with cache := c } : State).load x = .ok n := fun c => hx1
    unfold evict_body
    simp only [h1, bind_ok_eq, hx1, hx2, free_eq (hx2 _)]
  · have hx2 : ∀ c : cache_list, ({ s1 with cache := c } : State).load x = .ok n := fun c => hx1
    conv_lhs => unfold evict_loop evict_body
    simp only [hlt, if_true, h1, bind_ok_eq, hx1, hx2, free_eq (hx2 _)]
  · refine Seg.frame (fun p hp => ?_) hseg1
    rw [load_write_ne _ (fun e => hxl1 (by subst e; exact hp))]
    rfl
  · exact hpre
  · exact hhead1
  · show s1.cache.free_bytes + n.content_length = _
    rw [hsd1.free_bytes]
  · exact load_write_none _ x
  · intro p hp
    rw [← hsd1.data p]
    unfold State.data
    rw [load_write_ne _ hp]
    rfl
  · exact hsd1.cache_hits
  · exact hsd1.read_cnt
  · rw [write_mem_length]; exact hsd1.mem_length

/-! ## More fuel never changes a result -/

theorem drain_hits_mono (fuel : Nat) : ∀ (s s' : State), drain_hits fuel s = .ok s' →
    ∀ k, drain_hits (fuel + k) s = .ok s' := by
  induction fuel with
  | zero => intro s s' h; cases h
  | succ fuel ih =>
    intro s s' h k
    rw [Nat.add_right_comm]
    unfold drain_hits at h ⊢
    cases hg : cache_hits_get s with
    | error e => rw [hg] at h; cases h
    | ok r =>
      obtain ⟨x, s1⟩ := r
      rw [hg] at h
      simp only [bind_ok_eq] at h ⊢
      by_cases hx : x ≠ NULL
      · rw [if_pos hx] at h ⊢
        cases hd : drain_step x s1 with
        | error e => rw [hd] at h; cases h
        | ok s2 =>
          rw [hd] at h
          simp only [bind_ok_eq] at h ⊢
          exact ih s2 s' h k
      · rw [if_neg hx] at h ⊢
        exact h

theorem evict_loop_mono (bytes : Int) (lru : Ptr) (fuel : Nat) : ∀ (s s' : State),
    evict_loop bytes lru fuel s = .ok s' → ∀ k, evict_loop bytes lru (fuel + k) s = .ok s' := by
  induction fuel with
  | zero => intro s s' h; cases h
  | succ fuel ih =>
    intro s s' h k
    rw [Nat.add_right_comm]
    unfold evict_loop at h ⊢
    by_cases hlt : s.cache.free_bytes < bytes
    · rw [if_pos hlt] at h ⊢
      cases hb : evict_body lru s with
      | error e => rw [hb] at h; cases h
      | ok s2 =>
        rw [hb] at h
        simp only [bind_ok_eq] at h ⊢
        exact ih s2 s' h k
    · rw [if_neg hlt] at h ⊢
      exact h

theorem find_cached_loop_mono (url : String) (s : State) (fuel : Nat) : ∀ (p r : Ptr),
    find_cached_loop url fuel p s = .ok r → ∀ k, find_cached_loop url (fuel + k) p s = .ok r := by
  induction fuel with
  | zero => intro p r h; cases h
  | succ fuel ih =>
    intro p r h k
    rw [Nat.add_right_comm]
    unfold find_cached_loop at h ⊢
    by_cases hp : p ≠ NULL
    · rw [if_pos hp] at h ⊢
      cases hn : s.load p with
      | error e => rw [hn] at h; cases h
      | ok n =>
        rw [hn] at h
        simp only [bind_ok_eq] at h ⊢
        by_cases hu : url = n.url
        · rw [if_pos hu] at h ⊢; exact h
        · rw [if_neg hu] at h ⊢; exact ih _ r h k
    · rw [if_neg hp] at h ⊢
      exact h

theorem cache_out_mono {fuel : Nat} {url : String} {fd : Int}
    {s : State} {r : cache_out_result} (h : cache_out fuel url fd s = .ok r) (k : Nat) :
    cache_out (fuel + k) url fd s = .ok r := by
  simp only [cache_out] at h ⊢
  obtain ⟨p, h1, h⟩ := bind_eq_ok h
  unfold find_cached at h1 ⊢
  rw [find_cached_loop_mono url _ fuel _ p h1 k]
  exact h

/-- No call of `cache_in` returns: whatever the drain loop and the eviction loop
do, the store stage faults. -/
theorem cache_in_never_ok (fuel : Nat) (url : String) (buf : List Nat) (bytes : Int)
    (s s' : State) : cache_in fuel url buf bytes s ≠ .ok s' := by
  intro h
  unfold cache_in at h
  obtain ⟨s1, _, h⟩ := bind_eq_ok h
  obtain ⟨s2, _, h⟩ := bind_eq_ok h
  rw [cache_in_store_faults] at h
  cases h

/-- The function `cache_in` is the two stages `drain_then_evict` followed by the
store stage. -/
theorem cache_in_eq_stages (fuel : Nat) (url : String) (buf : List Nat) (bytes : Int)
    (s : State) :
    cache_in fuel url buf bytes s
      = (drain_then_evict fuel bytes s >>= cache_in_store url buf bytes) := by
  unfold cache_in drain_then_evict
  cases drain_hits fuel s with
  | error e => rfl
  | ok s1 => rfl

/-- When the first two stages complete, `cache_in` faults in the store stage. -/
theorem cache_in_faults_of_stages {fuel : Nat} {bytes : Int} {s t : State}
    (h : drain_then_evict fuel bytes s = .ok t) (url : String) (buf : List Nat) :
    cache_in fuel url buf bytes s = .error .ub := by
  rw [cache_in_eq_stages, h]
  exact cache_in_store_faults url buf bytes t


/-! ## Sizes, the walk from `head`, and the invariant -/

theorem load_null (s : State) : s.load NULL = .error .ub := by
  unfold State.load; simp

theorem walk_seg {s : State} : ∀ (l : List Ptr) (prev : Ptr) (fuel : Nat),
    Seg s prev l NULL → l.length ≤ fuel → walk s fuel (l.headD NULL) = l := by
  intro l
  induction l with
  | nil =>
    intro prev fuel _ _
    cases fuel with
    | zero => rfl
    | succ f => simp [walk, load_null]
  | cons p rest ih =>
    intro prev fuel hs hf
    obtain ⟨n, hn, _, hsucc, hrest⟩ := hs
    cases fuel with
    | zero => simp at hf
    | succ f =>
      simp only [List.headD_cons, walk, hn]
      rw [hsucc, ih p f hrest (by simpa using hf)]

theorem ListAt.length_le {s : State} {l : List Ptr} (hl : ListAt s l) :
    l.length ≤ s.mem.length := by
  have hsub : l ⊆ List.range s.mem.length := by
    intro p hp
    obtain ⟨n, hn⟩ := hl.mapped hp
    exact List.mem_range.2 (load_lt hn)
  have := (List.subperm_of_subset hl.nodup hsub).length_le
  simpa using this

theorem ListAt.walk_eq {s : State} {l : List Ptr} (hl : ListAt s l) : entries s = l := by
  unfold entries
  rw [hl.head]
  exact walk_seg l NULL _ hl.seg hl.length_le

theorem ListAt.not_mem_of_ge {s : State} {l : List Ptr} (hl : ListAt s l) {p : Ptr}
    (hp : s.mem.length ≤ p) : p ∉ l := by
  intro h
  obtain ⟨n, hn⟩ := hl.mapped h
  exact absurd (load_lt hn) (Nat.not_lt.2 hp)

theorem used_congr {s s' : State} {l : List Ptr} (h : ∀ p ∈ l, s'.data p = s.data p) :
    used s' l = used s l := by
  unfold used
  congr 1
  apply List.map_congr_left
  intro p hp
  unfold State.size
  rw [h p hp]

theorem used_append (s : State) (l1 l2 : List Ptr) : used s (l1 ++ l2) = used s l1 + used s l2 := by
  simp [used]

theorem data_write_ne {s : State} {p q : Ptr} (v : Option cache_node) (h : q ≠ p) :
    (s.write p v).data q = s.data q := by
  unfold State.data; rw [load_write_ne v h]

theorem insert_node_dangling (t : State) (x : Ptr) {e : Fault} (hh : t.cache.head ≠ NULL)
    (hne : x ≠ t.cache.head) (hx : t.load t.cache.head = .error e) :
    insert_node x t = .error .ub := by
  unfold insert_node
  rw [if_pos hh]
  cases hn : t.load x with
  | error e1 => simp only [hn, bind_error_eq, load_error hn]
  | ok n =>
    simp only [hn, bind_ok_eq, store_eq _ hn, write_cache, load_write_ne _ (Ne.symm hne), hx,
      bind_error_eq, load_error hx]

/-! ## `cache_in`, stage by stage -/

theorem moveToHead_perm {x : Ptr} {l : List Ptr} (hx : x ∈ l) : (moveToHead x l).Perm l := by
  unfold moveToHead
  split
  · exact List.Perm.refl l
  · exact (List.perm_cons_erase hx).symm

theorem drained_perm (l : List Ptr) : ∀ (hs : List Ptr), (∀ p ∈ hs, p ∈ l) →
    (hs.foldr moveToHead l).Perm l := by
  intro hs
  induction hs with
  | nil => intro _; exact List.Perm.refl l
  | cons x hs ih =>
    intro hm
    have h1 := ih (fun p hp => hm p (List.mem_cons_of_mem _ hp))
    have hx : x ∈ hs.foldr moveToHead l := h1.mem_iff.2 (hm x (List.mem_cons_self _ _))
    exact (moveToHead_perm hx).trans h1

theorem used_perm (s : State) {l1 l2 : List Ptr} (h : l1.Perm l2) : used s l1 = used s l2 := by
  unfold used
  exact (h.map s.size).sum_eq

theorem drain_inv {s : State} {l : List Ptr} (hinv : Inv s l) {fuel : Nat}
    (hf : (pending s).length < fuel) :
    ∃ s1, drain_hits fuel s = .ok s1 ∧ Inv s1 (drained s l) ∧ pending s1 = [] ∧
      SameStore s s1 := by
  obtain ⟨s1, h1, hl1, hb1, hp1, hss⟩ :=
    drain_hits_spec fuel s l (pending s) hinv.list hinv.bag rfl hinv.hits hf
  have hperm : (drained s l).Perm l := drained_perm l (pending s) hinv.hits
  refine ⟨s1, h1, ⟨hl1, hb1, ?_, ?_, ?_, ?_, ?_⟩, hp1, hss⟩
  · rw [hp1]; intro p hp; cases hp
  · intro h
    have := hss.mem_length
    rw [h] at this
    exact hinv.mem (List.length_eq_zero.1 this.symm)
  · intro p hp d hd
    rw [hss.data] at hd
    exact hinv.sizes p (hperm.mem_iff.1 hp) d hd
  · rw [hss.free_bytes, used_congr (fun p _ => hss.data p), used_perm s hperm]
    exact hinv.account
  · rw [hss.free_bytes]; exact hinv.free_nonneg

theorem size_of_data {s : State} {p : Ptr} {d : String × List Nat × Int}
    (h : s.data p = some d) : s.size p = d.2.2 := by
  unfold State.size; rw [h]

theorem size_of_load {s : State} {p : Ptr} {n : cache_node} (h : s.load p = .ok n) :
    s.size p = n.content_length := by
  unfold State.size State.data; rw [h]

theorem evict_cases {s1 : State} {d : List Ptr} (hl : ListAt s1 d) {fuel : Nat}
    (hf2 : 2 ≤ fuel) (bytes : Int) :
    (bytes ≤ s1.cache.free_bytes ∧ evict_cache fuel bytes s1 = .ok s1) ∨
    (s1.cache.free_bytes < bytes ∧ evict_cache fuel bytes s1 = .error .ub ∧
      (d = [] ∨ ∃ d1 x, d = d1 ++ [x] ∧ s1.cache.free_bytes + s1.size x < bytes)) ∨
    (s1.cache.free_bytes < bytes ∧ ∃ d1 x s2, d = d1 ++ [x] ∧
      bytes ≤ s1.cache.free_bytes + s1.size x ∧ evict_cache fuel bytes s1 = .ok s2 ∧
      Evicted s1 d1 x s2) := by
  obtain ⟨f, rfl⟩ : ∃ f, fuel = f + 2 := ⟨fuel - 2, by omega⟩
  unfold evict_cache
  by_cases hfit : bytes ≤ s1.cache.free_bytes
  · exact Or.inl ⟨hfit, evict_loop_enough bytes _ (f + 1) s1 hfit⟩
  · have hlt : s1.cache.free_bytes < bytes := not_le.1 hfit
    refine Or.inr ?_
    rcases eq_nil_or_snoc d with rfl | ⟨d1, x, rfl⟩
    · refine Or.inl ⟨hlt, ?_, Or.inl rfl⟩
      have ht : s1.cache.tail = NULL := hl.tail
      rw [ht]
      exact evict_loop_unmapped bytes NULL (f + 1) s1 hlt (load_null s1)
    · have ht : s1.cache.tail = x := by
        rw [hl.tail, getLastD_append_eq]; rfl
      obtain ⟨n, hn⟩ := hl.mapped (List.mem_append_right d1 (List.mem_singleton_self x))
      obtain ⟨s2, _, hstep, hseg, htail, hhead, hfree, hgone, hdata, hch, hrc, hml⟩ :=
        evict_step bytes (f + 1) hl hn hlt
      rw [ht, hstep]
      rw [← size_of_load hn] at hfree
      by_cases h2 : bytes ≤ s1.cache.free_bytes + s1.size x
      · refine Or.inr ⟨hlt, d1, x, s2, rfl, h2, ?_,
          ⟨hseg, htail, hhead, hfree, hgone, hdata, hch, hrc, hml⟩⟩
        exact evict_loop_enough bytes x f s2 (by rw [hfree]; exact h2)
      · refine Or.inl ⟨hlt, ?_, Or.inr ⟨d1, x, rfl, not_le.1 h2⟩⟩
        exact evict_loop_unmapped bytes x f s2 (by rw [hfree]; exact not_le.1 h2) hgone

theorem size_congr {s s' : State} {p : Ptr} (h : s'.data p = s.data p) : s'.size p = s.size p := by
  unfold State.size; rw [h]

theorem data_of_load_error {s : State} {p : Ptr} {e : Fault} (h : s.load p = .error e) :
    s.data p = none := by
  unfold State.data; rw [h]

/-! ## `cache_out` -/

theorem find_cached_loop_spec {s : State} (url : String) : ∀ (l : List Ptr) (prev : Ptr)
    (fuel : Nat), Seg s prev l NULL → l.length < fuel →
    find_cached_loop url fuel (l.headD NULL) s = .ok ((first_match s url l).getD NULL) := by
  intro l
  induction l with
  | nil =>
    intro prev fuel _ hf
    cases fuel with
    | zero => simp at hf
    | succ f => simp [find_cached_loop, first_match]
  | cons p rest ih =>
    intro prev fuel hs hf
    obtain ⟨n, hn, _, hsucc, hrest⟩ := hs
    cases fuel with
    | zero => simp at hf
    | succ f =>
      have hp : p ≠ NULL := load_ne_null hn
      unfold find_cached_loop
      simp only [List.headD_cons, hp, ne_eq, not_false_eq_true, if_true, hn, bind_ok_eq]
      by_cases hu : url = n.url
      · rw [if_pos hu]
        simp [first_match, List.find?, has_url, hn, hu]
      · rw [if_neg hu, hsucc, ih p f hrest (by simpa using hf)]
        simp [first_match, List.find?, has_url, hn, hu]

theorem find_cached_loop_congr (s s' : State) (url : String) (hm : s'.mem = s.mem)
    (fuel : Nat) : ∀ p, find_cached_loop url fuel p s' = find_cached_loop url fuel p s := by
  induction fuel with
  | zero => intro p; rfl
  | succ f ih =>
    intro p
    unfold find_cached_loop
    rw [load_congr hm p]
    simp only [ih]

theorem first_match_some {s : State} {url : String} {l : List Ptr} {p : Ptr}
    (h : first_match s url l = some p) : p ∈ l ∧ ∃ n, s.load p = .ok n ∧ n.url = url := by
  unfold first_match at h
  refine ⟨List.mem_of_find?_eq_some h, ?_⟩
  have := List.find?_some h
  unfold has_url at this
  split at this
  · next n hn => exact ⟨n, hn, (of_decide_eq_true this).symm⟩
  · cases this

theorem state_read_cnt_eta (s : State) :
    ({ s with read_cnt := s.read_cnt + 1 - 1 } : State) = s := by
  cases s
  simp

theorem rio_writen_ok (fd : Int) {b : List Nat} {n : Int} (h : (b.length : Int) = n) :
    rio_writen fd b n = .ok [(fd, b.take n.toNat)] := by
  unfold rio_writen
  rw [if_neg (by omega)]

theorem Inv.node_sizes {s : State} {l : List Ptr} (hinv : Inv s l) {p : Ptr} (hp : p ∈ l)
    {n : cache_node} (hn : s.load p = .ok n) : (n.buf.length : Int) = n.content_length := by
  have := hinv.sizes p hp (n.url, n.buf, n.content_length) (by unfold State.data; rw [hn])
  exact this

theorem cache_out_miss {s : State} {l : List Ptr} (hinv : Inv s l) {fuel : Nat}
    (hf : l.length < fuel) (url : String) (fd : Int) (hm : first_match s url l = none) :
    cache_out fuel url fd s = .ok ⟨0, [], s⟩ := by
  have hfind := find_cached_loop_spec url l NULL fuel hinv.list.seg hf
  rw [hm, ← hinv.list.head] at hfind
  simp only [cache_out, find_cached]
  have e : find_cached_loop url fuel s.cache.head { s with read_cnt := s.read_cnt + 1 }
      = find_cached_loop url fuel s.cache.head s :=
    find_cached_loop_congr s { s with read_cnt := s.read_cnt + 1 } url rfl fuel _
  rw [e, hfind]
  simp only [Option.getD_none, bind_ok_eq, ne_eq, not_true, if_false, pure_eq_ok,
    state_read_cnt_eta]

/-- On a hit `cache_out` is the write of the matched node's bytes followed by
`cache_hits_put`. -/
theorem cache_out_hit_eq {s : State} {l : List Ptr} (hinv : Inv s l) {fuel : Nat}
    (hf : l.length < fuel) (url : String) (fd : Int) {p : Ptr} {n : cache_node}
    (hm : first_match s url l = some p) (hn : s.load p = .ok n) :
    cache_out fuel url fd s =
      (cache_hits_put p { s with read_cnt := s.read_cnt + 1 } >>= fun s2 =>
        Except.ok ⟨1, [(fd, n.buf.take n.content_length.toNat)],
          { s2 with read_cnt := s2.read_cnt - 1 }⟩) := by
  have hfind := find_cached_loop_spec url l NULL fuel hinv.list.seg hf
  rw [hm, ← hinv.list.head] at hfind
  have hpl := (first_match_some hm).1
  have hpn : p ≠ NULL := load_ne_null hn
  have e : find_cached_loop url fuel s.cache.head { s with read_cnt := s.read_cnt + 1 }
      = find_cached_loop url fuel s.cache.head s :=
    find_cached_loop_congr s { s with read_cnt := s.read_cnt + 1 } url rfl fuel _
  have hn1 : ({ s with read_cnt := s.read_cnt + 1 } : State).load p = .ok n := hn
  simp only [cache_out, find_cached]
  rw [e, hfind]
  simp only [Option.getD_some, bind_ok_eq, ne_eq, hpn, not_false_eq_true, if_true, hn1,
    rio_writen_ok fd (hinv.node_sizes hpl hn)]
  rfl

/-- What a completed `cache_out` that found the node `p` returns and leaves. -/
theorem cache_out_hit_of_ok {s : State} {l : List Ptr} (hinv : Inv s l) {fuel : Nat}
    (hf : l.length < fuel) {url : String} {fd : Int} {p : Ptr} {n : cache_node}
    (hm : first_match s url l = some p) (hn : s.load p = .ok n) {r : cache_out_result}
    (h : cache_out fuel url fd s = .ok r) :
    r.cached = 1 ∧ r.written = [(fd, n.buf.take n.content_length.toNat)] ∧
      r.state.mem = s.mem ∧ r.state.cache = s.cache ∧ r.state.read_cnt = s.read_cnt ∧
      BagOK r.state ∧ pending r.state = pending s ++ [p] := by
  rw [cache_out_hit_eq hinv hf url fd hm hn] at h
  obtain ⟨s2, hput, hr⟩ := bind_eq_ok h
  have hb1 : BagOK { s with read_cnt := s.read_cnt + 1 } :=
    ⟨hinv.bag.1, hinv.bag.2, hinv.bag.3⟩
  obtain ⟨hb2, hp2, hm2, hc2, hr2⟩ := cache_hits_put_of_ok hb1 hput
  cases hr
  refine ⟨rfl, rfl, hm2, hc2, ?_, ⟨hb2.1, hb2.2, hb2.3⟩, hp2⟩
  show s2.read_cnt - 1 = s.read_cnt
  rw [hr2]
  show s.read_cnt + 1 - 1 = s.read_cnt
  omega

theorem cache_out_hit {s : State} {l : List Ptr} (hinv : Inv s l) (hroom : BagRoom s)
    {fuel : Nat} (hf : l.length < fuel) (url : String) (fd : Int) {p : Ptr} {n : cache_node}
    (hm : first_match s url l = some p) (hn : s.load p = .ok n) :
    ∃ r, cache_out fuel url fd s = .ok r ∧ r.cached = 1 ∧
      r.written = [(fd, n.buf.take n.content_length.toNat)] ∧
      r.state.mem = s.mem ∧ r.state.cache = s.cache ∧ r.state.read_cnt = s.read_cnt ∧
      BagOK r.state ∧ pending r.state = pending s ++ [p] := by
  have hb1 : BagOK { s with read_cnt := s.read_cnt + 1 } :=
    ⟨hinv.bag.1, hinv.bag.2, hinv.bag.3⟩
  have hroom1 : BagRoom { s with read_cnt := s.read_cnt + 1 } := hroom
  obtain ⟨s2, hput, _⟩ := cache_hits_put_spec hb1 hroom1 p
  have he : cache_out fuel url fd s = .ok ⟨1, [(fd, n.buf.take n.content_length.toNat)],
      { s2 with read_cnt := s2.read_cnt - 1 }⟩ := by
    rw [cache_out_hit_eq hinv hf url fd hm hn, hput]
    rfl
  exact ⟨_, he, cache_out_hit_of_ok hinv hf hm hn he⟩

theorem Inv.of_same_store {s s' : State} {l : List Ptr} (hinv : Inv s l) (hm : s'.mem = s.mem)
    (hc : s'.cache = s.cache) (hb : BagOK s') (hh : ∀ p ∈ pending s', p ∈ l) : Inv s' l := by
  have hd : ∀ p, s'.data p = s.data p := fun p => by
    unfold State.data; rw [load_congr hm p]
  refine ⟨hinv.list.of_same hm hc, hb, hh, by rw [hm]; exact hinv.mem, ?_, ?_, ?_⟩
  · intro p hp d h
    rw [hd p] at h
    exact hinv.sizes p hp d h
  · rw [hc, used_congr (fun p _ => hd p)]; exact hinv.account
  · rw [hc]; exact hinv.free_nonneg

/-- Every outcome of `cache_out` on a state that satisfies the invariant and
whose hit bag can take one more reference. -/
theorem cache_out_cases {s : State} {l : List Ptr} (hinv : Inv s l) (hroom : BagRoom s)
    {fuel : Nat} (hf : l.length < fuel) (url : String) (fd : Int) :
    (first_match s url l = none ∧ cache_out fuel url fd s = .ok ⟨0, [], s⟩) ∨
    (∃ p n r, first_match s url l = some p ∧ s.load p = .ok n ∧ n.url = url ∧ p ∈ l ∧
      cache_out fuel url fd s = .ok r ∧ r.cached = 1 ∧
      r.written = [(fd, n.buf.take n.content_length.toNat)] ∧
      r.state.mem = s.mem ∧ r.state.cache = s.cache ∧ r.state.read_cnt = s.read_cnt ∧
      BagOK r.state ∧ pending r.state = pending s ++ [p] ∧ Inv r.state l) := by
  cases hm : first_match s url l with
  | none => exact Or.inl ⟨rfl, cache_out_miss hinv hf url fd hm⟩
  | some p =>
    obtain ⟨hpl, n, hn, hu⟩ := first_match_some hm
    obtain ⟨r, hr, h1, h2, h3, h4, h5, h6, h7⟩ := cache_out_hit hinv hroom hf url fd hm hn
    refine Or.inr ⟨p, n, r, rfl, hn, hu, hpl, hr, h1, h2, h3, h4, h5, h6, h7, ?_⟩
    refine hinv.of_same_store h3 h4 h6 ?_
    intro q hq
    rw [h7] at hq
    rcases List.mem_append.1 hq with h | h
    · exact hinv.hits q h
    · rw [List.mem_singleton.1 h]; exact hpl

/-! ## Reachable states -/

theorem inv_init : Inv init_cache [] := by
  refine ⟨⟨List.nodup_nil, trivial, rfl, rfl⟩, ⟨?_, ?_, ?_⟩, ?_, ?_, ?_, ?_, ?_⟩
  · decide
  · decide
  · decide
  · intro p hp; simp [pending, init_cache, init_cache_hits, init_cache_list] at hp
  · decide
  · intro p hp; cases hp
  · decide
  · decide

/-- What a completed `cache_out` did, on a state that satisfies the invariant. -/
theorem cache_out_ok_inv {s : State} {l : List Ptr} (hinv : Inv s l) {fuel : Nat}
    {url : String} {fd : Int} {r : cache_out_result} (h : cache_out fuel url fd s = .ok r) :
    (first_match s url l = none ∧ r = ⟨0, [], s⟩) ∨
    (∃ p n, first_match s url l = some p ∧ s.load p = .ok n ∧ n.url = url ∧ p ∈ l ∧
      r.cached = 1 ∧ r.written = [(fd, n.buf.take n.content_length.toNat)] ∧
      r.state.mem = s.mem ∧ r.state.cache = s.cache ∧ r.state.read_cnt = s.read_cnt ∧
      BagOK r.state ∧ pending r.state = pending s ++ [p] ∧ Inv r.state l) := by
  have h' := cache_out_mono h (l.length + 1)
  have hf : l.length < fuel + (l.length + 1) := by omega
  cases hm : first_match s url l with
  | none =>
    rw [cache_out_miss hinv hf url fd hm] at h'
    cases h'
    exact Or.inl ⟨rfl, rfl⟩
  | some p =>
    obtain ⟨hpl, n, hn, hu⟩ := first_match_some hm
    obtain ⟨h1, h2, h3, h4, h5, h6, h7⟩ := cache_out_hit_of_ok hinv hf hm hn h'
    refine Or.inr ⟨p, n, rfl, hn, hu, hpl, h1, h2, h3, h4, h5, h6, h7, ?_⟩
    refine hinv.of_same_store h3 h4 h6 ?_
    intro q hq
    rw [h7] at hq
    rcases List.mem_append.1 hq with h | h
    · exact hinv.hits q h
    · rw [List.mem_singleton.1 h]; exact hpl

theorem Inv.entries_eq {s : State} {l : List Ptr} (h : Inv s l) : entries s = l :=
  h.list.walk_eq

theorem Inv.size_nonneg {s : State} {l : List Ptr} (hinv : Inv s l) {p : Ptr} (hp : p ∈ l) :
    0 ≤ s.size p := by
  obtain ⟨n, hn⟩ := hinv.list.mapped hp
  have := hinv.node_sizes hp hn
  rw [size_of_load hn]
  omega

theorem append_singleton_inj {a b : List Ptr} {x y : Ptr} (h : a ++ [x] = b ++ [y]) :
    a = b ∧ x = y := by
  have h1 := List.append_inj' h rfl
  exact ⟨h1.1, by simpa using h1.2⟩

theorem drained_of_empty (s : State) (l : List Ptr) (h : pending s = []) : drained s l = l := by
  unfold drained; rw [h]; rfl

@[simp] theorem payload_length (n : Nat) : (payload n).length = n := by
  unfold payload; exact List.length_replicate n 0

theorem has_url_iff {s : State} {url : String} {p : Ptr} :
    has_url s url p = true ↔ ∃ n, s.load p = .ok n ∧ n.url = url := by
  unfold has_url
  cases hn : s.load p with
  | error e => simp
  | ok n =>
    simp only [decide_eq_true_eq, Except.ok.injEq, exists_eq_left']
    exact eq_comm

theorem first_match_none_iff {s : State} {url : String} {l : List Ptr} :
    first_match s url l = none ↔ ¬ ∃ p ∈ l, ∃ n, s.load p = .ok n ∧ n.url = url := by
  unfold first_match
  rw [List.find?_eq_none]
  constructor
  · rintro h ⟨p, hp, hn⟩
    exact h p hp (has_url_iff.2 hn)
  · intro h p hp hu
    exact h ⟨p, hp, has_url_iff.1 hu⟩

theorem zero_ne_one_int : ¬ (0 : Int) = 1 := by decide

theorem drain_hits_empty {s : State} (hb : BagOK s) (hp : pending s = []) (fuel : Nat) :
    drain_hits (fuel + 1) s = .ok s := by
  unfold drain_hits
  simp [cache_hits_get_nil hb hp, NULL]

/-! ## The stages of `cache_in` on a state that satisfies the invariant -/

/-- What a completed `evict_cache` did: nothing, or exactly one turn of its loop,
on the last node of the list. -/
theorem evict_ok_cases {s1 t : State} {d : List Ptr} (hl : ListAt s1 d) {fuel : Nat}
    {bytes : Int} (h : evict_cache fuel bytes s1 = .ok t) :
    (bytes ≤ s1.cache.free_bytes ∧ t = s1) ∨
    (s1.cache.free_bytes < bytes ∧ ∃ d1 x, d = d1 ++ [x] ∧
      bytes ≤ s1.cache.free_bytes + s1.size x ∧ Evicted s1 d1 x t) := by
  have h' : evict_cache (fuel + 2) bytes s1 = .ok t := by
    unfold evict_cache at h ⊢
    exact evict_loop_mono bytes _ fuel s1 t h 2
  rcases evict_cases hl (Nat.le_add_left 2 fuel) bytes with ⟨hfit, he⟩ | ⟨_, he, _⟩ |
    ⟨hlt, d1, x, s2, hd, hen, he, hE⟩
  · rw [he] at h'; cases h'
    exact Or.inl ⟨hfit, rfl⟩
  · rw [he] at h'; cases h'
  · rw [he] at h'; cases h'
    exact Or.inr ⟨hlt, d1, x, hd, hen, hE⟩

/-- When freeing the last node of the list is not enough, `evict_cache` faults:
the second turn of its loop dereferences the node the first turn freed. -/
theorem evict_second_turn {s : State} {l1 : List Ptr} {x : Ptr} (hl : ListAt s (l1 ++ [x]))
    {bytes : Int} (h0 : 0 ≤ s.size x) (h : s.cache.free_bytes + s.size x < bytes) {fuel : Nat}
    (hf2 : 2 ≤ fuel) : evict_cache fuel bytes s = .error .ub := by
  rcases evict_cases hl hf2 bytes with ⟨hfit, _⟩ | ⟨_, he, _⟩ | ⟨_, d1, y, _, hd, hen, _, _⟩
  · omega
  · exact he
  · obtain ⟨_, rfl⟩ := append_singleton_inj hd
    omega

theorem walk_unmapped (s : State) (fuel : Nat) {p : Ptr} {e : Fault} (h : s.load p = .error e) :
    walk s fuel p = [] := by
  cases fuel with
  | zero => rfl
  | succ f => simp [walk, h]

/-- After the eviction of the last node `x` the walk from `head` meets the nodes
that are left; when `x` was the only node, `head` still points at it and the walk
meets nothing. -/
theorem Evicted.entries_kept {s1 t : State} {d1 : List Ptr} {x : Ptr}
    (hl : ListAt s1 (d1 ++ [x])) (hE : Evicted s1 d1 x t) : entries t = d1 := by
  cases d1 with
  | nil =>
    unfold entries
    have hh : t.cache.head = x := by rw [hE.head, hl.head]; rfl
    rw [hh]
    exact walk_unmapped t _ hE.gone
  | cons a r =>
    have hl2 : ListAt t (a :: r) := by
      refine ⟨(List.nodup_append.1 hl.nodup).1, hE.seg, ?_, hE.tail⟩
      rw [hE.head, hl.head]; rfl
    exact hl2.walk_eq

theorem Evicted.listAt {s1 t : State} {d1 : List Ptr} {x : Ptr}
    (hl : ListAt s1 (d1 ++ [x])) (hE : Evicted s1 d1 x t) (hne : d1 ≠ []) : ListAt t d1 := by
  refine ⟨(List.nodup_append.1 hl.nodup).1, hE.seg, ?_, hE.tail⟩
  rw [hE.head, hl.head]
  cases d1 with
  | nil => exact absurd rfl hne
  | cons a r => rfl

theorem Evicted.not_mem {s1 : State} {d1 : List Ptr} {x : Ptr}
    (hl : ListAt s1 (d1 ++ [x])) : x ∉ d1 := fun h =>
  (List.nodup_append.1 hl.nodup).2.2 h (List.mem_singleton_self x)

theorem Evicted.used_eq {s1 t : State} {d1 : List Ptr} {x : Ptr}
    (hl : ListAt s1 (d1 ++ [x])) (hE : Evicted s1 d1 x t) :
    used t d1 = used s1 (d1 ++ [x]) - s1.size x := by
  have hu : used t d1 = used s1 d1 :=
    used_congr (fun p hp => hE.data p (fun e => Evicted.not_mem hl (e ▸ hp)))
  have hx1 : used s1 [x] = s1.size x := by simp [used]
  rw [hu, used_append, hx1]
  omega

/-- The byte budget after the eviction of the last node: its size is credited
once, and the nodes that are left account for the rest. -/
theorem Evicted.account {s1 t : State} {d1 : List Ptr} {x : Ptr}
    (hinv : Inv s1 (d1 ++ [x])) (hE : Evicted s1 d1 x t) :
    t.cache.free_bytes + usedBytes t = MAX_CACHE_SIZE ∧
    usedBytes t = usedBytes s1 - s1.size x ∧
    t.cache.free_bytes = s1.cache.free_bytes + s1.size x := by
  have h1 := hinv.account
  have h2 := Evicted.used_eq hinv.list hE
  have h3 := hE.free_bytes
  have e1 : usedBytes t = used t d1 := by unfold usedBytes; rw [Evicted.entries_kept hinv.list hE]
  have e2 : usedBytes s1 = used s1 (d1 ++ [x]) := by unfold usedBytes; rw [hinv.entries_eq]
  rw [e1, e2]
  refine ⟨by omega, h2, h3⟩

/-- The invariant after the eviction of the last node of a list of at least two,
with an empty hit bag. -/
theorem Evicted.inv {s1 t : State} {d1 : List Ptr} {x : Ptr}
    (hinv : Inv s1 (d1 ++ [x])) (hp : pending s1 = []) (hE : Evicted s1 d1 x t)
    (hne : d1 ≠ []) : Inv t d1 := by
  have hxd1 : x ∉ d1 := Evicted.not_mem hinv.list
  have hnn : 0 ≤ s1.size x := hinv.size_nonneg (List.mem_append_right _ (List.mem_singleton_self x))
  refine ⟨Evicted.listAt hinv.list hE hne, hinv.bag.of_same_hits hE.cache_hits, ?_, ?_, ?_, ?_, ?_⟩
  · rw [pending_congr hE.cache_hits, hp]; intro p h; cases h
  · intro h
    have := hE.mem_length
    rw [h] at this
    exact hinv.mem (List.length_eq_zero.1 this.symm)
  · intro p hpd d hd
    rw [hE.data p (fun e => hxd1 (e ▸ hpd))] at hd
    exact hinv.sizes p (List.mem_append_left _ hpd) d hd
  · have h1 := hinv.account
    have h2 := Evicted.used_eq hinv.list hE
    rw [hE.free_bytes]
    omega
  · rw [hE.free_bytes]
    have := hinv.free_nonneg
    omega

/-- What the two stages `drain_then_evict` did when they completed on a state
that satisfies the invariant: the drain loop emptied the bag and rearranged the
list into `drained s l`; then nothing was evicted, or exactly the last node of
that list. -/
theorem drain_evict_cases {s t : State} {l : List Ptr} (hinv : Inv s l) {fuel : Nat}
    {bytes : Int} (h : drain_then_evict fuel bytes s = .ok t) :
    ∃ s1, drain_hits fuel s = .ok s1 ∧ Inv s1 (drained s l) ∧ pending s1 = [] ∧
      SameStore s s1 ∧
      ((bytes ≤ s.cache.free_bytes ∧ t = s1) ∨
       (s.cache.free_bytes < bytes ∧ ∃ kept x, drained s l = kept ++ [x] ∧
          bytes ≤ s.cache.free_bytes + s.size x ∧ Evicted s1 kept x t)) := by
  unfold drain_then_evict at h
  obtain ⟨s1, hd, he⟩ := bind_eq_ok h
  obtain ⟨s1', hd', hinv1, hp1, hss⟩ := drain_inv hinv (Nat.lt_add_one (pending s).length)
  have hd2 := drain_hits_mono fuel s s1 hd ((pending s).length + 1)
  have hd3 := drain_hits_mono _ s s1' hd' fuel
  rw [Nat.add_comm] at hd2
  rw [hd2] at hd3
  cases hd3
  refine ⟨s1, hd, hinv1, hp1, hss, ?_⟩
  have hfree1 : s1.cache.free_bytes = s.cache.free_bytes := hss.free_bytes
  have hsize1 : ∀ p, s1.size p = s.size p := fun p => size_congr (hss.data p)
  rcases evict_ok_cases hinv1.list he with ⟨hfit, rfl⟩ | ⟨hlt, kept, x, hk, hen, hE⟩
  · exact Or.inl ⟨hfree1 ▸ hfit, rfl⟩
  · exact Or.inr ⟨hfree1 ▸ hlt, kept, x, hk, by rw [← hfree1, ← hsize1]; exact hen, hE⟩

/-- With enough fuel the two stages complete whenever no eviction is needed or
freeing the last node of the drained list is enough. -/
theorem drain_evict_completes {s : State} {l : List Ptr} (hinv : Inv s l) {fuel : Nat}
    (hf : (pending s).length < fuel) (hf2 : 2 ≤ fuel) {bytes : Int}
    (hen : bytes ≤ s.cache.free_bytes ∨
      ∃ kept x, drained s l = kept ++ [x] ∧ bytes ≤ s.cache.free_bytes + s.size x) :
    ∃ t, drain_then_evict fuel bytes s = .ok t := by
  obtain ⟨s1, hd, hinv1, hp1, hss⟩ := drain_inv hinv hf
  have hfree1 : s1.cache.free_bytes = s.cache.free_bytes := hss.free_bytes
  have hsize1 : ∀ p, s1.size p = s.size p := fun p => size_congr (hss.data p)
  unfold drain_then_evict
  rw [hd]
  simp only [bind_ok_eq]
  rcases evict_cases hinv1.list hf2 bytes with ⟨_, he⟩ | ⟨hlt, _, hwhy⟩ |
    ⟨_, _, _, s2, _, _, he, _⟩
  · exact ⟨_, he⟩
  · rcases hen with h | ⟨kept, x, hk, hx⟩
    · omega
    · rcases hwhy with hnil | ⟨d1, y, hd1, hy⟩
      · rw [hk] at hnil; simp at hnil
      · rw [hk] at hd1
        obtain ⟨_, rfl⟩ := append_singleton_inj hd1
        rw [hfree1, hsize1] at hy
        omega
  · exact ⟨_, he⟩

/-- On a state that satisfies the invariant, `cache_in` with enough fuel always
faults: in the eviction loop, or else in the store stage. -/
theorem cache_in_faults {s : State} {l : List Ptr} (hinv : Inv s l) {fuel : Nat}
    (hf : (pending s).length < fuel) (hf2 : 2 ≤ fuel) (url : String) (buf : List Nat)
    (bytes : Int) : cache_in fuel url buf bytes s = .error .ub := by
  obtain ⟨s1, hd, hinv1, _, _⟩ := drain_inv hinv hf
  rw [cache_in_eq_stages]
  unfold drain_then_evict
  rw [hd]
  simp only [bind_ok_eq]
  rcases evict_cases hinv1.list hf2 bytes with ⟨_, he⟩ | ⟨_, he, _⟩ | ⟨_, _, _, s2, _, _, he, _⟩
  · rw [he]; exact cache_in_store_faults url buf bytes s1
  · rw [he]; rfl
  · rw [he]; exact cache_in_store_faults url buf bytes s2

/-! ## Concrete states used to instantiate the theorems -/

theorem load_mem {s : State} {p : Ptr} {n : cache_node} (h : s.load p = .ok n) :
    some n ∈ s.mem := by
  have h2 := (load_ok_iff.1 h).2
  exact List.mem_iff_getElem?.2 ⟨p, h2⟩

/-- The invariant for a heap that holds the list `l` with an empty hit bag. -/
theorem inv_of_empty_bag {s : State} {l : List Ptr} (hl : ListAt s l) (hb : BagOK s)
    (hp : pending s = []) (hmem : s.mem ≠ [])
    (hsz : ∀ n, some n ∈ s.mem → (n.buf.length : Int) = n.content_length)
    (hacc : s.cache.free_bytes + used s l = MAX_CACHE_SIZE) (hfree : 0 ≤ s.cache.free_bytes) :
    Inv s l := by
  refine ⟨hl, hb, ?_, hmem, ?_, hacc, hfree⟩
  · rw [hp]; intro p h; cases h
  · intro p _ d hd
    unfold State.data at hd
    cases hn : s.load p with
    | error e => rw [hn] at hd; cases hd
    | ok n =>
      rw [hn] at hd
      cases hd
      exact hsz n (load_mem hn)

theorem cache_one_inv : Inv cache_one [1] := by
  refine inv_of_empty_bag ⟨by decide, ?_, rfl, rfl⟩ ⟨by decide, by decide, by decide⟩ rfl
    (by decide) ?_ (by decide) (by decide)
  · exact seg_cons.2 ⟨_, rfl, rfl, rfl, trivial⟩
  · intro n hn
    simp only [cache_one, List.mem_cons, List.mem_singleton, Option.some.injEq,
      List.not_mem_nil, or_false, false_or, reduceCtorEq] at hn
    subst hn
    rfl

theorem cache_abc_inv : Inv cache_abc [3, 2, 1] := by
  refine inv_of_empty_bag ⟨by decide, ?_, rfl, rfl⟩ ⟨by decide, by decide, by decide⟩ rfl
    (by decide) ?_ (by decide) (by decide)
  · repeat (refine seg_cons.2 ⟨_, rfl, rfl, rfl, ?_⟩)
    trivial
  · intro n hn
    simp only [cache_abc, List.mem_cons, List.mem_singleton, Option.some.injEq,
      List.not_mem_nil, or_false, false_or, reduceCtorEq] at hn
    rcases hn with rfl | rfl | rfl <;> rfl

theorem lru_abc_inv : Inv lru_abc [3, 2, 1] := by
  refine inv_of_empty_bag ⟨by decide, ?_, rfl, rfl⟩ ⟨by decide, by decide, by decide⟩ rfl
    (by decide) ?_ (by decide) (by decide)
  · repeat (refine seg_cons.2 ⟨_, rfl, rfl, rfl, ?_⟩)
    trivial
  · intro n hn
    simp only [lru_abc, obj, List.mem_cons, List.mem_singleton, Option.some.injEq,
      List.not_mem_nil, or_false, false_or, reduceCtorEq] at hn
    rcases hn with rfl | rfl | rfl <;> simp

theorem full_cache_inv : Inv full_cache [12, 11, 10, 9, 8, 7, 6, 5, 4, 3, 2, 1] := by
  refine inv_of_empty_bag ⟨by decide, ?_, rfl, rfl⟩ ⟨by decide, by decide, by decide⟩ rfl
    (by decide) ?_ (by decide) (by decide)
  · repeat (refine seg_cons.2 ⟨_, rfl, rfl, rfl, ?_⟩)
    trivial
  · intro n hn
    simp only [full_cache, obj, List.mem_cons, List.mem_singleton, Option.some.injEq,
      List.not_mem_nil, or_false, false_or, reduceCtorEq] at hn
    rcases hn with rfl | rfl | rfl | rfl | rfl | rfl | rfl | rfl | rfl | rfl | rfl | rfl <;> simp

theorem zero_tail_inv : Inv zero_tail [11, 10, 9, 8, 7, 6, 5, 4, 3, 2, 1] := by
  refine inv_of_empty_bag ⟨by decide, ?_, rfl, rfl⟩ ⟨by decide, by decide, by decide⟩ rfl
    (by decide) ?_ (by decide) (by decide)
  · repeat (refine seg_cons.2 ⟨_, rfl, rfl, rfl, ?_⟩)
    trivial
  · intro n hn
    simp only [zero_tail, obj, List.mem_cons, List.mem_singleton, Option.some.injEq,
      List.not_mem_nil, or_false, false_or, reduceCtorEq] at hn
    rcases hn with rfl | rfl | rfl | rfl | rfl | rfl | rfl | rfl | rfl | rfl | rfl <;> simp

/-! ## C1: the round trip -/

/-- C1 (round trip), at failing inputs. No call of `cache_in` returns: the block
it gets from `malloc(sizeof(cache_node *))` holds no node, and it writes the
members of one through that pointer. So the round trip returns nothing, on the
fresh cache with the one-byte object "a" as on every other input. On the cache
`full_cache`, which holds 1024002 bytes, `cache_in("z", buf, 102400)` does not
even get that far: it must evict "a", "b" and more, and faults in the second turn
of the eviction loop. -/
theorem round_trip_faults :
    ((1 : Int) ≤ MAX_OBJECT_SIZE ∧ ([0] : List Nat).length = 1 ∧
      (∀ fuel, 2 ≤ fuel → cache_in fuel "a" [0] 1 init_cache = .error .ub) ∧
      (∀ fuel, 2 ≤ fuel → round_trip fuel "a" [0] 1 1 init_cache = .error .ub) ∧
      (∀ fuel url buf bytes fd s r, round_trip fuel url buf bytes fd s ≠ .ok r)) ∧
    (Inv full_cache [12, 11, 10, 9, 8, 7, 6, 5, 4, 3, 2, 1] ∧ pending full_cache = [] ∧
      (102400 : Int) ≤ MAX_OBJECT_SIZE ∧ (payload 102400).length = 102400 ∧
      (∀ fuel, 2 ≤ fuel → evict_cache fuel 102400 full_cache = .error .ub) ∧
      (∀ fuel, 2 ≤ fuel →
        round_trip fuel "z" (payload 102400) 102400 1 full_cache = .error .ub)) := by
  have h1 : ∀ fuel, 2 ≤ fuel → cache_in fuel "a" [0] 1 init_cache = .error .ub :=
    fun fuel hf => cache_in_faults inv_init (Nat.lt_of_lt_of_le (by decide) hf) hf _ _ _
  refine ⟨⟨by decide, rfl, h1, ?_, ?_⟩, full_cache_inv, rfl, by decide, payload_length _, ?_, ?_⟩
  · intro fuel hf
    unfold round_trip
    rw [h1 fuel hf]
    rfl
  · intro fuel url buf bytes fd s r hr
    unfold round_trip at hr
    obtain ⟨s', hin, _⟩ := bind_eq_ok hr
    exact cache_in_never_ok _ _ _ _ _ _ hin
  · intro fuel hf
    have hl : ListAt full_cache ([12, 11, 10, 9, 8, 7, 6, 5, 4, 3, 2] ++ [1]) :=
      full_cache_inv.list
    exact evict_second_turn hl (by decide) (by decide) hf
  · intro fuel hf
    unfold round_trip
    rw [cache_in_faults full_cache_inv (Nat.lt_of_lt_of_le (by decide) hf) hf]
    rfl

/-! ## C3: eviction order -/

/-- C3 (LRU eviction order), at a failing input: the list is C, B, A of 10 KiB
each and the hit bag is empty; `cache_in("D", buf, MAX_CACHE_SIZE - 10 KiB)`
needs the suffix B, A removed. The first turn of the eviction loop frees A; the
free bytes are still too few, and the second turn runs `delete_node` on the node
it has just freed. -/
theorem lru_eviction_faults :
    Inv lru_abc [3, 2, 1] ∧ pending lru_abc = [] ∧
    lru_abc.data 3 = some ("C", payload 10240, 10240) ∧
    lru_abc.data 2 = some ("B", payload 10240, 10240) ∧
    lru_abc.data 1 = some ("A", payload 10240, 10240) ∧
    lru_abc.cache.free_bytes + lru_abc.size 1 < MAX_CACHE_SIZE - 10240 ∧
    MAX_CACHE_SIZE - 10240 ≤ lru_abc.cache.free_bytes + lru_abc.size 1 + lru_abc.size 2 ∧
    (∃ t, evict_body 1 lru_abc = .ok t ∧ t.load 1 = .error .ub ∧
      t.cache.free_bytes < MAX_CACHE_SIZE - 10240 ∧ evict_body 1 t = .error .ub) ∧
    (∀ fuel, 2 ≤ fuel → evict_cache fuel (MAX_CACHE_SIZE - 10240) lru_abc = .error .ub) ∧
    (∀ fuel, 2 ≤ fuel →
      cache_in fuel "D" (payload 1038760) (MAX_CACHE_SIZE - 10240) lru_abc = .error .ub) := by
  refine ⟨lru_abc_inv, rfl, rfl, rfl, rfl, by decide, by decide, ⟨_, rfl, rfl, by decide, rfl⟩,
    ?_, ?_⟩
  · intro fuel hf
    have hl : ListAt lru_abc ([3, 2] ++ [1]) := lru_abc_inv.list
    exact evict_second_turn hl (by decide) (by decide) hf
  · intro fuel hf
    exact cache_in_faults lru_abc_inv (Nat.lt_of_lt_of_le (by decide) hf) hf _ _ _

/-- The instance given with C3, one eviction: on the list C, B, A a request of
`MAX_CACHE_SIZE - 20 KiB` makes `evict_cache` free exactly A and keep C and B in
their order. -/
theorem lru_one_eviction :
    (evict_cache 2 (MAX_CACHE_SIZE - 20480) lru_abc).map
        (fun t => (entries t, t.data 1, t.cache.free_bytes))
      = .ok ([3, 2], none, 1028520) := by
  rfl

/-! ## C11: is `cache_in` total? -/

/-- C11 (insert is total), at two failing inputs. On the empty store a request of
`MAX_CACHE_SIZE + 1` bytes makes `evict_cache` call `delete_node(NULL)`: the loop
tests only `free_bytes < bytes`, never whether the store is empty. On the store
`zero_tail`, whose last entry has zero bytes (then ten entries of 102400 bytes,
25000 bytes free), a request of 102400 bytes frees that entry, gains nothing, and
the second turn of the loop dereferences the freed node. Neither call returns. -/
theorem insert_not_total :
    (MAX_CACHE_SIZE < 1049001 ∧ entries init_cache = [] ∧
      (∀ fuel, 1 ≤ fuel → evict_cache fuel 1049001 init_cache = .error .ub) ∧
      (∀ fuel, 1 ≤ fuel →
        cache_in fuel "x" (payload 1049001) 1049001 init_cache = .error .ub) ∧
      (∀ fuel s', cache_in fuel "x" (payload 1049001) 1049001 init_cache ≠ .ok s')) ∧
    (Inv zero_tail [11, 10, 9, 8, 7, 6, 5, 4, 3, 2, 1] ∧ pending zero_tail = [] ∧
      zero_tail.data 1 = some ("e", [], 0) ∧ zero_tail.cache.free_bytes = 25000 ∧
      (∃ t, evict_body 1 zero_tail = .ok t ∧ t.load 1 = .error .ub ∧
        t.cache.free_bytes = 25000 ∧ evict_body 1 t = .error .ub) ∧
      (∀ fuel, 2 ≤ fuel → evict_cache fuel 102400 zero_tail = .error .ub) ∧
      (∀ fuel, 2 ≤ fuel → cache_in fuel "z" (payload 102400) 102400 zero_tail = .error .ub) ∧
      (∀ fuel s', cache_in fuel "z" (payload 102400) 102400 zero_tail ≠ .ok s')) := by
  have hev : ∀ fuel, 1 ≤ fuel → evict_cache fuel 1049001 init_cache = .error .ub := by
    intro fuel hf
    obtain ⟨f, rfl⟩ : ∃ f, fuel = f + 1 := ⟨fuel - 1, by omega⟩
    exact evict_loop_unmapped 1049001 NULL f init_cache (by decide) (load_null init_cache)
  have hin : ∀ fuel, 1 ≤ fuel →
      cache_in fuel "x" (payload 1049001) 1049001 init_cache = .error .ub := by
    intro fuel hf
    obtain ⟨f, rfl⟩ : ∃ f, fuel = f + 1 := ⟨fuel - 1, by omega⟩
    unfold cache_in
    rw [drain_hits_empty inv_init.bag rfl f]
    simp only [bind_ok_eq]
    rw [hev (f + 1) hf]
    rfl
  refine ⟨⟨by decide, rfl, hev, hin, fun fuel s' => cache_in_never_ok _ _ _ _ _ _⟩,
    zero_tail_inv, rfl, rfl, rfl, ⟨_, rfl, rfl, rfl, rfl⟩, ?_, ?_,
    fun fuel s' => cache_in_never_ok _ _ _ _ _ _⟩
  · intro fuel hf
    have hl : ListAt zero_tail ([11, 10, 9, 8, 7, 6, 5, 4, 3, 2] ++ [1]) := zero_tail_inv.list
    exact evict_second_turn hl (by decide) (by decide) hf
  · intro fuel hf
    exact cache_in_faults zero_tail_inv (Nat.lt_of_lt_of_le (by decide) hf) hf _ _ _

/-! ## C17: `delete_node` on the head -/

/-- Away from the head `delete_node` is the removal the list needs: the other
entries stay linked in their order, `tail` follows when the last one goes. -/
theorem delete_node_not_head {s : State} {l : List Ptr} {e : Ptr} (hl : ListAt s l)
    (he : e ∈ l) (hne : e ≠ s.cache.head) :
    ∃ s', delete_node e s = .ok s' ∧ ListAt s' (l.erase e) ∧ SameData s s' ∧
      s'.load e = s.load e := by
  obtain ⟨l1, l2, rfl⟩ := List.append_of_mem he
  have hnd := hl.nodup
  have hx1 : e ∉ l1 := fun h =>
    (List.nodup_append.1 hnd).2.2 h (List.mem_cons_self _ _)
  have hera : (l1 ++ e :: l2).erase e = l1 ++ l2 := by
    rw [List.erase_append_right _ hx1, List.erase_cons_head]
  obtain ⟨s1, h1, hseg1, htail1, hhead1, hload1, hsd1⟩ := delete_node_spec hnd hl.seg hl.tail
  refine ⟨s1, h1, ?_, hsd1, hload1⟩
  rw [hera]
  refine ⟨List.Nodup.sublist (List.Sublist.append_left (List.sublist_cons_self e l2) l1) hnd,
    hseg1, ?_, htail1⟩
  rw [hhead1, hl.head]
  cases l1 with
  | nil => exact absurd (by rw [hl.head]; rfl) hne
  | cons a l1' => rfl

/-- With `cache.head` left at a node that is no longer mapped, every
`insert_node` faults: it writes `cache.head->pre`. -/
theorem insert_node_stale_head (t : State) (e : Fault) (hh : t.cache.head ≠ NULL)
    (hx : t.load t.cache.head = .error e) (p : Ptr) : insert_node p t = .error .ub := by
  by_cases hp : p = t.cache.head
  · unfold insert_node
    rw [if_pos hh, hp, hx, load_error hx]
    rfl
  · exact insert_node_dangling t p hh hp hx

/-! ## The shape of the list -/

theorem ListAt.head_null_iff {s : State} {l : List Ptr} (hl : ListAt s l) :
    s.cache.head = NULL ↔ l = [] := by
  rw [hl.head]
  cases l with
  | nil => simp
  | cons a t =>
    simp only [List.headD_cons, reduceCtorEq, iff_false]
    exact hl.head_ne_null (List.mem_cons_self _ _)

theorem ListAt.tail_null_iff {s : State} {l : List Ptr} (hl : ListAt s l) :
    s.cache.tail = NULL ↔ l = [] := by
  rw [hl.tail]
  cases l with
  | nil => simp
  | cons a t =>
    simp only [reduceCtorEq, iff_false]
    exact hl.head_ne_null (getLastD_mem (a :: t) NULL (by simp))

/-- C17 (remove), at failing inputs: `delete_node` has no assignment to
`cache.head`. On the one-entry list of `cache_one` it sets `tail` to nil and
leaves `head` at the removed node, so no list is well-formed in the state it
yields. `evict_cache` calls it so when a request needs that entry's bytes: it
returns with `head` at the node it has freed, every `insert_node` on that state
writes through the stale `head`, and `cache_in` does not return. On the two-entry
list of `key_two` the removed head is still the first node met from `head`. -/
theorem delete_node_keeps_head :
    (entries cache_one = [1] ∧
      ∃ s', delete_node 1 cache_one = .ok s' ∧ s'.cache.head = 1 ∧ s'.cache.tail = NULL ∧
        ¬ ∃ l, ListAt s' l) ∧
    (∃ t, evict_cache 2 1049000 cache_one = .ok t ∧ t.cache.head = 1 ∧ t.cache.tail = NULL ∧
      t.load 1 = .error .ub ∧ ∀ p, insert_node p t = .error .ub) ∧
    (∀ fuel, 2 ≤ fuel → cache_in fuel "y" (payload 1049000) 1049000 cache_one = .error .ub) ∧
    (entries key_two = [2, 1] ∧
      ∃ s', delete_node 2 key_two = .ok s' ∧ s'.cache.head = 2 ∧ entries s' = [2, 1]) := by
  refine ⟨⟨rfl, _, rfl, rfl, rfl, ?_⟩, ⟨_, rfl, rfl, rfl, rfl, ?_⟩, ?_, ⟨rfl, _, rfl, rfl, rfl⟩⟩
  · rintro ⟨l, hl⟩
    have h1 : l = [] := hl.tail_null_iff.1 rfl
    have h2 := hl.head_null_iff.2 h1
    exact absurd h2 (by decide)
  · intro p
    refine insert_node_stale_head _ .ub ?_ ?_ p
    · decide
    · rfl
  · intro fuel hf2
    exact cache_in_faults cache_one_inv (Nat.lt_of_lt_of_le (by decide) hf2) hf2 _ _ _

/-! ## C2, C13: the byte budget -/

theorem usedBytes_congr {s s' : State} (hm : s'.mem = s.mem) (hc : s'.cache = s.cache) :
    usedBytes s' = usedBytes s := by
  have hw : ∀ fuel p, walk s' fuel p = walk s fuel p := by
    intro fuel
    induction fuel with
    | zero => intro p; rfl
    | succ f ih =>
      intro p
      simp only [walk, load_congr hm p]
      cases s.load p with
      | error e => rfl
      | ok n => simp only [ih]
  have he : entries s' = entries s := by
    unfold entries; rw [hm, hc, hw]
  unfold usedBytes
  rw [he]
  exact used_congr (fun p _ => by unfold State.data; rw [load_congr hm p])

theorem cache_abc_hit_eq : cache_out 4 "A" 7 cache_abc = .ok cache_abc_hit := by
  rfl

theorem cache_abc_hit_AB_eq : cache_out 4 "B" 7 cache_abc_hit.state = .ok cache_abc_hit_AB := by
  rfl

theorem cache_abc_hit_AA_eq : cache_out 4 "A" 7 cache_abc_hit.state = .ok cache_abc_hit_AA := by
  rfl

theorem cache_abc_hit_ABC_eq :
    cache_out 4 "C" 7 cache_abc_hit_AB.state = .ok cache_abc_hit_ABC := by
  rfl

theorem inv_of_hit {s : State} {l : List Ptr} (hinv : Inv s l) {fuel : Nat} {url : String}
    {fd : Int} {r : cache_out_result} (h : cache_out fuel url fd s = .ok r) :
    Inv r.state l := by
  rcases cache_out_ok_inv hinv h with ⟨_, rfl⟩ | ⟨_, _, _, _, _, _, _, _, _, _, _, _, _, h8⟩
  · exact hinv
  · exact h8

theorem cache_abc_hit_inv : Inv cache_abc_hit.state [3, 2, 1] :=
  inv_of_hit cache_abc_inv cache_abc_hit_eq

theorem cache_abc_hit_AB_inv : Inv cache_abc_hit_AB.state [3, 2, 1] :=
  inv_of_hit cache_abc_hit_inv cache_abc_hit_AB_eq

theorem cache_abc_hit_AA_inv : Inv cache_abc_hit_AA.state [3, 2, 1] :=
  inv_of_hit cache_abc_hit_inv cache_abc_hit_AA_eq

theorem cache_abc_hit_ABC_inv : Inv cache_abc_hit_ABC.state [3, 2, 1] :=
  inv_of_hit cache_abc_hit_AB_inv cache_abc_hit_ABC_eq

/-- C7 as amended: on a well-formed cache with recency list `l`, whose hit bag
can take one more reference without leaving `int` (there is room in the array, or
doubling `bag_size` does not overflow), `cache_out` returns 1 exactly when some
entry of `l` carries the url, and then it writes the `buf` (all `content_length`
bytes of it) of the first such entry from the head; otherwise it returns 0 and
writes nothing. -/
theorem lookup_result {s : State} {l : List Ptr} (hinv : Inv s l) (hroom : BagRoom s)
    {fuel : Nat} (hf : l.length < fuel) (url : String) (fd : Int) :
    ∃ r, cache_out fuel url fd s = .ok r ∧
      (r.cached = 1 ↔ ∃ p ∈ l, ∃ n, s.load p = .ok n ∧ n.url = url) ∧
      (r.cached = 1 → ∃ p n, l.find? (has_url s url) = some p ∧ s.load p = .ok n ∧
        (n.buf.length : Int) = n.content_length ∧ r.written = [(fd, n.buf)]) ∧
      (r.cached ≠ 1 → r.cached = 0 ∧ r.written = []) := by
  rcases cache_out_cases hinv hroom hf url fd with ⟨hm, he⟩ |
    ⟨p, n, r, hm, hn, hu, hpl, he, h1, h2, _⟩
  · refine ⟨_, he, ?_, ?_, ?_⟩
    · constructor
      · intro h; exact absurd h zero_ne_one_int
      · intro h; exact absurd h (first_match_none_iff.1 hm)
    · intro h; exact absurd h zero_ne_one_int
    · intro _; exact ⟨rfl, rfl⟩
  · have hsz := hinv.node_sizes hpl hn
    refine ⟨r, he, ?_, ?_, ?_⟩
    · exact ⟨fun _ => ⟨p, hpl, n, hn, hu⟩, fun _ => h1⟩
    · intro _
      refine ⟨p, n, hm, hn, hsz, ?_⟩
      rw [h2, List.take_of_length_le (by omega)]
    · intro h; exact absurd h1 h

theorem lookup_result_witness :
    Inv cache_one [1] ∧ BagRoom cache_one ∧ [1].length < 2 ∧
    ∃ r, cache_out 2 "a" 7 cache_one = .ok r ∧
      (r.cached = 1 ↔ ∃ p ∈ [1], ∃ n, cache_one.load p = .ok n ∧ n.url = "a") ∧
      (r.cached = 1 → ∃ p n, [1].find? (has_url cache_one "a") = some p ∧
        cache_one.load p = .ok n ∧
        (n.buf.length : Int) = n.content_length ∧ r.written = [(7, n.buf)]) ∧
      (r.cached ≠ 1 → r.cached = 0 ∧ r.written = []) :=
  ⟨cache_one_inv, Or.inl (by decide), by decide,
    lookup_result cache_one_inv (Or.inl (by decide)) (by decide) "a" 7⟩

theorem moveToHead_eq {x : Ptr} {l : List Ptr} (hx : x ∈ l) :
    moveToHead x l = x :: l.erase x := by
  unfold moveToHead
  split
  · next h =>
    cases l with
    | nil => cases hx
    | cons a t =>
      simp only [List.headD_cons] at h
      subst h
      simp
  · rfl

theorem length_erase_of_mem {x : Ptr} {l : List Ptr} (hx : x ∈ l) :
    (l.erase x).length = l.length - 1 := by
  rw [List.length_erase_of_mem hx]

theorem moveToHead_idem {x : Ptr} {l : List Ptr} (hx : x ∈ l) :
    moveToHead x (moveToHead x l) = moveToHead x l := by
  rw [moveToHead_eq hx]
  unfold moveToHead
  simp

theorem foldr_replicate_moveToHead {e : Ptr} {l : List Ptr} (he : e ∈ l) :
    ∀ k, 1 ≤ k → (List.replicate k e).foldr moveToHead l = moveToHead e l := by
  intro k
  induction k with
  | zero => intro h; omega
  | succ j ih =>
    intro _
    rw [List.replicate_succ, List.foldr_cons]
    cases j with
    | zero => rfl
    | succ i => rw [ih (by omega), moveToHead_idem he]

theorem seg_load_eq {t t' : State} : ∀ (l : List Ptr) (prev nxt : Ptr),
    Seg t prev l nxt → Seg t' prev l nxt → (∀ p ∈ l, t.data p = t'.data p) →
    ∀ p ∈ l, t.load p = t'.load p := by
  intro l
  induction l with
  | nil => intro _ _ _ _ _ p hp; cases hp
  | cons a rest ih =>
    intro prev nxt hs hs' hd p hp
    obtain ⟨n, hn, hpre, hsucc, hrest⟩ := hs
    obtain ⟨n', hn', hpre', hsucc', hrest'⟩ := hs'
    rcases List.mem_cons.1 hp with rfl | hm
    · have hda := hd p (List.mem_cons_self _ _)
      unfold State.data at hda
      rw [hn, hn'] at hda
      simp only [Option.some.injEq, Prod.mk.injEq] at hda
      rw [hn, hn']
      congr 1
      cases n; cases n'
      simp only at hda hpre hpre' hsucc hsucc'
      simp only [cache_node.mk.injEq]
      exact ⟨hda.1, hda.2.1, hda.2.2, hpre.trans hpre'.symm, hsucc.trans hsucc'.symm⟩
    · exact ih a nxt hrest hrest' (fun q hq => hd q (List.mem_cons_of_mem _ hq)) p hm

theorem same_list_of_listAt {t t' : State} {l : List Ptr} (h : ListAt t l) (h' : ListAt t' l)
    (hfree : t.cache.free_bytes = t'.cache.free_bytes) (hd : ∀ p, t.data p = t'.data p) :
    t.cache = t'.cache ∧ ∀ p ∈ l, t.load p = t'.load p := by
  refine ⟨?_, seg_load_eq l NULL NULL h.seg h'.seg (fun p _ => hd p)⟩
  have h1 := h.head.trans h'.head.symm
  have h2 := h.tail.trans h'.tail.symm
  cases hc : t.cache
  cases hc' : t'.cache
  rw [hc, hc'] at hfree h1 h2
  simp only at hfree h1 h2
  rw [hfree, h1, h2]

/-- C10 (idempotent hit application): let two well-formed states hold the same
recency list `l` (same heap, same `cache`), one with a single pending reference
to the entry `e`, the other with `k >= 1` of them. The drain loop leaves the same
list in both: the same order (`e` first, then the others as they were), the same
`head`, `tail` and `free_bytes`, and the same node (url, buf, content_length, pre,
succ) at every entry. When `e` is already the head, that list is the one it
started from, order, head, tail and links unchanged. -/
theorem idempotent_hit_application {s1 sk : State} {l : List Ptr} {e : Ptr}
    (h1 : Inv s1 l) (hk : Inv sk l) (hmem : sk.mem = s1.mem) (hcache : sk.cache = s1.cache)
    (hp1 : pending s1 = [e]) (k : Nat) (hpk : pending sk = List.replicate k e) (hk1 : 1 ≤ k)
    {f1 fk : Nat} (hf1 : 1 < f1) (hfk : k < fk) :
    ∃ t1 tk, drain_hits f1 s1 = .ok t1 ∧ drain_hits fk sk = .ok tk ∧
      entries t1 = moveToHead e l ∧ entries tk = moveToHead e l ∧
      tk.cache = t1.cache ∧ (∀ p ∈ moveToHead e l, tk.load p = t1.load p) ∧
      (e = s1.cache.head →
        entries tk = l ∧ tk.cache = sk.cache ∧ ∀ p ∈ l, tk.load p = sk.load p) := by
  have hel : e ∈ l := h1.hits e (by rw [hp1]; exact List.mem_singleton_self e)
  obtain ⟨t1, ht1, hinv1, _, hss1⟩ := drain_inv h1 (by rw [hp1]; exact hf1)
  obtain ⟨tk, htk, hinvk, _, hssk⟩ := drain_inv hk (by rw [hpk]; simpa using hfk)
  have hd1 : drained s1 l = moveToHead e l := by unfold drained; rw [hp1]; rfl
  have hdk : drained sk l = moveToHead e l := by
    unfold drained; rw [hpk]; exact foldr_replicate_moveToHead hel k hk1
  rw [hd1] at hinv1
  rw [hdk] at hinvk
  have hdata0 : ∀ p, sk.data p = s1.data p := fun p => by
    unfold State.data; rw [load_congr hmem p]
  have hdata : ∀ p, tk.data p = t1.data p := fun p => by
    rw [hssk.data, hss1.data, hdata0]
  have hfree : tk.cache.free_bytes = t1.cache.free_bytes := by
    rw [hssk.free_bytes, hss1.free_bytes, hcache]
  obtain ⟨hc, hl⟩ := same_list_of_listAt hinvk.list hinv1.list hfree hdata
  refine ⟨t1, tk, ht1, htk, hinv1.entries_eq, hinvk.entries_eq, hc, hl, ?_⟩
  intro hhead
  have hmv : moveToHead e l = l := by
    unfold moveToHead; rw [← h1.list.head, ← hhead]; simp
  rw [hmv] at hinvk
  obtain ⟨hc', hl'⟩ := same_list_of_listAt hinvk.list hk.list hssk.free_bytes hssk.data
  exact ⟨hinvk.entries_eq, hc', hl'⟩

theorem idempotent_hit_application_witness :
    Inv cache_abc_hit.state [3, 2, 1] ∧ Inv cache_abc_hit_AA.state [3, 2, 1] ∧
    pending cache_abc_hit.state = [1] ∧ pending cache_abc_hit_AA.state = List.replicate 2 1 ∧
    ∃ t1 tk, drain_hits 2 cache_abc_hit.state = .ok t1 ∧
      drain_hits 3 cache_abc_hit_AA.state = .ok tk ∧
      entries t1 = moveToHead 1 [3, 2, 1] ∧ entries tk = moveToHead 1 [3, 2, 1] ∧
      tk.cache = t1.cache ∧ (∀ p ∈ moveToHead 1 [3, 2, 1], tk.load p = t1.load p) ∧
      (1 = cache_abc_hit.state.cache.head →
        entries tk = [3, 2, 1] ∧ tk.cache = cache_abc_hit_AA.state.cache ∧
        ∀ p ∈ [3, 2, 1], tk.load p = cache_abc_hit_AA.state.load p) :=
  ⟨cache_abc_hit_inv, cache_abc_hit_AA_inv, rfl, rfl,
    idempotent_hit_application cache_abc_hit_inv cache_abc_hit_AA_inv rfl rfl rfl 2 rfl
      (by decide) (by decide) (by decide)⟩

/-! ## C18: the drain loop -/

theorem filter_erase_of_not {P : Ptr → Bool} {x : Ptr} (hx : P x = false) :
    ∀ l : List Ptr, (l.erase x).filter P = l.filter P := by
  intro l
  induction l with
  | nil => rfl
  | cons a t ih =>
    by_cases ha : a = x
    · subst ha
      rw [List.erase_cons_head, List.filter_cons, hx]
      simp
    · rw [List.erase_cons_tail (by simpa using ha), List.filter_cons, List.filter_cons, ih]

theorem filter_moveToHead_of_not {P : Ptr → Bool} {x : Ptr} (hx : P x = false) (l : List Ptr) :
    (moveToHead x l).filter P = l.filter P := by
  unfold moveToHead
  split
  · rfl
  · rw [List.filter_cons, hx]
    simp only [Bool.false_eq_true, if_false]
    exact filter_erase_of_not hx l

theorem filter_drained_of_not {P : Ptr → Bool} (l : List Ptr) : ∀ hs : List Ptr,
    (∀ x ∈ hs, P x = false) → (hs.foldr moveToHead l).filter P = l.filter P := by
  intro hs
  induction hs with
  | nil => intro _; rfl
  | cons x hs ih =>
    intro h
    rw [List.foldr_cons, filter_moveToHead_of_not (h x (List.mem_cons_self _ _)),
      ih (fun y hy => h y (List.mem_cons_of_mem _ hy))]

/-- C18 (deferred reorder moves, never recreates or drops): on a well-formed
recency list `l` with a hit bag whose references are all members of `l`, the
drain loop of `cache_in` ends with an empty hit bag and a well-formed list that is
a permutation of `l`; every node keeps its url, payload and size; the entries
that were not hit keep their relative order; `free_bytes` is unchanged. -/
theorem drain_moves_only {s : State} {l : List Ptr} (hl : ListAt s l) (hb : BagOK s)
    (hm : ∀ p ∈ pending s, p ∈ l) {fuel : Nat} (hf : (pending s).length < fuel) :
    ∃ t, drain_hits fuel s = .ok t ∧ pending t = [] ∧ ListAt t (entries t) ∧
      (entries t).Perm l ∧ (∀ p, t.data p = s.data p) ∧
      (entries t).filter (fun p => decide (p ∉ pending s))
        = l.filter (fun p => decide (p ∉ pending s)) ∧
      t.cache.free_bytes = s.cache.free_bytes := by
  obtain ⟨t, ht, hlt, _, hpt, hss⟩ := drain_hits_spec fuel s l (pending s) hl hb rfl hm hf
  have he : entries t = (pending s).foldr moveToHead l := hlt.walk_eq
  refine ⟨t, ht, hpt, by rw [he]; exact hlt, by rw [he]; exact drained_perm l _ hm, hss.data,
    ?_, hss.free_bytes⟩
  rw [he]
  exact filter_drained_of_not l (pending s) (fun x hx => by simpa using hx)

theorem drain_moves_only_witness :
    ListAt cache_abc_hit_AB.state [3, 2, 1] ∧ BagOK cache_abc_hit_AB.state ∧
    (∀ p ∈ pending cache_abc_hit_AB.state, p ∈ [3, 2, 1]) ∧
    (pending cache_abc_hit_AB.state).length < 3 ∧
    ∃ t, drain_hits 3 cache_abc_hit_AB.state = .ok t ∧ pending t = [] ∧
      ListAt t (entries t) ∧ (entries t).Perm [3, 2, 1] ∧
      (∀ p, t.data p = cache_abc_hit_AB.state.data p) ∧
      (entries t).filter (fun p => decide (p ∉ pending cache_abc_hit_AB.state))
        = [3, 2, 1].filter (fun p => decide (p ∉ pending cache_abc_hit_AB.state)) ∧
      t.cache.free_bytes = cache_abc_hit_AB.state.cache.free_bytes :=
  ⟨cache_abc_hit_AB_inv.list, cache_abc_hit_AB_inv.bag, cache_abc_hit_AB_inv.hits, by decide,
    drain_moves_only cache_abc_hit_AB_inv.list cache_abc_hit_AB_inv.bag
      cache_abc_hit_AB_inv.hits (by decide)⟩

/-! ## C4: a recorded hit is applied before anything is evicted -/

/-- C4 (hit reorders recency): on a well-formed cache with at least two entries
and an empty hit bag, let `cache_out` hit the entry `A`. Then (1) the drain loop
of the next `cache_in` moves `A` to the head and removes nothing; (2) whenever
the eviction that follows the drain completes, `A` is still stored, at the head,
and the only entry that can be gone is the last of the other entries; (3) that
eviction completes whenever freeing that last entry is enough; (4) `cache_in` is
these two stages followed by the store of the new node. So `A` is never evicted
before another entry. -/
theorem hit_reorders_recency {s : State} {l : List Ptr} (hinv : Inv s l) (h2 : 2 ≤ l.length)
    (hq : pending s = []) {fuel : Nat} {url : String} {fd : Int} {r : cache_out_result}
    (hout : cache_out fuel url fd s = .ok r) (hhit : r.cached = 1) :
    ∃ A, l.find? (has_url s url) = some A ∧ pending r.state = [A] ∧
      (∀ f, 2 ≤ f → ∃ t, drain_hits f r.state = .ok t ∧ entries t = A :: l.erase A ∧
        t.cache.free_bytes = s.cache.free_bytes) ∧
      (∀ f bytes t, drain_then_evict f bytes r.state = .ok t →
        t.cache.head = A ∧ t.data A = s.data A ∧
        (entries t = A :: l.erase A ∨
         ∃ k x, l.erase A = k ++ [x] ∧ entries t = A :: k ∧ t.load x = .error .ub)) ∧
      (∀ f bytes, 2 ≤ f →
        bytes ≤ s.cache.free_bytes + s.size ((l.erase A).getLastD NULL) →
        ∃ t, drain_then_evict f bytes r.state = .ok t) ∧
      (∀ f url' buf bytes, cache_in f url' buf bytes r.state =
        (drain_then_evict f bytes r.state >>= cache_in_store url' buf bytes)) := by
  rcases cache_out_ok_inv hinv hout with ⟨_, rfl⟩ |
    ⟨A, n, hm, hn, _, hAl, _, _, h3, h4, _, _, h7, hinv'⟩
  · exact absurd hhit zero_ne_one_int
  · rw [hq, List.nil_append] at h7
    have hd : drained r.state l = A :: l.erase A := by
      unfold drained; rw [h7]; exact moveToHead_eq hAl
    have hfree : r.state.cache.free_bytes = s.cache.free_bytes := by rw [h4]
    have hdata : ∀ p, r.state.data p = s.data p := fun p => by
      unfold State.data; rw [load_congr h3 p]
    have hsize : ∀ p, r.state.size p = s.size p := fun p => size_congr (hdata p)
    have hne : l.erase A ≠ [] := by
      intro h
      have := length_erase_of_mem hAl
      rw [h] at this
      simp at this
      omega
    refine ⟨A, hm, h7, ?_, ?_, ?_, fun f url' buf bytes => cache_in_eq_stages _ _ _ _ _⟩
    · intro f hf
      obtain ⟨t, ht, hinvt, _, hss⟩ := drain_inv hinv' (by rw [h7]; exact hf)
      refine ⟨t, ht, ?_, by rw [hss.free_bytes, hfree]⟩
      rw [hinvt.entries_eq, hd]
    · intro f bytes t ht
      obtain ⟨s1, _, hinv1, _, hss, hcase⟩ := drain_evict_cases hinv' ht
      rw [hd] at hinv1
      have hh1 : s1.cache.head = A := hinv1.list.head
      have hd1 : s1.data A = s.data A := (hss.data A).trans (hdata A)
      rcases hcase with ⟨_, rfl⟩ | ⟨_, kept, x, hk, _, hE⟩
      · exact ⟨hh1, hd1, Or.inl hinv1.entries_eq⟩
      · rw [hd] at hk
        rcases eq_nil_or_snoc (l.erase A) with h | ⟨k, y, hky⟩
        · exact absurd h hne
        · rw [hky, ← List.cons_append] at hk
          obtain ⟨rfl, rfl⟩ := append_singleton_inj hk
          have hl1 : ListAt s1 ((A :: k) ++ [y]) := by
            rw [List.cons_append, ← hky]; exact hinv1.list
          have hAy : A ≠ y := fun e =>
            Evicted.not_mem hl1 (e ▸ List.mem_cons_self A k)
          refine ⟨by rw [hE.head]; exact hh1, by rw [hE.data A hAy]; exact hd1,
            Or.inr ⟨k, y, hky, Evicted.entries_kept hl1 hE, hE.gone⟩⟩
    · intro f bytes hf hen
      refine drain_evict_completes hinv' (by rw [h7]; exact hf) hf ?_
      rcases eq_nil_or_snoc (l.erase A) with h | ⟨k, y, hky⟩
      · exact absurd h hne
      · refine Or.inr ⟨A :: k, y, by rw [hd, hky]; rfl, ?_⟩
        rw [hky, getLastD_append_eq] at hen
        rw [hfree, hsize]
        exact hen

theorem hit_reorders_recency_witness :
    Inv cache_abc [3, 2, 1] ∧ pending cache_abc = [] ∧
    cache_out 4 "A" 7 cache_abc = .ok cache_abc_hit ∧ cache_abc_hit.cached = 1 ∧
    ∃ A, [3, 2, 1].find? (has_url cache_abc "A") = some A ∧ pending cache_abc_hit.state = [A] ∧
      (∀ f, 2 ≤ f → ∃ t, drain_hits f cache_abc_hit.state = .ok t ∧
        entries t = A :: [3, 2, 1].erase A ∧
        t.cache.free_bytes = cache_abc.cache.free_bytes) ∧
      (∀ f bytes t, drain_then_evict f bytes cache_abc_hit.state = .ok t →
        t.cache.head = A ∧ t.data A = cache_abc.data A ∧
        (entries t = A :: [3, 2, 1].erase A ∨
         ∃ k x, [3, 2, 1].erase A = k ++ [x] ∧ entries t = A :: k ∧ t.load x = .error .ub)) ∧
      (∀ f bytes, 2 ≤ f →
        bytes ≤ cache_abc.cache.free_bytes + cache_abc.size (([3, 2, 1].erase A).getLastD NULL) →
        ∃ t, drain_then_evict f bytes cache_abc_hit.state = .ok t) ∧
      (∀ f url' buf bytes, cache_in f url' buf bytes cache_abc_hit.state =
        (drain_then_evict f bytes cache_abc_hit.state >>= cache_in_store url' buf bytes)) :=
  ⟨cache_abc_inv, rfl, cache_abc_hit_eq, rfl,
    hit_reorders_recency cache_abc_inv (by decide) rfl cache_abc_hit_eq rfl⟩

/-- The instance given with C4: the list is C, B, A, then A is looked up and an
insert needs one eviction. The drain moves A to the head, the eviction frees B;
A and C stay, A at the head. -/
theorem hit_then_insert_evicts_B :
    (drain_then_evict 2 1048998 cache_abc_hit.state).map
        (fun t => (entries t, t.data 2, t.data 1, t.data 3))
      = .ok ([1, 3], none, some ("A", [0], 1), some ("C", [0], 1)) := by
  rfl

/-! ## C5: storing under a url that is already stored -/

theorem data_some_load {s : State} {p : Ptr} {u : String} {b : List Nat} {c : Int}
    (h : s.data p = some (u, b, c)) :
    ∃ n, s.load p = .ok n ∧ n.url = u ∧ n.buf = b ∧ n.content_length = c := by
  unfold State.data at h
  cases hn : s.load p with
  | error e => rw [hn] at h; cases h
  | ok n =>
    rw [hn] at h
    simp only [Option.some.injEq, Prod.mk.injEq] at h
    exact ⟨n, rfl, h.1, h.2.1, h.2.2⟩

theorem indexOf_head_lt {a b : Ptr} (t : List Ptr) (h : b ≠ a) :
    List.indexOf a (a :: t) < List.indexOf b (a :: t) := by
  rw [List.indexOf_cons_self, List.indexOf_cons_ne _ (Ne.symm h)]
  exact Nat.succ_pos _

/-- C9 (deferred hits are applied in read order) does not hold of the code:
`cache_hits_get` pops the top of the bag, so the drain loop of `cache_in` applies
the recorded hits last pushed first. On a well-formed cache whose pending hits
are `A :: rest` in push order, the drain completes, the list it leaves is the
fold of `moveToHead` over the pending references from the right, and the entry
`A` that was hit first ends at the head, closer to the head than every other
entry `B`, also one that was hit after it. -/
theorem hits_applied_last_first {s : State} {l : List Ptr} (hinv : Inv s l) {A : Ptr}
    {rest : List Ptr} (hp : pending s = A :: rest) {fuel : Nat}
    (hf : (pending s).length < fuel) :
    ∃ t, drain_hits fuel s = .ok t ∧ pending t = [] ∧
      entries t = (pending s).foldr moveToHead l ∧
      (entries t).headD NULL = A ∧
      ∀ B, B ≠ A → List.indexOf A (entries t) < List.indexOf B (entries t) := by
  obtain ⟨t, ht, hinvt, hpt, _⟩ := drain_inv hinv hf
  have he : entries t = (pending s).foldr moveToHead l := hinvt.entries_eq
  have hA : A ∈ rest.foldr moveToHead l := by
    have hm : ∀ p ∈ rest, p ∈ l := fun p hpr => hinv.hits p (by rw [hp]; exact List.mem_cons_of_mem _ hpr)
    exact (drained_perm l rest hm).mem_iff.2 (hinv.hits A (by rw [hp]; exact List.mem_cons_self _ _))
  have hshape : (pending s).foldr moveToHead l = A :: (rest.foldr moveToHead l).erase A := by
    rw [hp, List.foldr_cons, moveToHead_eq hA]
  refine ⟨t, ht, hpt, he, ?_, ?_⟩
  · rw [he, hshape]; rfl
  · intro B hB
    rw [he, hshape]
    exact indexOf_head_lt _ hB

theorem hits_applied_last_first_witness :
    Inv cache_abc_hit_AB.state [3, 2, 1] ∧ pending cache_abc_hit_AB.state = 1 :: [2] ∧
    (pending cache_abc_hit_AB.state).length < 3 ∧
    ∃ t, drain_hits 3 cache_abc_hit_AB.state = .ok t ∧ pending t = [] ∧
      entries t = (pending cache_abc_hit_AB.state).foldr moveToHead [3, 2, 1] ∧
      (entries t).headD NULL = 1 ∧
      ∀ B, B ≠ 1 → List.indexOf 1 (entries t) < List.indexOf B (entries t) :=
  ⟨cache_abc_hit_AB_inv, rfl, by decide,
    hits_applied_last_first cache_abc_hit_AB_inv (rfl : pending cache_abc_hit_AB.state = 1 :: [2])
      (by decide)⟩

/-- The run behind C9: the list is C, B, A (nodes 3, 2, 1); A is looked up, then
B. The drain of the next `cache_in` leaves A, B, C: A, hit first, is at the head
and B, hit last, is behind it. With a third hit, on C, the drain leaves A, B, C
again, and an eviction for one entry then removes C, the entry used last. -/
theorem hit_order_reversed :
    cache_out 4 "A" 7 cache_abc = .ok cache_abc_hit ∧
    cache_out 4 "B" 7 cache_abc_hit.state = .ok cache_abc_hit_AB ∧
    entries cache_abc_hit_AB.state = [3, 2, 1] ∧
    pending cache_abc_hit_AB.state = [1, 2] ∧
    (drain_hits 3 cache_abc_hit_AB.state).map entries = .ok [1, 2, 3] ∧
    ¬ List.indexOf 2 [1, 2, 3] < List.indexOf 1 [1, 2, 3] ∧
    cache_out 4 "C" 7 cache_abc_hit_AB.state = .ok cache_abc_hit_ABC ∧
    pending cache_abc_hit_ABC.state = [1, 2, 3] ∧
    (drain_hits 4 cache_abc_hit_ABC.state).map entries = .ok [1, 2, 3] ∧
    (drain_then_evict 4 1048998 cache_abc_hit_ABC.state).map
        (fun t => (entries t, t.data 3, t.data 1))
      = .ok ([1, 2], none, some ("A", [0], 1)) :=
  ⟨rfl, rfl, rfl, rfl, rfl, by decide, rfl, rfl, rfl, rfl⟩

/-! ## C20: the bounds of the hit bag -/

theorem bagOK_init (s0 : State) : BagOK (init_cache_hits s0) := by
  refine ⟨?_, ?_, ?_⟩ <;> simp [init_cache_hits, CACHE_HITS]

theorem cache_hits_get_ok {s : State} (hb : BagOK s) :
    ∃ p s', cache_hits_get s = .ok (p, s') ∧ BagOK s' ∧
      s'.cache_hits.bag_size = s.cache_hits.bag_size ∧
      (s.cache_hits.bag_index = 0 → s' = s ∧ p = NULL) ∧
      (s.cache_hits.bag_index ≠ 0 →
        s'.cache_hits.bag_index = s.cache_hits.bag_index - 1 ∧
        s.cache_hits.bag[(s.cache_hits.bag_index - 1).toNat]? = some p) := by
  rcases eq_nil_or_snoc (pending s) with hp | ⟨hs, x, hp⟩
  · have hz : s.cache_hits.bag_index = 0 := by
      have := pending_length hb
      rw [hp] at this
      simpa using this.symm
    exact ⟨NULL, s, cache_hits_get_nil hb hp, hb, rfl, fun _ => ⟨rfl, rfl⟩,
      fun h => absurd hz h⟩
  · have hlen := pending_length hb
    rw [hp] at hlen
    simp only [List.length_append, List.length_singleton] at hlen
    obtain ⟨s', hg, hb', _, _, _, _⟩ := cache_hits_get_snoc hb hp
    have hg' := hg
    unfold cache_hits_get is_cache_hits_empty at hg'
    have hne : ¬ s.cache_hits.bag_index = 0 := by omega
    have hnn : ¬ s.cache_hits.bag_index - 1 < 0 := by omega
    simp only [beq_iff_eq, hne, not_false_eq_true, if_true, hnn, if_false] at hg'
    split at hg'
    · next q hq =>
      simp only [Except.ok.injEq, Prod.mk.injEq] at hg'
      obtain ⟨rfl, rfl⟩ := hg'
      exact ⟨_, _, hg, hb', rfl, fun h => absurd h hne, fun _ => ⟨rfl, hq⟩⟩
    · cases hg'

/-- A doubled size that still fits in `int` is at most `2^30`. -/
theorem size_doubled_le {k : Nat} (hk : k ≤ 25) {size : Int} (hs : size = CACHE_HITS * 2 ^ k)
    (hfit : 2 * size ≤ INT_MAX) : k + 1 ≤ 25 := by
  by_contra hc
  have h25 : k = 25 := by omega
  subst h25
  rw [hs] at hfit
  revert hfit
  decide

theorem size_le_of_sizeOK {s : State} (h : SizeOK s) : s.cache_hits.bag_size ≤ 1073741824 := by
  obtain ⟨k, hk, hs⟩ := h
  rw [hs]
  have h2 : (2 : Int) ^ k ≤ 2 ^ 25 := pow_le_pow_right₀ (by decide) hk
  have h3 : CACHE_HITS * (2 : Int) ^ 25 = 1073741824 := by decide
  have h4 : CACHE_HITS * (2 : Int) ^ k ≤ CACHE_HITS * 2 ^ 25 :=
    Int.mul_le_mul_of_nonneg_left h2 (by decide)
  omega

theorem bagReachable_ok {s : State} (h : BagReachable s) : BagOK s ∧ SizeOK s := by
  induction h with
  | init s0 => exact ⟨bagOK_init s0, 0, by decide, by simp [init_cache_hits]⟩
  | @put n s1 s2 _ hput ih =>
    obtain ⟨hb, k, hk25, hk⟩ := ih
    rcases cache_hits_put_cases hb n with ⟨_, _, hf⟩ |
      ⟨hroom, s3, h3, hb3, _, _, _, _, _, hd, hs⟩
    · rw [hput] at hf; cases hf
    · rw [hput] at h3
      cases h3
      refine ⟨hb3, ?_⟩
      by_cases he : s1.cache_hits.bag_index + 1 = s1.cache_hits.bag_size
      · have hfit : 2 * s1.cache_hits.bag_size ≤ INT_MAX := by
          rcases hroom with h | h
          · omega
          · exact h
        exact ⟨k + 1, size_doubled_le hk25 hk hfit, by rw [hd he, hk, pow_succ]; ring⟩
      · exact ⟨k, hk25, by rw [hs he, hk]⟩
  | get _ hget ih =>
    obtain ⟨hb, k, hk25, hk⟩ := ih
    obtain ⟨p2, s2, h2, hb2, hsz, _⟩ := cache_hits_get_ok hb
    rw [hget] at h2
    cases h2
    exact ⟨hb2, k, hk25, by rw [hsz, hk]⟩

theorem cache_hits_puts_succ (n : Ptr) (k : Nat) (s : State) :
    cache_hits_puts n (k + 1) s = (cache_hits_puts n k s >>= cache_hits_put n) := rfl

/-- Fewer than `2^30` calls of `cache_hits_put` after `init_cache_hits` all
complete; they touch nothing but the bag, and the bag holds what was put. -/
theorem cache_hits_puts_run (n : Ptr) (s0 : State) : ∀ k : Nat, k < 1073741824 →
    ∃ s, cache_hits_puts n k (init_cache_hits s0) = .ok s ∧ BagReachable s ∧
      s.cache_hits.bag_index = k ∧ s.mem = s0.mem ∧ s.cache = s0.cache ∧
      ∀ p ∈ pending s, p = n := by
  intro k
  induction k with
  | zero =>
    exact fun _ => ⟨_, rfl, BagReachable.init s0, rfl, rfl, rfl, fun p hp => by cases hp⟩
  | succ k ih =>
    intro hk
    obtain ⟨s, hs, hr, hi, hm, hc, hp⟩ := ih (by omega)
    obtain ⟨hb, _⟩ := bagReachable_ok hr
    rcases cache_hits_put_cases hb n with ⟨hov, heq, _⟩ |
      ⟨_, s', hput, _, hp', hm', hc', _, hi', _, _⟩
    · exfalso
      unfold INT_MAX at hov
      omega
    · refine ⟨s', ?_, BagReachable.put n hr hput, ?_, by rw [hm', hm], by rw [hc', hc], ?_⟩
      · rw [cache_hits_puts_succ, hs]; exact hput
      · rw [hi', hi]; rfl
      · intro p hpp
        rw [hp'] at hpp
        rcases List.mem_append.1 hpp with h | h
        · exact hp p h
        · exact List.mem_singleton.1 h

/-- C20 (hit bag bounds) fails past `2^30` references. After `init_cache_hits`,
`2^30 - 1` calls of `cache_hits_put` complete and leave `bag_index = 2^30 - 1`
and `bag_size = 2^30`; the next call increments `bag_index` to `bag_size` and
`resize_cache_hits` computes `2*bag_size = 2^31` in `int`, a signed overflow. So
a sequence of `2^30` calls of `cache_hits_put` does not end in a state with
`bag_index < bag_size`. -/
theorem hit_bag_overflow :
    ∃ s, cache_hits_puts 1 1073741823 (init_cache_hits init_cache) = .ok s ∧ BagReachable s ∧
      s.cache_hits.bag_index = 1073741823 ∧ s.cache_hits.bag_size = 1073741824 ∧
      INT_MAX < 2 * s.cache_hits.bag_size ∧
      cache_hits_put 1 s = .error .ub ∧
      cache_hits_puts 1 (1073741823 + 1) (init_cache_hits init_cache) = .error .ub := by
  obtain ⟨s, hs, hr, hi, _, _, _⟩ := cache_hits_puts_run 1 init_cache 1073741823 (by decide)
  obtain ⟨hb, hsz⟩ := bagReachable_ok hr
  have hle := size_le_of_sizeOK hsz
  have hlt := hb.index_lt
  have hi' : s.cache_hits.bag_index = 1073741823 := by rw [hi]; rfl
  have hsize : s.cache_hits.bag_size = 1073741824 := by omega
  have hput : cache_hits_put 1 s = .error .ub := by
    rcases cache_hits_put_cases hb 1 with ⟨_, _, hf⟩ | ⟨hroom, _⟩
    · exact hf
    · exfalso
      unfold BagRoom INT_MAX at hroom
      omega
  refine ⟨s, hs, hr, hi', hsize, by rw [hsize]; decide, hput, ?_⟩
  rw [cache_hits_puts_succ, hs]
  exact hput

/-- C20 as amended: after `init_cache_hits` and any completed `cache_hits_put`
and `cache_hits_get` calls, `0 <= bag_index < bag_size`, the array has
`bag_size` slots, and `bag_size` is `CACHE_HITS` times a power of two and at most
`2^30`. While `bag_index + 1 < bag_size` or `bag_size < 2^30`, `cache_hits_put`
completes (its write at `bag_index` is inside the array) and doubles `bag_size`
exactly when the incremented `bag_index` reaches `bag_size`; when
`bag_index + 1 = bag_size = 2^30` the doubling overflows `int` and the call does
not complete. `cache_hits_get` completes, reading slot `bag_index - 1` when the
bag is not empty and nothing when it is, and leaves `bag_size` alone. -/
theorem hit_bag_bounds (s : State) (h : BagReachable s) :
    (0 ≤ s.cache_hits.bag_index ∧ s.cache_hits.bag_index < s.cache_hits.bag_size) ∧
    (s.cache_hits.bag.length : Int) = s.cache_hits.bag_size ∧
    (∃ k : Nat, s.cache_hits.bag_size = CACHE_HITS * 2 ^ k) ∧
    s.cache_hits.bag_size ≤ 1073741824 ∧
    (∀ n, s.cache_hits.bag_index + 1 < s.cache_hits.bag_size ∨
        s.cache_hits.bag_size < 1073741824 →
      ∃ s', cache_hits_put n s = .ok s' ∧
      s'.cache_hits.bag_index = s.cache_hits.bag_index + 1 ∧
      (s.cache_hits.bag_index + 1 = s.cache_hits.bag_size →
        s'.cache_hits.bag_size = 2 * s.cache_hits.bag_size) ∧
      (s.cache_hits.bag_index + 1 ≠ s.cache_hits.bag_size →
        s'.cache_hits.bag_size = s.cache_hits.bag_size)) ∧
    (∀ n, s.cache_hits.bag_index + 1 = s.cache_hits.bag_size →
      s.cache_hits.bag_size = 1073741824 → cache_hits_put n s = .error .ub) ∧
    (∃ p s', cache_hits_get s = .ok (p, s') ∧
      s'.cache_hits.bag_size = s.cache_hits.bag_size ∧
      (s.cache_hits.bag_index ≠ 0 →
        s'.cache_hits.bag_index = s.cache_hits.bag_index - 1 ∧
        s.cache_hits.bag[(s.cache_hits.bag_index - 1).toNat]? = some p)) := by
  obtain ⟨hb, hsz⟩ := bagReachable_ok h
  have hle := size_le_of_sizeOK hsz
  obtain ⟨k, _, hk⟩ := hsz
  refine ⟨⟨hb.index_nonneg, hb.index_lt⟩, hb.length, ⟨k, hk⟩, hle, ?_, ?_, ?_⟩
  · intro n hroom
    rcases cache_hits_put_cases hb n with ⟨hov, heq, _⟩ |
      ⟨_, s', h1, _, _, _, _, _, h2, h3, h4⟩
    · exfalso
      unfold INT_MAX at hov
      omega
    · exact ⟨s', h1, h2, h3, h4⟩
  · intro n heq hmax
    rcases cache_hits_put_cases hb n with ⟨_, _, hf⟩ | ⟨hroom, _⟩
    · exact hf
    · exfalso
      unfold BagRoom INT_MAX at hroom
      omega
  · obtain ⟨p, s', h1, _, h2, _, h3⟩ := cache_hits_get_ok hb
    exact ⟨p, s', h1, h2, h3⟩

theorem hit_bag_bounds_witness :
    BagReachable cache_one_hit.state ∧
    ((0 ≤ cache_one_hit.state.cache_hits.bag_index ∧
      cache_one_hit.state.cache_hits.bag_index < cache_one_hit.state.cache_hits.bag_size) ∧
    (cache_one_hit.state.cache_hits.bag.length : Int) = cache_one_hit.state.cache_hits.bag_size ∧
    (∃ k : Nat, cache_one_hit.state.cache_hits.bag_size = CACHE_HITS * 2 ^ k) ∧
    cache_one_hit.state.cache_hits.bag_size ≤ 1073741824 ∧
    (∀ n, cache_one_hit.state.cache_hits.bag_index + 1 < cache_one_hit.state.cache_hits.bag_size ∨
        cache_one_hit.state.cache_hits.bag_size < 1073741824 →
      ∃ s', cache_hits_put n cache_one_hit.state = .ok s' ∧
      s'.cache_hits.bag_index = cache_one_hit.state.cache_hits.bag_index + 1 ∧
      (cache_one_hit.state.cache_hits.bag_index + 1 = cache_one_hit.state.cache_hits.bag_size →
        s'.cache_hits.bag_size = 2 * cache_one_hit.state.cache_hits.bag_size) ∧
      (cache_one_hit.state.cache_hits.bag_index + 1 ≠ cache_one_hit.state.cache_hits.bag_size →
        s'.cache_hits.bag_size = cache_one_hit.state.cache_hits.bag_size)) ∧
    (∀ n, cache_one_hit.state.cache_hits.bag_index + 1 = cache_one_hit.state.cache_hits.bag_size →
      cache_one_hit.state.cache_hits.bag_size = 1073741824 →
      cache_hits_put n cache_one_hit.state = .error .ub) ∧
    (∃ p s', cache_hits_get cache_one_hit.state = .ok (p, s') ∧
      s'.cache_hits.bag_size = cache_one_hit.state.cache_hits.bag_size ∧
      (cache_one_hit.state.cache_hits.bag_index ≠ 0 →
        s'.cache_hits.bag_index = cache_one_hit.state.cache_hits.bag_index - 1 ∧
        cache_one_hit.state.cache_hits.bag[(cache_one_hit.state.cache_hits.bag_index - 1).toNat]?
          = some p))) :=
  ⟨BagReachable.put 1 (BagReachable.init cache_one) rfl,
    hit_bag_bounds cache_one_hit.state (BagReachable.put 1 (BagReachable.init cache_one) rfl)⟩

/-! ## C7 at the end of `int` -/

/-- C7 (lookup result) fails on a full hit bag. After `2^30 - 1` lookups of "a"
have been recorded on the cache `cache_one`, the cache is well-formed and holds
"a"; the next `cache_out("a", fd)` finds the entry, writes it, and then
`cache_hits_put` doubles `bag_size = 2^30` in `int`, a signed overflow: the call
does not return 1. -/
theorem lookup_bag_overflow :
    init_cache_hits cache_one = cache_one ∧
    ∃ s, cache_hits_puts 1 1073741823 (init_cache_hits cache_one) = .ok s ∧ Inv s [1] ∧
      s.mem = cache_one.mem ∧ s.cache = cache_one.cache ∧
      first_match s "a" [1] = some 1 ∧
      s.cache_hits.bag_index = 1073741823 ∧ s.cache_hits.bag_size = 1073741824 ∧
      ¬ BagRoom s ∧
      ∀ fuel fd, 2 ≤ fuel → cache_out fuel "a" fd s = .error .ub := by
  refine ⟨rfl, ?_⟩
  obtain ⟨s, hs, hr, hi, hm, hc, hp⟩ := cache_hits_puts_run 1 cache_one 1073741823 (by decide)
  obtain ⟨hb, hsz⟩ := bagReachable_ok hr
  have hle := size_le_of_sizeOK hsz
  have hlt := hb.index_lt
  have hi' : s.cache_hits.bag_index = 1073741823 := by rw [hi]; rfl
  have hsize : s.cache_hits.bag_size = 1073741824 := by omega
  have hinv : Inv s [1] :=
    cache_one_inv.of_same_store hm hc hb
      (fun p hpp => by rw [hp p hpp]; exact List.mem_singleton_self 1)
  have hn : s.load 1 = .ok ⟨"a", [1, 2, 3], 3, 0, 0⟩ := by
    rw [load_congr hm 1]; rfl
  have hfm : first_match s "a" [1] = some 1 := by
    unfold first_match
    have hu : has_url s "a" 1 = true := by
      unfold has_url; rw [hn]; rfl
    simp [List.find?, hu]
  have hroom : ¬ BagRoom s := by
    unfold BagRoom INT_MAX
    omega
  refine ⟨s, hs, hinv, hm, hc, hfm, hi', hsize, hroom, ?_⟩
  intro fuel fd hf
  rw [cache_out_hit_eq hinv (Nat.lt_of_lt_of_le (by decide) hf) "a" fd hfm hn]
  have hb1 : BagOK { s with read_cnt := s.read_cnt + 1 } := ⟨hb.1, hb.2, hb.3⟩
  rcases cache_hits_put_cases hb1 1 with ⟨_, _, he⟩ | ⟨hroom1, _⟩
  · rw [he]; rfl
  · exact absurd hroom1 hroom

/-! ## C14: the reader gate -/

theorem concInv_init (threads : Nat) : ConcInv (conc_init threads) :=
  ⟨rfl, rfl, rfl, rfl⟩

theorem concInv_step {op : ConcOp} {s s' : Conc} (hi : ConcInv s)
    (h : conc_step op s = some s') : ConcInv s' := by
  obtain ⟨h1, h2, h3, h4⟩ := hi
  unfold Conc.readers at h3
  cases op <;> simp only [conc_step] at h <;> split at h <;>
    first
    | (simp only [Option.some.injEq] at h
       subst h
       refine ⟨?_, ?_, ?_, ?_⟩ <;> dsimp only [Conc.readers] <;>
         first
         | omega
         | (split_ifs at h3 ⊢ <;> omega))
    | cases h

theorem concReachable_inv {s : Conc} (h : ConcReachable s) : ConcInv s := by
  induction h with
  | init threads => exact concInv_init threads
  | step op _ hstep ih => exact concInv_step ih hstep

theorem conc_run_reachable : ∀ (ops : List ConcOp) {s t : Conc}, ConcReachable s →
    conc_run ops s = some t → ConcReachable t := by
  intro ops
  induction ops with
  | nil =>
    intro s t hs h
    simp only [conc_run, Option.some.injEq] at h
    exact h ▸ hs
  | cons op rest ih =>
    intro s t hs h
    simp only [conc_run] at h
    cases hstep : conc_step op s with
    | none => rw [hstep] at h; cases h
    | some s1 =>
      rw [hstep] at h
      exact ih (ConcReachable.step op hs hstep) h

/-- One more thread enters `cache_out` and starts to scan. -/
theorem scan_state_enter (k n : Nat) :
    ∃ ops, conc_run ops (scan_state k (n + 1)) = some (scan_state (k + 1) n) := by
  by_cases hk : k = 0
  · subst hk
    exact ⟨[ConcOp.out_P_read_mutex, ConcOp.out_incr, ConcOp.out_first_P_w,
      ConcOp.out_V_read_mutex], by simp [conc_run, conc_step, scan_state]⟩
  · refine ⟨[ConcOp.out_P_read_mutex, ConcOp.out_incr, ConcOp.out_next_V_read_mutex], ?_⟩
    have h1 : ¬ ((k : Int) + 1 = 1) := by omega
    simp [conc_run, conc_step, scan_state, hk, h1]

theorem scan_state_reachable : ∀ k n : Nat, ConcReachable (scan_state k n) := by
  intro k
  induction k with
  | zero => exact fun n => ConcReachable.init n
  | succ k ih =>
    intro n
    obtain ⟨ops, h⟩ := scan_state_enter k n
    exact conc_run_reachable ops (ih (n + 1)) h

/-- C14 (reader gate) fails in its first part: `read_cnt > 0` and "w is held on
behalf of the readers" differ while a `cache_out` stands between its update of
`read_cnt` and its operation on `w`. While a `cache_in` is inside its critical
part, a `cache_out` passes `P(&read_mutex)` and `read_cnt++`: now
`read_cnt = 1`, the semaphore `w` is held by the `cache_in`, and `P(&w)` of line
262 blocks. And when the only reader has passed `read_cnt--`, `read_cnt = 0`
while `w` is still held for it, up to `V(&w)` of line 278. -/
theorem reader_gate_counterexample :
    conc_run [ConcOp.in_P_w, ConcOp.out_P_read_mutex, ConcOp.out_incr] (conc_init 2)
      = some reader_waiting ∧
    ConcReachable reader_waiting ∧ 0 < reader_waiting.read_cnt ∧ reader_waiting.writing = 1 ∧
    reader_waiting.w = 0 ∧ ¬ reader_waiting.w_held_by_readers ∧
    conc_step ConcOp.out_first_P_w reader_waiting = none ∧
    conc_run [ConcOp.out_P_read_mutex, ConcOp.out_incr, ConcOp.out_first_P_w,
        ConcOp.out_V_read_mutex, ConcOp.out_miss_P_read_mutex, ConcOp.out_decr] (conc_init 1)
      = some reader_leaving ∧
    ConcReachable reader_leaving ∧ ¬ 0 < reader_leaving.read_cnt ∧
    reader_leaving.w_held_by_readers :=
  ⟨rfl, conc_run_reachable _ (ConcReachable.init 2)
      (rfl : conc_run [ConcOp.in_P_w, ConcOp.out_P_read_mutex, ConcOp.out_incr] (conc_init 2)
        = some reader_waiting),
    by decide, rfl, rfl, fun h => absurd h.2 (by decide), rfl, rfl,
    conc_run_reachable _ (ConcReachable.init 1)
      (rfl : conc_run [ConcOp.out_P_read_mutex, ConcOp.out_incr, ConcOp.out_first_P_w,
        ConcOp.out_V_read_mutex, ConcOp.out_miss_P_read_mutex, ConcOp.out_decr] (conc_init 1)
        = some reader_leaving),
    by decide, ⟨rfl, rfl⟩⟩

/-- C14 as amended: in every state of every interleaving of `cache_out` and
`cache_in` calls, `w` is held on behalf of the readers exactly while
`read_cnt > 0`, apart from two moments of the thread that holds `read_mutex`:
the first reader has counted itself and not yet passed `P(&w)` (`read_cnt = 1`,
`w` not held for the readers, no reader inside), and the last reader has
uncounted itself and not yet performed `V(&w)` (`read_cnt = 0`, `w` still held
for it). In every state `w` is held on behalf of the readers exactly while
some `cache_out` is between its entry and its exit; no `cache_in` is in its
critical section while a `cache_out` is there, in particular while one scans the
list; at most one `cache_in` is in its critical section; and for every `k` there
is a state in which `k` calls of `cache_out` scan the list at once. -/
theorem reader_gate :
    (∀ s, ConcReachable s →
      (¬ s.entering → ¬ s.leaving → (s.w_held_by_readers ↔ 0 < s.read_cnt)) ∧
      (s.entering → 0 < s.read_cnt ∧ ¬ s.w_held_by_readers ∧ s.readers = 0 ∧
        s.read_mutex = 0) ∧
      (s.leaving → ¬ 0 < s.read_cnt ∧ s.w_held_by_readers ∧ s.readers = 1 ∧
        s.read_mutex = 0) ∧
      (s.w_held_by_readers ↔ 0 < s.readers) ∧
      (0 < s.writing → s.readers = 0 ∧ s.reading = 0 ∧ s.in_bag = 0) ∧
      (0 < s.readers → s.writing = 0) ∧
      s.writing ≤ 1) ∧
    (∀ k n, ConcReachable (scan_state k n) ∧ (scan_state k n).reading = k ∧
      (scan_state k n).writing = 0) := by
  refine ⟨fun s hs => ?_, fun k n => ⟨scan_state_reachable k n, rfl, rfl⟩⟩
  obtain ⟨h1, h2, h3, h4⟩ := concReachable_inv hs
  unfold Conc.w_held_by_readers Conc.entering Conc.leaving
  unfold Conc.readers at h3 ⊢
  have key : (0 < s.first_in + s.reading + s.in_bag + s.read_done + s.at_exit + s.uncounted ∧
        s.w + s.writing = 0) ∨
      (s.first_in + s.reading + s.in_bag + s.read_done + s.at_exit + s.uncounted = 0 ∧
        s.w + s.writing = 1) := by
    by_cases hr : 0 < s.first_in + s.reading + s.in_bag + s.read_done + s.at_exit + s.uncounted
    · rw [if_pos hr] at h3
      exact Or.inl ⟨hr, by omega⟩
    · rw [if_neg hr] at h3
      exact Or.inr ⟨by omega, by omega⟩
  refine ⟨fun he hl => ⟨fun hw => ?_, fun hr => ?_⟩, fun he => ?_, fun hl => ?_,
    ⟨fun hw => ?_, fun hr => ?_⟩, fun hw => ?_, fun hr => ?_, ?_⟩ <;> omega

theorem reader_gate_witness :
    ConcReachable (scan_state 2 1) ∧
    ((¬ (scan_state 2 1).entering → ¬ (scan_state 2 1).leaving →
        ((scan_state 2 1).w_held_by_readers ↔ 0 < (scan_state 2 1).read_cnt)) ∧
      ((scan_state 2 1).entering → 0 < (scan_state 2 1).read_cnt ∧
        ¬ (scan_state 2 1).w_held_by_readers ∧ (scan_state 2 1).readers = 0 ∧
        (scan_state 2 1).read_mutex = 0) ∧
      ((scan_state 2 1).leaving → ¬ 0 < (scan_state 2 1).read_cnt ∧
        (scan_state 2 1).w_held_by_readers ∧ (scan_state 2 1).readers = 1 ∧
        (scan_state 2 1).read_mutex = 0) ∧
      ((scan_state 2 1).w_held_by_readers ↔ 0 < (scan_state 2 1).readers) ∧
      (0 < (scan_state 2 1).writing → (scan_state 2 1).readers = 0 ∧
        (scan_state 2 1).reading = 0 ∧ (scan_state 2 1).in_bag = 0) ∧
      (0 < (scan_state 2 1).readers → (scan_state 2 1).writing = 0) ∧
      (scan_state 2 1).writing ≤ 1) :=
  ⟨(reader_gate.2 2 1).1, reader_gate.1 (scan_state 2 1) (reader_gate.2 2 1).1⟩

/-! ## C15, C16: `parse_uri` and `is_valid` of `proxy.c` -/

theorem strchr_none_iff (c : Char) : ∀ s : List Char, strchr s c = none ↔ c ∉ s := by
  intro s
  induction s with
  | nil => simp [strchr]
  | cons x rest ih =>
    unfold strchr
    by_cases hx : x = c
    · simp [hx]
    · simp only [hx, if_false, Option.map_eq_none', ih, List.mem_cons, not_or]
      exact ⟨fun h => ⟨fun e => hx e.symm, h⟩, fun h => h.2⟩

theorem strchr_append (c : Char) (rest : List Char) : ∀ pre : List Char, c ∉ pre →
    strchr (pre ++ c :: rest) c = some pre.length := by
  intro pre
  induction pre with
  | nil => intro _; simp [strchr]
  | cons x pre ih =>
    intro h
    simp only [List.mem_cons, not_or] at h
    have hx : ¬ x = c := fun e => h.1 e.symm
    simp [strchr, hx, ih h.2]

theorem strchr_some (c : Char) : ∀ (s : List Char) (i : Nat), strchr s c = some i →
    c ∉ s.take i ∧ s = s.take i ++ c :: s.drop (i + 1) := by
  intro s
  induction s with
  | nil => intro i h; simp [strchr] at h
  | cons x rest ih =>
    intro i h
    unfold strchr at h
    by_cases hx : x = c
    · simp only [hx, if_true, Option.some.injEq] at h
      subst h
      simp [hx]
    · simp only [hx, if_false, Option.map_eq_some'] at h
      obtain ⟨j, hj, rfl⟩ := h
      obtain ⟨h1, h2⟩ := ih j hj
      refine ⟨?_, ?_⟩
      · simp only [List.take_succ_cons, List.mem_cons, not_or]
        exact ⟨fun e => hx e.symm, h1⟩
      · simp only [List.take_succ_cons, List.drop_succ_cons, List.cons_append]
        rw [← h2]

theorem strstr_slashes (rest : List Char) : ∀ pre : List Char, '/' ∉ pre →
    strstr (pre ++ '/' :: '/' :: rest) ['/', '/'] = some pre.length := by
  intro pre
  induction pre with
  | nil => intro _; simp [strstr, List.isPrefixOf]
  | cons x pre ih =>
    intro h
    simp only [List.mem_cons, not_or] at h
    have hx : ¬ x = '/' := fun e => h.1 e.symm
    have hb : ('/' == x) = false := by
      simp only [beq_eq_false_iff_ne, ne_eq]
      exact h.1
    simp [strstr, List.isPrefixOf, hb, ih h.2]

/-- Where C15 holds, without a port: the scheme holds no slash, the host neither
colon nor slash, the path no colon, and the path is shorter than what stands
before it, so that the last `strcpy` copies between ranges that do not overlap. -/
theorem parse_uri_default_port (scheme host path : List Char) (hs : '/' ∉ scheme)
    (hh1 : ':' ∉ host) (hh2 : '/' ∉ host) (hp : ':' ∉ path)
    (hfit : path.length < scheme.length + 3 + host.length) :
    parse_uri (scheme ++ ':' :: '/' :: '/' :: (host ++ '/' :: path))
      = .ok ⟨'/' :: path, host, ['8', '0']⟩ := by
  have hpre : '/' ∉ scheme ++ [':'] := by
    simp only [List.mem_append, List.mem_singleton, not_or]
    exact ⟨hs, by decide⟩
  have e1 : scheme ++ ':' :: '/' :: '/' :: (host ++ '/' :: path)
      = (scheme ++ [':']) ++ '/' :: '/' :: (host ++ '/' :: path) := by simp
  have hdrop : (scheme ++ ':' :: '/' :: '/' :: (host ++ '/' :: path)).drop
      ((scheme ++ [':']).length + 2) = host ++ '/' :: path := by
    rw [e1, List.drop_append_eq_append_drop]
    simp
  have hnone : strchr (host ++ '/' :: path) ':' = none := by
    rw [strchr_none_iff]
    simp only [List.mem_append, List.mem_cons, not_or]
    exact ⟨hh1, by decide, hp⟩
  have hdrop2 : (scheme ++ ':' :: '/' :: '/' :: (host ++ '/' :: path)).drop
      ((scheme ++ [':']).length + 2 + host.length + 1) = path := by
    rw [Nat.add_assoc ((scheme ++ [':']).length + 2), ← List.drop_drop, hdrop,
      List.drop_append_eq_append_drop]
    simp
  have hn : ¬ ((scheme ++ [':']).length + 2 + host.length ≤ path.length) := by
    simp only [List.length_append, List.length_singleton]
    omega
  unfold parse_uri
  rw [e1, strstr_slashes _ _ hpre]
  simp only []
  rw [← e1, hdrop, hnone]
  simp only [strchr_append '/' path host hh2]
  rw [hdrop2, if_neg hn]
  simp

/-- Where C15 holds, with a port: the scheme holds no slash, the host no colon,
the port no slash, and the path is shorter than what stands before it, so that
the last `strcpy` copies between ranges that do not overlap. -/
theorem parse_uri_given_port (scheme host port path : List Char) (hs : '/' ∉ scheme)
    (hh : ':' ∉ host) (hp : '/' ∉ port)
    (hfit : path.length < scheme.length + 4 + host.length + port.length) :
    parse_uri (scheme ++ ':' :: '/' :: '/' :: (host ++ ':' :: (port ++ '/' :: path)))
      = .ok ⟨'/' :: path, host, port⟩ := by
  have hpre : '/' ∉ scheme ++ [':'] := by
    simp only [List.mem_append, List.mem_singleton, not_or]
    exact ⟨hs, by decide⟩
  have e1 : scheme ++ ':' :: '/' :: '/' :: (host ++ ':' :: (port ++ '/' :: path))
      = (scheme ++ [':']) ++ '/' :: '/' :: (host ++ ':' :: (port ++ '/' :: path)) := by simp
  have hdrop : (scheme ++ ':' :: '/' :: '/' :: (host ++ ':' :: (port ++ '/' :: path))).drop
      ((scheme ++ [':']).length + 2) = host ++ ':' :: (port ++ '/' :: path) := by
    rw [e1, List.drop_append_eq_append_drop]
    simp
  have hdrop2 : (scheme ++ ':' :: '/' :: '/' :: (host ++ ':' :: (port ++ '/' :: path))).drop
      ((scheme ++ [':']).length + 2 + host.length + 1) = port ++ '/' :: path := by
    rw [Nat.add_assoc ((scheme ++ [':']).length + 2), ← List.drop_drop, hdrop,
      List.drop_append_eq_append_drop]
    simp
  have hdrop3 : (scheme ++ ':' :: '/' :: '/' :: (host ++ ':' :: (port ++ '/' :: path))).drop
      ((scheme ++ [':']).length + 2 + host.length + 1 + port.length + 1) = path := by
    rw [Nat.add_assoc _ port.length 1, ← List.drop_drop, hdrop2,
      List.drop_append_eq_append_drop]
    simp
  have hn : ¬ ((scheme ++ [':']).length + 2 + host.length + 1 + port.length ≤ path.length) := by
    simp only [List.length_append, List.length_singleton]
    omega
  unfold parse_uri
  rw [e1, strstr_slashes _ _ hpre]
  simp only []
  rw [← e1, hdrop, strchr_append ':' _ host hh]
  simp only []
  rw [hdrop2, strchr_append '/' path port hp]
  simp only [List.take_left']
  rw [hdrop3, if_neg hn]

/-- The last `strcpy` of `parse_uri` on a long path: in `http://h/index.html`
the path has 10 characters and the slash before it stands at offset 8, so the copy to offset 1
overlaps its source. -/
theorem parse_uri_long_path :
    "http://h/index.html".toList = "http".toList ++ "://".toList ++ "h".toList
      ++ '/' :: "index.html".toList ∧
    parse_uri "http://h/index.html".toList = .error .ub ∧
    parse_uri "http://host/a.html".toList = .ok ⟨"/a.html".toList, "host".toList, "80".toList⟩ :=
  ⟨rfl, rfl, rfl⟩

/-- C15 (code defect): `parse_uri` takes the first colon after the two slashes as
the start of the port, also when it stands in the path. On `http://host/a:b`,
which has the form scheme://host/path, the search for the slash after the port
returns nil and the code writes through it; on `http://host/a:b/c` the call
returns with hostname `host/a`, port `b` and uri `/c`. -/
theorem parse_uri_colon_in_path :
    "http://host/a:b".toList = "http".toList ++ "://".toList ++ "host".toList ++ '/' :: "a:b".toList
    ∧ parse_uri "http://host/a:b".toList = .error .ub
    ∧ "http://host/a:b/c".toList
        = "http".toList ++ "://".toList ++ "host".toList ++ '/' :: "a:b/c".toList
    ∧ parse_uri "http://host/a:b/c".toList
        = .ok ⟨"/c".toList, "host/a".toList, "b".toList⟩ :=
  ⟨rfl, rfl, rfl, rfl⟩

theorem tokens_ne_nil : ∀ buf : List Char, tokens buf ≠ [] := by
  intro buf
  induction buf with
  | nil => simp [tokens]
  | cons c rest ih =>
    unfold tokens
    by_cases hc : c = ' '
    · simp [hc]
    · simp only [hc, if_false]
      cases h : tokens rest with
      | nil => simp
      | cons t ts => simp

/-- The first token is what stands before the first space; the other tokens are
those of what follows that space. -/
theorem tokens_cons_spec : ∀ (buf t : List Char) (ts : List (List Char)),
    tokens buf = t :: ts →
    ' ' ∉ t ∧ ((ts = [] ∧ buf = t) ∨
      (ts ≠ [] ∧ ∃ rest, buf = t ++ ' ' :: rest ∧ tokens rest = ts)) := by
  intro buf
  induction buf with
  | nil =>
    intro t ts h
    simp only [tokens, List.cons.injEq] at h
    obtain ⟨rfl, rfl⟩ := h
    simp
  | cons c rest ih =>
    intro t ts h
    unfold tokens at h
    by_cases hc : c = ' '
    · simp only [hc, if_true, List.cons.injEq] at h
      obtain ⟨rfl, rfl⟩ := h
      refine ⟨by simp, Or.inr ⟨tokens_ne_nil rest, rest, ?_, rfl⟩⟩
      simp [hc]
    · simp only [hc, if_false] at h
      cases h2 : tokens rest with
      | nil => exact absurd h2 (tokens_ne_nil rest)
      | cons t2 ts2 =>
        rw [h2] at h
        simp only [List.cons.injEq] at h
        obtain ⟨rfl, rfl⟩ := h
        obtain ⟨hn, hcase⟩ := ih t2 ts2 h2
        refine ⟨?_, ?_⟩
        · simp only [List.mem_cons, not_or]
          exact ⟨fun e => hc e.symm, hn⟩
        · rcases hcase with ⟨hts, hb⟩ | ⟨hts, r, hb, hr⟩
          · exact Or.inl ⟨hts, by rw [hb]⟩
          · exact Or.inr ⟨hts, r, by rw [hb]; rfl, hr⟩

theorem tokens_append (rest : List Char) : ∀ t : List Char, ' ' ∉ t →
    tokens (t ++ ' ' :: rest) = t :: tokens rest := by
  intro t
  induction t with
  | nil => intro _; simp [tokens]
  | cons c t ih =>
    intro h
    simp only [List.mem_cons, not_or] at h
    have hc : ¬ c = ' ' := fun e => h.1 e.symm
    simp [tokens, hc, ih h.2]

/-- What `is_valid` tests: the line starts with a non-empty run without a space,
one space, a second non-empty run without a space, and one more space; what
follows that space is not looked at. -/
theorem is_valid_eq_one_iff (buf : List Char) :
    is_valid buf = 1 ↔ ∃ m u rest : List Char, buf = m ++ ' ' :: (u ++ ' ' :: rest)
      ∧ m ≠ [] ∧ ' ' ∉ m ∧ u ≠ [] ∧ ' ' ∉ u := by
  constructor
  · intro h
    unfold is_valid at h
    by_cases h1 : deref buf ≠ ' '
    · rw [if_pos h1] at h
      cases hc : strchr buf ' ' with
      | none => rw [hc] at h; exact absurd h zero_ne_one_int
      | some cp =>
        rw [hc] at h
        simp only [] at h
        by_cases h2 : deref (buf.drop (cp + 1)) ≠ ' ' ∧ (strchr (buf.drop (cp + 1)) ' ').isSome
        · obtain ⟨h2a, h2b⟩ := h2
          obtain ⟨k, hk⟩ := Option.isSome_iff_exists.mp h2b
          obtain ⟨hm1, hm2⟩ := strchr_some ' ' buf cp hc
          obtain ⟨hu1, hu2⟩ := strchr_some ' ' _ k hk
          refine ⟨buf.take cp, (buf.drop (cp + 1)).take k, (buf.drop (cp + 1)).drop (k + 1),
            ?_, ?_, hm1, ?_, hu1⟩
          · rw [← hu2]; exact hm2
          · intro e
            rw [e] at hm2
            rw [hm2] at h1
            exact h1 rfl
          · intro e
            rw [e] at hu2
            rw [hu2] at h2a
            exact h2a rfl
        · rw [if_neg h2] at h
          exact absurd h zero_ne_one_int
    · rw [if_neg h1] at h
      exact absurd h zero_ne_one_int
  · rintro ⟨m, u, rest, rfl, hm, hm2, hu, hu2⟩
    unfold is_valid
    have h1 : deref (m ++ ' ' :: (u ++ ' ' :: rest)) ≠ ' ' := by
      cases m with
      | nil => exact absurd rfl hm
      | cons c m =>
        simp only [List.mem_cons, not_or] at hm2
        simp only [deref, List.cons_append, List.headD_cons]
        exact fun e => hm2.1 e.symm
    rw [if_pos h1, strchr_append ' ' _ m hm2]
    simp only []
    have hd : (m ++ ' ' :: (u ++ ' ' :: rest)).drop (m.length + 1) = u ++ ' ' :: rest := by
      rw [List.drop_append_eq_append_drop]
      simp
    rw [hd, strchr_append ' ' _ u hu2]
    have h2 : deref (u ++ ' ' :: rest) ≠ ' ' := by
      cases u with
      | nil => exact absurd rfl hu
      | cons c u =>
        simp only [List.mem_cons, not_or] at hu2
        simp only [deref, List.cons_append, List.headD_cons]
        exact fun e => hu2.1 e.symm
    simp [h2]

/-- The direction of C16 that holds: a line of three non-empty tokens separated by
single spaces is accepted. -/
theorem is_valid_of_three_tokens (buf : List Char) (h : is_three_tokens buf = true) :
    is_valid buf = 1 := by
  unfold is_three_tokens at h
  cases ht : tokens buf with
  | nil => exact absurd ht (tokens_ne_nil buf)
  | cons m ts =>
    rw [ht] at h
    obtain ⟨hm, hcase⟩ := tokens_cons_spec buf m ts ht
    rcases hcase with ⟨rfl, _⟩ | ⟨_, r1, hb1, hr1⟩
    · simp at h
    · cases ts with
      | nil => simp at h
      | cons u ts2 =>
        obtain ⟨hu, hcase2⟩ := tokens_cons_spec r1 u ts2 hr1
        rcases hcase2 with ⟨rfl, _⟩ | ⟨_, r2, hb2, _⟩
        · simp at h
        · cases ts2 with
          | nil => simp at h
          | cons v ts3 =>
            cases ts3 with
            | cons w ts4 => simp at h
            | nil =>
              simp only [Bool.and_eq_true, Bool.not_eq_true', List.isEmpty_eq_false] at h
              rw [is_valid_eq_one_iff]
              refine ⟨m, u, r2, ?_, ?_, hm, ?_, hu⟩
              · rw [hb1, hb2]
              · intro e; rw [e] at h; simp at h
              · intro e; rw [e] at h; simp at h

/-- The lines `is_valid` accepts, by tokens: at least three tokens of which the
first two are non-empty; the third may be empty and more may follow. -/
theorem is_valid_iff_tokens (buf : List Char) :
    is_valid buf = 1 ↔ ∃ (m u : List Char) (ts : List (List Char)),
      tokens buf = m :: u :: ts ∧ ts ≠ [] ∧ m ≠ [] ∧ u ≠ [] := by
  rw [is_valid_eq_one_iff]
  constructor
  · rintro ⟨m, u, rest, rfl, hm, hm2, hu, hu2⟩
    exact ⟨m, u, tokens rest, by rw [tokens_append _ m hm2, tokens_append _ u hu2],
      tokens_ne_nil rest, hm, hu⟩
  · rintro ⟨m, u, ts, ht, hts, hm, hu⟩
    obtain ⟨hm2, hcase⟩ := tokens_cons_spec buf m (u :: ts) ht
    rcases hcase with ⟨hn, _⟩ | ⟨_, r1, hb1, hr1⟩
    · exact absurd hn (by simp)
    · obtain ⟨hu2, hcase2⟩ := tokens_cons_spec r1 u ts hr1
      rcases hcase2 with ⟨hn, _⟩ | ⟨_, r2, hb2, _⟩
      · exact absurd hn hts
      · exact ⟨m, u, r2, by rw [hb1, hb2], hm, hm2, hu, hu2⟩

/-- C16 (code defect): `is_valid` returns 1 for lines that are not three non-empty
tokens separated by single spaces. It stops looking at the second space: the
line `GET / ` with nothing after that space, the line `GET /  HTTP/1.0` with two
spaces after the uri and the four-token line `a b c d` (with or without its
line end) are all accepted. -/
theorem is_valid_accepts_other_forms :
    is_valid "GET / ".toList = 1 ∧ is_three_tokens "GET / ".toList = false
    ∧ tokens "GET / ".toList = ["GET".toList, "/".toList, []]
    ∧ is_valid "GET /  HTTP/1.0".toList = 1 ∧ is_three_tokens "GET /  HTTP/1.0".toList = false
    ∧ tokens "GET /  HTTP/1.0".toList = ["GET".toList, "/".toList, [], "HTTP/1.0".toList]
    ∧ is_valid "a b c d".toList = 1 ∧ is_three_tokens "a b c d".toList = false
    ∧ tokens "a b c d".toList = ["a".toList, "b".toList, "c".toList, "d".toList]
    ∧ is_valid ("a b c d".toList ++ CRLF) = 1
    ∧ is_three_tokens ("a b c d".toList ++ CRLF) = false := by
  refine ⟨by decide, by decide, by decide, by decide, by decide, by decide, by decide,
    by decide, by decide, by decide, by decide⟩

end ProxyCache
